import Mathlib

/-
  Verification development for the bucketed entity-storage engine
  (stk_mesh BucketRepository).  The definitions below are a shallow
  embedding of src/packages/stk/stk_mesh/stk_mesh/baseImpl/BucketRepository.cpp:
  pure functions become Lean functions, the repository becomes an explicit
  state record, and every mutating member function becomes a state-passing
  function returning `Except`, with the error payload carrying the state at
  the throw point (C++ `throw` leaves the partially mutated object behind).
-/

deriving instance DecidableEq for Except

namespace BucketRepo

/-- 16-byte alignment rounding; embedding of the local `align` helper
    (BucketRepository.cpp lines 45-51): `gap = nb % 16; if gap then nb += 16 - gap`. -/
def align (nb : Nat) : Nat :=
  let gap := nb % 16
  if gap = 0 then nb else nb + (16 - gap)

/-- A field restriction binds an EntityKey `(entity rank, part ordinal)` to a
    stride array; embedding of `FieldBase::Restriction` as consumed in
    BucketRepository.cpp (`restrictions()` is a key-sorted vector). -/
structure Restriction where
  rrank : Nat
  part : Nat
  stride : List Nat
  deriving DecidableEq, Repr

/-- Strict order on EntityKeys `(rank, ordinal)`; embedding of the
    `lhs.key < rhs` comparison used by `FieldRestrictionLess` (lines 53-57). -/
def rkeyLess (a b : Nat × Nat) : Bool :=
  a.1 < b.1 || (a.1 == b.1 && a.2 < b.2)

/-- Key of a restriction, as an EntityKey pair. -/
def Restriction.rkey (r : Restriction) : Nat × Nat := (r.rrank, r.part)

/-- Result of `std::lower_bound` over the (sorted) restriction vector starting
    at the current cursor: drop every restriction whose key is below the
    search key (dimension, lines 82). -/
def rLowerBound (rs : List Restriction) (k : Nat × Nat) : List Restriction :=
  rs.dropWhile (fun r => rkeyLess r.rkey k)

/-- Error raised by `dimension` on incompatible strides: it names the field
    and the two offending part ordinals (`p_old` is the ordinal of the current
    match `ibeg`, `p_new` the ordinal of the first match `dim`); lines 87-101. -/
structure DimErr where
  fieldName : Nat
  partOld : Nat
  partNew : Nat
  deriving DecidableEq, Repr

/-- A field as consumed by the layout code: a name (for error messages), the
    scalar byte stride `data_traits().stride_of`, the field rank, and the
    key-sorted restriction vector. -/
structure FieldB where
  fname : Nat
  typeStride : Nat
  frank : Nat
  restrictions : List Restriction
  deriving DecidableEq, Repr

/-- Loop body of `dimension` (BucketRepository.cpp lines 78-104): walk the
    part ordinals, advancing a `lower_bound` cursor into the restriction
    vector; the first match fixes `dim`, any later match whose stride differs
    from `dim` raises the incompatible-dimension error; the loop also stops
    once the cursor exhausts the restriction vector. -/
def dimensionAux (fname : Nat) (etype : Nat) :
    List Restriction → Option Restriction → List Nat →
    Except DimErr (Option Restriction)
  | _, dim, [] => .ok dim
  | rs, dim, p :: ps =>
    let rs1 := rLowerBound rs (etype, p)
    match rs1 with
    | [] => .ok dim
    | r :: _ =>
      if r.rrank = etype ∧ r.part = p then
        let d := dim.getD r
        if r.stride ≠ d.stride then
          .error ⟨fname, r.part, d.part⟩
        else
          dimensionAux fname etype rs1 (some d) ps
      else
        dimensionAux fname etype rs1 dim ps

/-- Embedding of the anonymous-namespace `dimension` function
    (BucketRepository.cpp lines 65-107).  `none` plays the role of the empty
    restriction (all-zero strides). -/
def dimension (f : FieldB) (etype : Nat) (parts : List Nat) :
    Except DimErr (Option Restriction) :=
  dimensionAux f.fname etype f.restrictions none parts

/-- Per-slot byte size of a field given its resolved restriction
    (declare_bucket lines 383-389): zero when there is no restriction or its
    leading stride is zero, else `type_stride * (rank ? stride[rank-1] : 1)`. -/
def fieldSize (f : FieldB) (dim : Option Restriction) : Nat :=
  match dim with
  | none => 0
  | some d =>
    if d.stride.headD 0 ≠ 0 then
      f.typeStride * (if f.frank = 0 then 1 else d.stride.getD (f.frank - 1) 0)
    else 0

/-- Byte size modelling `sizeof(Entity*)`. -/
def ptrSize : Nat := 8

/-- Offset-accumulating walk over the field set (declare_bucket lines
    375-400): each field records `(m_base, m_size)` and the running offset
    advances by `align(value_size * capacity)`; the final running offset is
    the `field_map[num_fields].m_base` terminator. -/
def computeFieldMapAux (cap etype : Nat) (parts : List Nat) :
    Nat → List FieldB → Except DimErr (List (Nat × Nat) × Nat)
  | off, [] => .ok ([], off)
  | off, f :: fs =>
    match dimension f etype parts with
    | .error e => .error e
    | .ok dim =>
      let sz := fieldSize f dim
      match computeFieldMapAux cap etype parts (off + align (sz * cap)) fs with
      | .error e => .error e
      | .ok (tail, endOff) => .ok ((off, sz) :: tail, endOff)

/-- Field-layout resolution for a new bucket family (declare_bucket lines
    367-401): field data memory starts after the aligned member-pointer array
    `align(sizeof(Entity*) * capacity)`. -/
def computeFieldMap (cap etype : Nat) (parts : List Nat) (fields : List FieldB) :
    Except DimErr (List (Nat × Nat) × Nat) :=
  computeFieldMapAux cap etype parts (align (ptrSize * cap)) fields

/-! ## Repository state model -/

abbrev EntityId := Nat

/-- A bucket: its part ordinals, family-sequence counter, capacity, current
    size, the per-slot member-entity pointer array (`None` = vacant slot), and
    a per-slot field-data payload standing for the field columns.
    From Bucket/BucketImpl as used by BucketRepository.cpp. -/
structure Bucket where
  parts : List Nat
  fam : Nat
  cap : Nat
  size : Nat
  slots : List (Option EntityId)
  data : List Nat
  deriving DecidableEq, Repr

/-- Stored key layout (declare_bucket lines 303-306):
    `{ part_count + 1 , { part_ordinals } , family_count }`. -/
def Bucket.key (b : Bucket) : List Nat :=
  (b.parts.length + 1) :: (b.parts ++ [b.fam])

/-- Modelled from the spec: the raw-key comparator (`bucket_key_less`, defined
    in Bucket.cpp, not in this repository slice).  Per the spec keys are
    totally ordered lexicographically, over the stored layout
    `{part_count+1, ordinals, family_count}` documented in the source. -/
def keyLess : List Nat → List Nat → Bool
  | _, [] => false
  | [], _ :: _ => true
  | a :: as, b :: bs => a < b || (a == b && keyLess as bs)

/-- The maximum representable family counter, `~0u` (declare_bucket line 283). -/
def maxU : Nat := 2 ^ 32 - 1

/-- Search key used by declare_bucket (line 310): the candidate part ordinals
    with the wildcard maximum family counter. -/
def searchKey (parts : List Nat) : List Nat :=
  (parts.length + 1) :: (parts ++ [maxU])

/-- Repository state for one entity rank: the fixed bucket capacity, the rank
    tag, the registered field set, the key-ordered bucket list, and the
    external entity-to-location map updated through
    `EntityRepository::change_entity_bucket`. -/
structure Repo where
  cap : Nat
  etype : Nat
  fields : List FieldB
  buckets : List Bucket
  backRef : EntityId → Option (List Nat × Nat)

/-- Index returned by `lower_bound(bucket_set, key)`: the first position whose
    bucket key is not below the search key. -/
def lowerBound : List Bucket → List Nat → Nat
  | [], _ => 0
  | b :: bs, k => if keyLess b.key k then lowerBound bs k + 1 else 0

/-- A newly constructed bucket (declare_bucket lines 439-441): capacity
    `m_bucket_capacity`, size zero, all slots null, field data zeroed. -/
def freshBucket (r : Repo) (parts : List Nat) (fam : Nat) : Bucket :=
  { parts := parts, fam := fam, cap := r.cap, size := 0,
    slots := List.replicate r.cap none, data := List.replicate r.cap 0 }

/-- Errors thrown by declare_bucket: the last-bucket-empty logic error
    (line 340), the family-counter-overflow logic error (lines 355-361), and
    the incompatible-dimension error propagated from `dimension`. -/
inductive DeclErr
  | emptyLast
  | tooManyBuckets
  | layout (e : DimErr)
  deriving DecidableEq, Repr

/-- Embedding of `BucketRepository::declare_bucket` (lines 271-455) for one
    entity rank.  The family is looked up by `lower_bound` with the wildcard
    search key; `ik[-1]` with equal parts is taken as the family's last
    bucket.  An existing last bucket with spare capacity is returned as is; a
    full one (with counter below `~0u`) leads to a new bucket with incremented
    counter inserted at `ik`; a fresh family resolves its field layout (which
    can fail) and gets a counter-0 bucket.  All throw sites precede the
    insertion, so errors carry the unchanged state. -/
def declareBucket (r : Repo) (parts : List Nat) :
    Except (DeclErr × Repo) (Repo × Bucket) :=
  let bs := r.buckets
  let ik := lowerBound bs (searchKey parts)
  let lastB : Option Bucket :=
    if ik = 0 then none
    else match bs[ik - 1]? with
      | some b => if b.parts = parts then some b else none
      | none => none
  match lastB with
  | some last =>
    if last.size = 0 then .error (.emptyLast, r)
    else if last.size < last.cap then .ok (r, last)
    else if last.fam < maxU then
      let nb := freshBucket r parts (last.fam + 1)
      .ok ({ r with buckets := bs.insertIdx ik nb }, nb)
    else .error (.tooManyBuckets, r)
  | none =>
    match computeFieldMap r.cap r.etype parts r.fields with
    | .error e => .error (.layout e, r)
    | .ok _ =>
      let nb := freshBucket r parts 0
      .ok ({ r with buckets := bs.insertIdx ik nb }, nb)

/-! ## Slot-level primitives -/

/-- Look up a bucket by its stored key. -/
def getB (r : Repo) (k : List Nat) : Option Bucket :=
  r.buckets.find? (fun b => b.key == k)

/-- Apply an update to the bucket with the given key. -/
def updB (r : Repo) (k : List Nat) (f : Bucket → Bucket) : Repo :=
  { r with buckets := r.buckets.map (fun b => if b.key = k then f b else b) }

/-- `BucketImpl::replace_entity(i, e)`: store an entity pointer (or null)
    into slot `i`. -/
def replaceEntity (r : Repo) (k : List Nat) (i : Nat) (e : Option EntityId) : Repo :=
  updB r k (fun b => { b with slots := b.slots.set i e })

/-- `BucketRepository::copy_fields(dst, i_dst, src, i_src)` (lines 466-470):
    copy the source slot's field bytes into the destination slot. -/
def copyFields (r : Repo) (dk : List Nat) (di : Nat) (sk : List Nat) (si : Nat) : Repo :=
  match getB r sk with
  | none => r
  | some sb => updB r dk (fun b => { b with data := b.data.set di (sb.data.getD si 0) })

/-- `EntityRepository::change_entity_bucket`: update the moved entity's
    back-reference to its new (bucket, slot). -/
def setRef (r : Repo) (e : EntityId) (k : List Nat) (i : Nat) : Repo :=
  { r with backRef := fun x => if x = e then some (k, i) else r.backRef x }

/-- `BucketImpl::decrement_size()`. -/
def decSize (r : Repo) (k : List Nat) : Repo :=
  updB r k (fun b => { b with size := b.size - 1 })

/-! ## Family accessors -/

/-- The buckets of the family with the given part ordinals, in list order. -/
def famBuckets (r : Repo) (p : List Nat) : List Bucket :=
  r.buckets.filter (fun b => b.parts == p)

/-- Modelled from the spec: `first_bucket_in_family` (BucketImpl, source not
    in this repository slice); every family member points to the first
    bucket, the least-counter member in the key-sorted list. -/
def firstOfFamily (r : Repo) (p : List Nat) : Option Bucket :=
  (famBuckets r p).head?

/-- Modelled from the spec: `last_bucket_in_family` (BucketImpl, source not
    in this repository slice); the first bucket points to the current last
    bucket, the greatest-counter member in the key-sorted list. -/
def lastOfFamily (r : Repo) (p : List Nat) : Option Bucket :=
  (famBuckets r p).getLast?

/-- The fatal invariant-violation error class (`std::logic_error`). -/
inductive DestErr
  | invariant
  deriving DecidableEq, Repr

/-- Embedding of the family-aware `BucketRepository::destroy_bucket`
    (lines 157-196).  Validation (emptiness, being the family's last bucket,
    presence at the searched position) precedes the erase; the erase precedes
    the remaining checks, whose failures therefore carry the already-mutated
    state, exactly as a C++ throw would leave the object. -/
def destroyBucketK (r : Repo) (k : List Nat) : Except (DestErr × Repo) Repo :=
  match getB r k with
  | none => .error (.invariant, r)
  | some b =>
    if b.size ≠ 0 ∨ lastOfFamily r b.parts ≠ some b then .error (.invariant, r)
    else
      let ik := lowerBound r.buckets b.key
      match r.buckets[ik]? with
      | none => .error (.invariant, r)
      | some bb =>
        if bb ≠ b then .error (.invariant, r)
        else
          let first := firstOfFamily r b.parts
          let r1 : Repo := { r with buckets := r.buckets.eraseIdx ik }
          if first = some b then .ok r1
          else if ik = 0 then .error (.invariant, r1)
          else match r1.buckets[ik - 1]? with
            | none => .error (.invariant, r1)
            | some prev =>
              if prev.size = 0 then .error (.invariant, r1) else .ok r1

/-! ## remove_entity -/

/-- Observable events of the relocation machinery: a completed object move
    (fields copied, slot replaced, back-reference updated) into `(k, i)`, the
    vacating of a slot, and an invocation of the relocation-propagation hook
    (`internal_propagate_relocation`). -/
inductive Ev
  | moved (e : EntityId) (k : List Nat) (i : Nat)
  | vacate (k : List Nat) (i : Nat)
  | hook (e : EntityId)
  deriving DecidableEq, Repr

/-- Embedding of `BucketRepository::remove_entity` (lines 609-643): unless
    `(k, i)` is the very last live slot of the family's last bucket, the last
    bucket's final live entity is copied into `(k, i)`, its back-reference is
    updated there, and the relocation hook is invoked; then the last bucket's
    size is decremented, its vacated trailing slot is nulled, and the bucket
    is destroyed if it became empty. -/
def removeEntity (r : Repo) (k : List Nat) (i : Nat) :
    Except (DestErr × Repo) (Repo × List Ev) :=
  match getB r k with
  | none => .error (.invariant, r)
  | some kb =>
    match lastOfFamily r kb.parts with
    | none => .error (.invariant, r)
    | some last =>
      let moveStep : Repo × List Ev :=
        if last.key = k ∧ kb.size = i + 1 then (r, [])
        else
          match last.slots.getD (last.size - 1) none with
          | none => (r, [])
          | some e =>
            let r1 := copyFields r k i last.key (last.size - 1)
            let r2 := replaceEntity r1 k i (some e)
            let r3 := setRef r2 e k i
            (r3, [.moved e k i, .hook e])
      let n1 := last.size - 1
      let r4 := decSize moveStep.1 last.key
      let r5 := replaceEntity r4 last.key n1 none
      if n1 = 0 then
        match destroyBucketK r5 last.key with
        | .error er => .error er
        | .ok r6 => .ok (r6, moveStep.2 ++ [.vacate last.key n1])
      else
        .ok (r5, moveStep.2 ++ [.vacate last.key n1])

/-! ## internal_sort_bucket_entities -/

/-- The live storage positions of one bucket: `(key, 0) ... (key, size-1)`. -/
def bucketPositions (b : Bucket) : List (List Nat × Nat) :=
  (List.range b.size).map (fun i => (b.key, i))

/-- The live storage positions of a family, in storage order (bucket order in
    the key-sorted list, then slot order). -/
def famPositions (r : Repo) (p : List Nat) : List (List Nat × Nat) :=
  (famBuckets r p).flatMap bucketPositions

/-- The entity pointer currently held by a slot. -/
def slotAt (r : Repo) (k : List Nat) (i : Nat) : Option EntityId :=
  match getB r k with
  | none => none
  | some b => b.slots.getD i none

/-- The family's live entities read in storage order (the scratch sequence
    collected at internal_sort_bucket_entities lines 543-553). -/
def famEntities (r : Repo) (p : List Nat) : List EntityId :=
  (famPositions r p).map (fun q => (slotAt r q.1 q.2).getD 0)

/-- The compaction scan of internal_sort_bucket_entities (lines 557-596):
    walk the storage positions against the sorted target sequence carrying
    the vacant cursor and the change flag; on mismatch the occupant (if any)
    is moved to the vacant cursor, the target's current location becomes the
    new vacant cursor and is vacated, and the target is moved in; once the
    family changed, the hook is invoked for the position's target at the end
    of every iteration.  Returns the final state, event trace, and flag. -/
def sortScan : Repo → (List Nat × Nat) → Bool →
    List ((List Nat × Nat) × EntityId) → Repo × List Ev × Bool
  | r, _, changed, [] => (r, [], changed)
  | r, vac, changed, (q, t) :: rest =>
    if slotAt r q.1 q.2 = some t then
      let ev0 : List Ev := if changed then [.hook t] else []
      let out := sortScan r vac changed rest
      (out.1, ev0 ++ out.2.1, out.2.2)
    else
      let step1 : Repo × List Ev :=
        match slotAt r q.1 q.2 with
        | none => (r, [])
        | some c =>
          let r1 := copyFields r vac.1 vac.2 q.1 q.2
          let r2 := setRef r1 c vac.1 vac.2
          let r3 := replaceEntity r2 vac.1 vac.2 (some c)
          (r3, [.moved c vac.1 vac.2])
      let tq := (step1.1.backRef t).getD ([], 0)
      let r4 := replaceEntity step1.1 tq.1 tq.2 none
      let r5 := copyFields r4 q.1 q.2 tq.1 tq.2
      let r6 := setRef r5 t q.1 q.2
      let r7 := replaceEntity r6 q.1 q.2 (some t)
      let out := sortScan r7 tq true rest
      (out.1, step1.2 ++ [.vacate tq.1 tq.2, .moved t q.1 q.2, .hook t] ++ out.2.1,
        out.2.2)

/-- One family pass of internal_sort_bucket_entities (lines 513-603): the
    vacant cursor starts one past the last bucket's live slots, declaring a
    scratch bucket when the family has no spare capacity; the live entities
    are collected in storage order and sorted by the entity order (EntityLess,
    modelled by the order on entity identifiers); the scan then runs, and the
    scratch bucket, if any, is destroyed. -/
def sortFamily (r : Repo) (p : List Nat) : Except (DestErr × Repo) (Repo × List Ev) :=
  match lastOfFamily r p with
  | none => .ok (r, [])
  | some last =>
    let scr : Except (DestErr × Repo) (Repo × ((List Nat × Nat) × Option (List Nat))) :=
      if last.cap ≤ last.size then
        match declareBucket r p with
        | .error _ => .error (.invariant, r)
        | .ok (r1, nb) => .ok (r1, ((nb.key, 0), some nb.key))
      else .ok (r, ((last.key, last.size), none))
    match scr with
    | .error e => .error e
    | .ok (r1, vs) =>
      let r2 := replaceEntity r1 vs.1.1 vs.1.2 none
      let targets := List.insertionSort (· ≤ ·) (famEntities r2 p)
      let out := sortScan r2 vs.1 false ((famPositions r2 p).zip targets)
      match vs.2 with
      | none => .ok (out.1, out.2.1)
      | some sk =>
        match destroyBucketK out.1 sk with
        | .error er => .error er
        | .ok r4 => .ok (r4, out.2.1)

/-- The family part-lists present in a bucket list, in order of first
    occurrence (the outer family loop of internal_sort_bucket_entities). -/
def famParts (bs : List Bucket) : List (List Nat) :=
  (bs.map (fun b => b.parts)).foldl
    (fun acc p => if p ∈ acc then acc else acc ++ [p]) []

/-- Auxiliary fold: sort the listed families in turn. -/
def sortAll : Repo → List (List Nat) → Except (DestErr × Repo) (Repo × List Ev)
  | r, [] => .ok (r, [])
  | r, p :: ps =>
    match sortFamily r p with
    | .error e => .error e
    | .ok s1 =>
      match sortAll s1.1 ps with
      | .error e => .error e
      | .ok s2 => .ok (s2.1, s1.2 ++ s2.2)

/-- Embedding of `BucketRepository::internal_sort_bucket_entities`
    (lines 503-605) for one entity rank: resort every family. -/
def internalSort (r : Repo) : Except (DestErr × Repo) (Repo × List Ev) :=
  sortAll r (famParts r.buckets)

/-! ## Well-formedness -/

/-- Per-bucket well-formedness inside a repository: uniform capacity, size
    within capacity, slot and data arrays of capacity length, live slots
    holding entities, trailing slots null, the packing rule (every bucket
    except its family's last is full), and accurate back-references for every
    live slot. -/
def bucketWF (r : Repo) (b : Bucket) : Prop :=
  b.cap = r.cap ∧ b.size ≤ b.cap ∧
  b.slots.length = b.cap ∧ b.data.length = b.cap ∧
  (∀ i, i < b.size → (b.slots.getD i none).isSome = true) ∧
  (∀ i, i < b.cap → b.size ≤ i → b.slots.getD i none = none) ∧
  (lastOfFamily r b.parts ≠ some b → b.size = b.cap) ∧
  (∀ i, i < b.size → r.backRef ((b.slots.getD i none).getD 0) = some (b.key, i))

/-- Repository well-formedness: positive capacity, strictly key-ordered
    bucket list, and per-bucket well-formedness. -/
def WF (r : Repo) : Prop :=
  0 < r.cap ∧ List.Chain' (fun a b => keyLess a.key b.key = true) r.buckets ∧
  ∀ b ∈ r.buckets, bucketWF r b

/-- No family-sequence counter has reached the wrap limit `~0u`.  Declaring
    a bucket when the family's last counter is `~0u - 1` produces a bucket at
    the limit, so this bound is a side condition rather than part of `WF`. -/
def famSafe (r : Repo) : Prop :=
  ∀ b ∈ r.buckets, b.fam < maxU

/-- Raw stored key of a part list and family counter. -/
def rawKey (p : List Nat) (f : Nat) : List Nat :=
  (p.length + 1) :: (p ++ [f])

/-- An initial empty repository with capacity 2 and no registered fields. -/
def emptyRepo : Repo :=
  { cap := 2, etype := 0, fields := [], buckets := [], backRef := fun _ => none }

/-- Whether an `Except` result is a success. -/
def okB {ε α : Type} : Except ε α → Bool
  | .ok _ => true
  | .error _ => false

/-- The repository after inserting a new bucket at the position found by the
    binary search for the family's wildcard key. -/
def insRepo (r : Repo) (p : List Nat) (nb : Bucket) : Repo :=
  { r with buckets := r.buckets.insertIdx (lowerBound r.buckets (searchKey p)) nb }

/-- A full bucket of capacity 1 whose family counter sits at the wrap
    limit `~0u`. -/
def maxBucket : Bucket :=
  { parts := [3], fam := maxU, cap := 1, size := 1,
    slots := [some 7], data := [0] }

/-- A repository holding one full single-bucket family whose family-sequence
    counter sits at the wrap limit `~0u`. -/
def maxRepo : Repo :=
  { cap := 1, etype := 0, fields := [], buckets := [maxBucket],
    backRef := fun e => if e = 7 then some ([2, 3, maxU], 0) else none }

/-- The repository after erasing the bucket at a list position. -/
def delRepo (r : Repo) (i : Nat) : Repo :=
  { r with buckets := r.buckets.eraseIdx i }

/-- A repository holding one full single-bucket family of capacity 1. -/
def oneRepo : Repo :=
  { cap := 1, etype := 0, fields := [],
    buckets := [{ parts := [3], fam := 0, cap := 1, size := 1,
                  slots := [some 7], data := [0] }],
    backRef := fun e => if e = 7 then some ([2, 3, 0], 0) else none }

/-- The offset-chaining law actually implemented by declare_bucket: each base
    offset is the running offset, which advances by the 16-byte-aligned size
    of the previous field's whole per-bucket array `align(size * capacity)`. -/
def offsetsChained (cap : Nat) : Nat → List (Nat × Nat) → Nat → Prop
  | off, [], endOff => endOff = off
  | off, (o, s) :: tl, endOff => o = off ∧ offsetsChained cap (off + align (s * cap)) tl endOff

/-- A restriction of field `f` that matches the queried family signature:
    it belongs to the field's restriction vector and its key is one of the
    `(etype, part ordinal)` pairs of the family. -/
def MatchesR (f : FieldB) (etype : Nat) (parts : List Nat) (r : Restriction) : Prop :=
  r ∈ f.restrictions ∧ r.rrank = etype ∧ r.part ∈ parts

/-- Concrete schema-conflict scenario: two categories restrict the field to
    stride 3, a third to stride 4. -/
def fieldScenario : FieldB :=
  ⟨5, 4, 1, [⟨2, 1, [3]⟩, ⟨2, 2, [3]⟩, ⟨2, 3, [4]⟩]⟩

/-- Concrete field set with per-slot sizes 4, 0 and 12 bytes. -/
def fieldsC6 : List FieldB :=
  [⟨0, 4, 0, [⟨2, 1, [1]⟩]⟩, ⟨1, 4, 0, []⟩, ⟨2, 12, 0, [⟨2, 1, [1]⟩]⟩]

/-- A storage position: the containing bucket's key and the slot index. -/
abbrev Pos : Type := List Nat × Nat

/-- The per-bucket action of `updB`: apply `f` to the bucket carrying the
    given key, leave every other bucket unchanged. -/
def applyAt (kk : List Nat) (f : Bucket → Bucket) (b : Bucket) : Bucket :=
  if b.key = kk then f b else b

/-- The combined bucket-level effect of a move's destination updates: slot
    `i` receives the moved entity pointer and its copied field bytes. -/
def recvB (i : Nat) (e : EntityId) (v : Nat) (b : Bucket) : Bucket :=
  { b with slots := b.slots.set i (some e), data := b.data.set i v }

/-- The combined bucket-level effect on a shrinking source bucket: the size
    decrement and the nulled trailing slot. -/
def shrinkB (n1 : Nat) (b : Bucket) : Bucket :=
  { b with size := b.size - 1, slots := b.slots.set n1 none }

/-- The total number of live objects held by a family. -/
def famSize (r : Repo) (p : List Nat) : Nat :=
  ((famBuckets r p).map (fun b => b.size)).sum

/-- The structural skeleton of a bucket: everything except the slot and
    field-data contents. -/
def skel (b : Bucket) : List Nat × List Nat × Nat × Nat × Nat × Nat × Nat :=
  (b.key, b.parts, b.fam, b.cap, b.size, b.slots.length, b.data.length)

/-- Two repositories with the same capacity and bucket skeletons: keys,
    parts, counters, capacities, sizes and array lengths agree position by
    position, only slot and field-data contents may differ. -/
def sameSkel (r r2 : Repo) : Prop :=
  r2.cap = r.cap ∧ r2.buckets.map skel = r.buckets.map skel

/-- Invariant of the compaction scan of internal_sort_bucket_entities, over
    the remaining (position, target) pairs `Z`, the original spare slot `v`
    and the current vacant cursor `w`: all region positions address real
    slots; the cursor's slot is empty and lies in the region; every remaining
    target sits (with an accurate back-reference) at exactly one non-cursor
    region position; every occupied region position holds a remaining target;
    occupancy is injective; targets and positions are duplicate-free and the
    spare slot is not a scan position. -/
def ScanInv (v : Pos) (r : Repo) (w : Pos) (Z : List (Pos × EntityId)) : Prop :=
  (∀ q ∈ Z.map Prod.fst ++ [v], ∃ b, getB r q.1 = some b ∧
    q.2 < b.slots.length) ∧
  slotAt r w.1 w.2 = none ∧
  w ∈ Z.map Prod.fst ++ [v] ∧
  (∀ x ∈ Z, ∃ lq, lq ∈ Z.map Prod.fst ++ [v] ∧ lq ≠ w ∧
    slotAt r lq.1 lq.2 = some x.2 ∧ r.backRef x.2 = some lq) ∧
  (∀ q ∈ Z.map Prod.fst ++ [v], q ≠ w →
    ∃ c, slotAt r q.1 q.2 = some c ∧ c ∈ Z.map Prod.snd) ∧
  (∀ q1 ∈ Z.map Prod.fst ++ [v], ∀ q2 ∈ Z.map Prod.fst ++ [v],
    ∀ c : EntityId, slotAt r q1.1 q1.2 = some c →
      slotAt r q2.1 q2.2 = some c → q1 = q2) ∧
  (Z.map Prod.snd).Nodup ∧
  (Z.map Prod.fst).Nodup ∧
  v ∉ Z.map Prod.fst

/-- The event trace of a successful run, if any. -/
def evOf {ε : Type} : Except ε (Repo × List Ev) → Option (List Ev)
  | .ok s => some s.2
  | .error _ => none

/-- The final state of a successful run, if any. -/
def stOf {ε : Type} : Except ε (Repo × List Ev) → Option Repo
  | .ok s => some s.1
  | .error _ => none

/-- Hook immediacy of a trace: every completed object move is followed
    immediately by the relocation hook for the moved object, before any
    further slot operation. -/
def hookImmediate : List Ev → Bool
  | [] => true
  | .moved e _ _ :: .hook e2 :: rest => e2 == e && hookImmediate rest
  | .moved _ _ _ :: _ => false
  | _ :: rest => hookImmediate rest

/-- The count of partially-filled buckets in a family. -/
def partialCount (r : Repo) (p : List Nat) : Nat :=
  (famBuckets r p).countP (fun b => decide (b.size < b.cap))

/-- The bucket key as the claim's words describe it: the category ordinals
    followed by the family-sequence counter, with no leading length field.
    (The stored key prepends `part_count + 1`.) -/
def specKey (b : Bucket) : List Nat :=
  b.parts ++ [b.fam]

/-- A repository holding one family of two buckets: a full first bucket with
    entities 5 and 6, and a half-filled last bucket with entity 7. -/
def twoRepo : Repo :=
  { cap := 2, etype := 0, fields := [],
    buckets :=
      [{ parts := [1], fam := 0, cap := 2, size := 2,
         slots := [some 5, some 6], data := [0, 0] },
       { parts := [1], fam := 1, cap := 2, size := 1,
         slots := [some 7, none], data := [0, 0] }],
    backRef := fun x =>
      if x = 5 then some (rawKey [1] 0, 0)
      else if x = 6 then some (rawKey [1] 0, 1)
      else if x = 7 then some (rawKey [1] 1, 0)
      else none }

/-- The repository after declaring family {3,4} into the empty repository. -/
def c4r1 : Repo := insRepo emptyRepo [3, 4] (freshBucket emptyRepo [3, 4] 0)

/-- The repository after additionally declaring family {5}. -/
def c4r2 : Repo := insRepo c4r1 [5] (freshBucket c4r1 [5] 0)

/-- A repository holding one full bucket whose entities 11, 10 are stored in
    reverse order, so that resorting it must move objects and must declare a
    scratch bucket for the vacant cursor. -/
def sortRepo : Repo :=
  { cap := 2, etype := 0, fields := [],
    buckets :=
      [{ parts := [1], fam := 0, cap := 2, size := 2,
         slots := [some 11, some 10], data := [0, 0] }],
    backRef := fun x =>
      if x = 11 then some (rawKey [1] 0, 0)
      else if x = 10 then some (rawKey [1] 0, 1)
      else none }

/-! ## Layout lemmas -/

theorem le_align (nb : Nat) : nb ≤ align nb := by
  simp only [align]
  split <;> omega

theorem dvd_align (nb : Nat) : 16 ∣ align nb := by
  simp only [align]
  split <;> omega

theorem computeFieldMapAux_chained (cap etype : Nat) (parts : List Nat) :
    ∀ (fields : List FieldB) (off : Nat) (fm : List (Nat × Nat)) (endOff : Nat),
      computeFieldMapAux cap etype parts off fields = .ok (fm, endOff) →
      offsetsChained cap off fm endOff := by
  intro fields
  induction fields with
  | nil =>
    intro off fm endOff h
    simp only [computeFieldMapAux] at h
    cases h
    simp [offsetsChained]
  | cons f fs ih =>
    intro off fm endOff h
    simp only [computeFieldMapAux] at h
    split at h
    · simp at h
    · rename_i dim hd
      split at h
      · simp at h
      · rename_i tail endOff2 hrec
        simp only [Except.ok.injEq, Prod.mk.injEq] at h
        obtain ⟨h1, h2⟩ := h
        subst h1 h2
        exact ⟨rfl, ih _ _ _ hrec⟩

theorem offsetsChained_dvd (cap : Nat) :
    ∀ (fm : List (Nat × Nat)) (off endOff : Nat),
      16 ∣ off → offsetsChained cap off fm endOff →
      (∀ pr ∈ fm, 16 ∣ pr.1) ∧ 16 ∣ endOff := by
  intro fm
  induction fm with
  | nil =>
    intro off endOff hoff h
    simp only [offsetsChained] at h
    subst h
    exact ⟨by simp, hoff⟩
  | cons pr tl ih =>
    intro off endOff hoff h
    obtain ⟨o, s⟩ := pr
    simp only [offsetsChained] at h
    obtain ⟨ho, htl⟩ := h
    have hoff2 : 16 ∣ off + align (s * cap) := Nat.dvd_add hoff (dvd_align _)
    obtain ⟨h1, h2⟩ := ih _ _ hoff2 htl
    refine ⟨?_, h2⟩
    intro q hq
    rcases List.mem_cons.mp hq with hh | hh
    · subst hh; simpa [ho] using hoff
    · exact h1 q hh

theorem offsetsChained_mono (cap : Nat) :
    ∀ (fm : List (Nat × Nat)) (off endOff : Nat),
      offsetsChained cap off fm endOff →
      List.Chain' (· ≤ ·) (fm.map Prod.fst) ∧ ∀ pr ∈ fm, off ≤ pr.1 := by
  intro fm
  induction fm with
  | nil => intro off endOff _; simp
  | cons pr tl ih =>
    intro off endOff h
    obtain ⟨o, s⟩ := pr
    simp only [offsetsChained] at h
    obtain ⟨ho, htl⟩ := h
    obtain ⟨h1, h2⟩ := ih _ _ htl
    constructor
    · rw [List.map_cons]
      apply List.Chain'.cons'
      · exact h1
      · intro y hy
        have hymem : y ∈ tl.map Prod.fst := by
          cases htlmap : tl.map Prod.fst with
          | nil => rw [htlmap] at hy; simp at hy
          | cons a l => rw [htlmap] at hy; simp_all
        obtain ⟨q, hq, hqy⟩ := List.mem_map.mp hymem
        have := h2 q hq
        have := le_align (s * cap)
        omega
    · intro q hq
      rcases List.mem_cons.mp hq with hh | hh
      · subst hh; omega
      · have := h2 q hh
        have := le_align (s * cap)
        omega

theorem computeFieldMapAux_sizes (cap etype : Nat) (parts : List Nat) :
    ∀ (fields : List FieldB) (off : Nat) (fm : List (Nat × Nat)) (endOff : Nat),
      computeFieldMapAux cap etype parts off fields = .ok (fm, endOff) →
      List.Forall₂ (fun f pr => (dimension f etype parts).map (fieldSize f) = .ok pr.2)
        fields fm := by
  intro fields
  induction fields with
  | nil =>
    intro off fm endOff h
    simp only [computeFieldMapAux] at h
    cases h
    exact List.Forall₂.nil
  | cons f fs ih =>
    intro off fm endOff h
    simp only [computeFieldMapAux] at h
    split at h
    · simp at h
    · rename_i dim hd
      split at h
      · simp at h
      · rename_i tail endOff2 hrec
        simp only [Except.ok.injEq, Prod.mk.injEq] at h
        obtain ⟨h1, h2⟩ := h
        subst h1 h2
        exact List.Forall₂.cons (by simp [hd, Except.map]) (ih _ _ _ hrec)

/-! ## Schema-conflict lemmas -/

theorem rkeyLess_iff (a b : Nat × Nat) :
    rkeyLess a b = true ↔ (a.1 < b.1 ∨ (a.1 = b.1 ∧ a.2 < b.2)) := by
  simp [rkeyLess]

theorem rkeyLess_false_iff (a b : Nat × Nat) :
    rkeyLess a b = false ↔ ¬(a.1 < b.1 ∨ (a.1 = b.1 ∧ a.2 < b.2)) := by
  rw [← Bool.not_eq_true, rkeyLess_iff]

theorem mem_dropWhile_of_neg {α : Type} (pred : α → Bool) :
    ∀ (l : List α) (a : α), a ∈ l → pred a = false → a ∈ l.dropWhile pred := by
  intro l
  induction l with
  | nil => intro a h; simp at h
  | cons x xs ih =>
    intro a ha hpa
    rcases List.mem_cons.mp ha with h | h
    · subst h
      rw [List.dropWhile_cons, hpa]
      simp
    · by_cases hx : pred x = true
      · rw [List.dropWhile_cons, hx]
        simpa using ih a h hpa
      · rw [List.dropWhile_cons]
        simp only [Bool.not_eq_true] at hx
        rw [hx]
        simp [h]

theorem dropWhile_head_pred {α : Type} (pred : α → Bool) :
    ∀ (l : List α) (r : α) (t : List α), l.dropWhile pred = r :: t → pred r = false := by
  intro l
  induction l with
  | nil => intro r t h; simp at h
  | cons x xs ih =>
    intro r t h
    rw [List.dropWhile_cons] at h
    by_cases hx : pred x = true
    · rw [hx] at h
      simp only [if_true] at h
      exact ih r t h
    · simp only [Bool.not_eq_true] at hx
      rw [hx] at h
      simp only [Bool.false_eq_true, if_false, List.cons.injEq] at h
      rw [← h.1]
      exact hx

theorem dimensionAux_ok_some (fn et : Nat) :
    ∀ (ps : List Nat) (rs : List Restriction) (d : Restriction) (out : Option Restriction),
      dimensionAux fn et rs (some d) ps = .ok out → out = some d := by
  intro ps
  induction ps with
  | nil =>
    intro rs d out h
    simp only [dimensionAux] at h
    cases h
    rfl
  | cons p ps ih =>
    intro rs d out h
    simp only [dimensionAux, Option.getD_some] at h
    split at h
    · cases h; rfl
    · split at h
      · split at h
        · simp at h
        · exact ih _ _ _ h
      · exact ih _ _ _ h

theorem dimensionAux_agree_ok (f : FieldB) (etype : Nat) (parts : List Nat)
    (hagree : ∀ r1 r2, MatchesR f etype parts r1 → MatchesR f etype parts r2 →
      r1.stride = r2.stride) :
    ∀ (ps : List Nat) (rs : List Restriction) (dim : Option Restriction),
      rs.Sublist f.restrictions →
      (∀ p ∈ ps, p ∈ parts) →
      (∀ d, dim = some d → MatchesR f etype parts d) →
      ∃ out, dimensionAux f.fname etype rs dim ps = .ok out := by
  intro ps
  induction ps with
  | nil =>
    intro rs dim _ _ _
    exact ⟨dim, rfl⟩
  | cons p ps ih =>
    intro rs dim hsub hps hdim
    simp only [dimensionAux]
    split
    · exact ⟨dim, rfl⟩
    · rename_i r t heq
      have hsub1 : (rLowerBound rs (etype, p)).Sublist f.restrictions :=
        (List.dropWhile_sublist _).trans hsub
      have hrmem : r ∈ f.restrictions := by
        refine hsub1.subset ?_
        rw [heq]
        exact List.mem_cons_self r t
      split
      · rename_i hmatch
        have hMr : MatchesR f etype parts r :=
          ⟨hrmem, hmatch.1, by rw [hmatch.2]; exact hps p (List.mem_cons_self _ _)⟩
        have hMd : MatchesR f etype parts (dim.getD r) := by
          cases dim with
          | none => simpa using hMr
          | some d0 => simpa using hdim d0 rfl
        rw [if_neg (by rw [hagree r _ hMr hMd]; exact fun hc => hc rfl)]
        refine ih _ _ hsub1 (fun x hx => hps x (List.mem_cons_of_mem _ hx)) ?_
        intro d hd
        rw [← Option.some.injEq _ _ |>.mp hd]
        exact hMd
      · exact ih _ _ hsub1 (fun x hx => hps x (List.mem_cons_of_mem _ hx)) hdim

theorem dimensionAux_ok_covers (fn etype : Nat) :
    ∀ (ps : List Nat) (rs : List Restriction) (dim out : Option Restriction),
      List.Pairwise (fun a b => rkeyLess a.rkey b.rkey = true) rs →
      List.Chain' (· < ·) ps →
      dimensionAux fn etype rs dim ps = .ok out →
      ∀ r ∈ rs, r.rrank = etype → r.part ∈ ps →
        ∃ d, out = some d ∧ r.stride = d.stride := by
  intro ps
  induction ps with
  | nil =>
    intro rs dim out _ _ _ r _ _ hmem
    simp at hmem
  | cons p ps ih =>
    intro rs dim out hpw hch h r hr hrr hrp
    have hchp : ∀ x ∈ ps, p < x := by
      have hpw2 := List.chain'_iff_pairwise.mp hch
      exact fun x hx => (List.pairwise_cons.mp hpw2).1 x hx
    have hpredr : rkeyLess r.rkey (etype, p) = false := by
      rcases List.mem_cons.mp hrp with h1 | h1
      · rw [rkeyLess_false_iff, Restriction.rkey, hrr, h1]
        omega
      · rw [rkeyLess_false_iff, Restriction.rkey, hrr]
        have := hchp _ h1
        omega
    have hrin1 : r ∈ rLowerBound rs (etype, p) :=
      mem_dropWhile_of_neg _ rs r hr hpredr
    have hpw1 : List.Pairwise (fun a b => rkeyLess a.rkey b.rkey = true)
        (rLowerBound rs (etype, p)) :=
      hpw.sublist (List.dropWhile_sublist _)
    simp only [dimensionAux] at h
    split at h
    · rename_i heq
      rw [heq] at hrin1
      simp at hrin1
    · rename_i r0 t0 heq
      have hpred0 : rkeyLess r0.rkey (etype, p) = false :=
        dropWhile_head_pred _ rs r0 t0 heq
      rcases List.mem_cons.mp hrp with hrp1 | hrp1
      · -- r matches the head part; it must be the cursor head r0
        have hr0 : r = r0 := by
          rw [heq] at hrin1
          rcases List.mem_cons.mp hrin1 with h1 | h1
          · exact h1
          · exfalso
            have hlt : rkeyLess r0.rkey r.rkey = true := by
              rw [heq] at hpw1
              exact (List.pairwise_cons.mp hpw1).1 r h1
            have : r.rkey = (etype, p) := by
              rw [Restriction.rkey, hrr, hrp1]
            rw [this] at hlt
            rw [hlt] at hpred0
            exact Bool.true_eq_false.mp hpred0 |>.elim
        split at h
        · rename_i hmatch
          split at h
          · simp at h
          · rename_i hcond
            have hout := dimensionAux_ok_some fn etype ps _ _ _ h
            refine ⟨dim.getD r0, hout, ?_⟩
            rw [hr0]
            exact not_ne_iff.mp hcond
        · rename_i hmatch
          exact absurd ⟨hr0 ▸ hrr, hr0 ▸ hrp1⟩ hmatch
      · -- r matches a later part; recurse
        split at h
        · split at h
          · simp at h
          · exact ih _ _ _ hpw1 hch.tail h r hrin1 hrr hrp1
        · exact ih _ _ _ hpw1 hch.tail h r hrin1 hrr hrp1

theorem dimensionAux_error_names (f : FieldB) (etype : Nat) (parts : List Nat) :
    ∀ (ps : List Nat) (rs : List Restriction) (dim : Option Restriction) (e : DimErr),
      rs.Sublist f.restrictions →
      (∀ p ∈ ps, p ∈ parts) →
      (∀ d, dim = some d → MatchesR f etype parts d) →
      dimensionAux f.fname etype rs dim ps = .error e →
      e.fieldName = f.fname ∧
      ∃ r1 r2, MatchesR f etype parts r1 ∧ MatchesR f etype parts r2 ∧
        r1.part = e.partOld ∧ r2.part = e.partNew ∧ r1.stride ≠ r2.stride := by
  intro ps
  induction ps with
  | nil =>
    intro rs dim e _ _ _ h
    simp [dimensionAux] at h
  | cons p ps ih =>
    intro rs dim e hsub hps hdim h
    simp only [dimensionAux] at h
    split at h
    · simp at h
    · rename_i r0 t0 heq
      have hsub1 : (rLowerBound rs (etype, p)).Sublist f.restrictions :=
        (List.dropWhile_sublist _).trans hsub
      have hr0mem : r0 ∈ f.restrictions := by
        refine hsub1.subset ?_
        rw [heq]
        exact List.mem_cons_self r0 t0
      split at h
      · rename_i hmatch
        have hM0 : MatchesR f etype parts r0 :=
          ⟨hr0mem, hmatch.1, by rw [hmatch.2]; exact hps p (List.mem_cons_self _ _)⟩
        split at h
        · rename_i hcond
          cases hdimc : dim with
          | none =>
            rw [hdimc] at hcond
            simp at hcond
          | some d0 =>
            rw [hdimc] at hcond h
            simp only [Option.getD_some] at hcond h
            have hMd : MatchesR f etype parts d0 := hdim d0 hdimc
            simp only [Except.error.injEq] at h
            refine ⟨by rw [← h], r0, d0, hM0, hMd, ?_, ?_, hcond⟩
            · rw [← h]
            · rw [← h]
        · rename_i hcond
          refine ih _ _ _ hsub1 (fun x hx => hps x (List.mem_cons_of_mem _ hx)) ?_ h
          intro d hd
          have hd2 : d = dim.getD r0 := (Option.some.injEq _ _ |>.mp hd).symm
          rw [hd2]
          cases dim with
          | none => simpa using hM0
          | some d0 => simpa using hdim d0 rfl
      · exact ih _ _ _ hsub1 (fun x hx => hps x (List.mem_cons_of_mem _ hx)) hdim h

/-! ## Key-order lemmas -/

theorem keyLess_nil_right (a : List Nat) : keyLess a [] = false := by
  cases a <;> rfl

theorem keyLess_irrefl : ∀ k : List Nat, keyLess k k = false := by
  intro k
  induction k with
  | nil => rfl
  | cons a as ih => simp [keyLess, ih]

theorem keyLess_trans : ∀ a b c : List Nat,
    keyLess a b = true → keyLess b c = true → keyLess a c = true := by
  intro a
  induction a with
  | nil =>
    intro b c hab hbc
    cases b with
    | nil => simp [keyLess] at hab
    | cons x xs =>
      cases c with
      | nil => simp [keyLess] at hbc
      | cons y ys => simp [keyLess]
  | cons p ps ih =>
    intro b c hab hbc
    cases b with
    | nil => simp [keyLess] at hab
    | cons x xs =>
      cases c with
      | nil => simp [keyLess] at hbc
      | cons y ys =>
        simp only [keyLess, Bool.or_eq_true, Bool.and_eq_true, decide_eq_true_eq,
          beq_iff_eq] at hab hbc ⊢
        rcases hab with h1 | h1
        · rcases hbc with g1 | g1
          · left; omega
          · left; omega
        · rcases hbc with g1 | g1
          · left; omega
          · right; exact ⟨by omega, ih xs ys h1.2 g1.2⟩

theorem keyLess_conn : ∀ a b : List Nat,
    keyLess a b = false → keyLess b a = false → a = b := by
  intro a
  induction a with
  | nil =>
    intro b hab _
    cases b with
    | nil => rfl
    | cons x xs => simp [keyLess] at hab
  | cons p ps ih =>
    intro b hab hba
    cases b with
    | nil => simp [keyLess] at hba
    | cons x xs =>
      rw [Bool.eq_false_iff] at hab hba
      simp only [Ne, keyLess, Bool.or_eq_true, Bool.and_eq_true, decide_eq_true_eq,
        beq_iff_eq, not_or, not_and] at hab hba
      have hpx : p = x := by omega
      subst hpx
      have h1 : keyLess ps xs = false := by
        rcases hk : keyLess ps xs with _ | _
        · rfl
        · exact absurd hk (hab.2 rfl)
      have h2 : keyLess xs ps = false := by
        rcases hk : keyLess xs ps with _ | _
        · rfl
        · exact absurd hk (hba.2 rfl)
      rw [ih xs h1 h2]

theorem keyLess_asymm (a b : List Nat) (h : keyLess a b = true) :
    keyLess b a = false := by
  by_contra hc
  rw [Bool.not_eq_false] at hc
  have habs := keyLess_trans a b a h hc
  rw [keyLess_irrefl] at habs
  exact Bool.false_ne_true habs

theorem keyLess_total (a b : List Nat) (hne : a ≠ b) :
    keyLess a b = true ∨ keyLess b a = true := by
  rcases h1 : keyLess a b with _ | _
  · rcases h2 : keyLess b a with _ | _
    · exact absurd (keyLess_conn a b h1 h2) hne
    · right; rfl
  · left; rfl

/-! ## Raw-key lemmas -/

theorem key_eq_rawKey (b : Bucket) : b.key = rawKey b.parts b.fam := rfl

theorem searchKey_eq_rawKey (p : List Nat) : searchKey p = rawKey p maxU := rfl

theorem rawKey_inj (p q : List Nat) (f g : Nat) (h : rawKey p f = rawKey q g) :
    p = q ∧ f = g := by
  simp only [rawKey, List.cons.injEq] at h
  obtain ⟨hlen, happ⟩ := h
  have hl : p.length = q.length := by omega
  obtain ⟨h1, h2⟩ := List.append_inj happ hl
  exact ⟨h1, by simpa using h2⟩

theorem keyLess_append_last : ∀ (c : List Nat) (x y : Nat),
    keyLess (c ++ [x]) (c ++ [y]) = decide (x < y) := by
  intro c
  induction c with
  | nil => intro x y; simp [keyLess]
  | cons a as ih => intro x y; simp [keyLess, ih]

theorem rawKey_lt_same (p : List Nat) (f g : Nat) :
    keyLess (rawKey p f) (rawKey p g) = decide (f < g) := by
  simp [rawKey, keyLess, keyLess_append_last]

theorem keyLess_append_indep : ∀ (p q : List Nat) (f g f2 g2 : Nat),
    p.length = q.length → p ≠ q →
    keyLess (p ++ [f]) (q ++ [g]) = keyLess (p ++ [f2]) (q ++ [g2]) := by
  intro p
  induction p with
  | nil =>
    intro q f g f2 g2 hlen hne
    cases q with
    | nil => exact absurd rfl hne
    | cons b bs => simp at hlen
  | cons a as ih =>
    intro q f g f2 g2 hlen hne
    cases q with
    | nil => simp at hlen
    | cons b bs =>
      simp only [List.cons_append, keyLess, List.append_eq]
      by_cases hab : a = b
      · subst hab
        have hne2 : as ≠ bs := fun hc => hne (by rw [hc])
        have hlen2 : as.length = bs.length := by simpa using hlen
        rw [ih bs f g f2 g2 hlen2 hne2]
      · have hbe : (a == b) = false := beq_eq_false_iff_ne.mpr hab
        rw [hbe]
        simp

theorem rawKey_lt_indep (p q : List Nat) (f g f2 g2 : Nat) (hpq : p ≠ q) :
    keyLess (rawKey p f) (rawKey q g) = keyLess (rawKey p f2) (rawKey q g2) := by
  by_cases hlen : p.length = q.length
  · simp only [rawKey, keyLess]
    rw [hlen, keyLess_append_indep p q f g f2 g2 hlen hpq]
  · simp only [rawKey, keyLess]
    have h1 : (p.length + 1 == q.length + 1) = false := by
      rw [beq_eq_false_iff_ne]
      omega
    rw [h1]
    simp

/-! ## lowerBound lemmas -/

theorem lowerBound_le_length (k : List Nat) :
    ∀ bs : List Bucket, lowerBound bs k ≤ bs.length := by
  intro bs
  induction bs with
  | nil => simp [lowerBound]
  | cons b t ih =>
    simp only [lowerBound, List.length_cons]
    split
    · omega
    · omega

theorem lowerBound_lt (k : List Nat) :
    ∀ (bs : List Bucket) (j : Nat) (b : Bucket),
      j < lowerBound bs k → bs[j]? = some b → keyLess b.key k = true := by
  intro bs
  induction bs with
  | nil => intro j b h; simp [lowerBound] at h
  | cons x xs ih =>
    intro j b hj hb
    simp only [lowerBound] at hj
    split at hj
    · rename_i hx
      cases j with
      | zero =>
        simp only [List.getElem?_cons_zero, Option.some.injEq] at hb
        rw [← hb]
        exact hx
      | succ m =>
        rw [List.getElem?_cons_succ] at hb
        exact ih m b (by omega) hb
    · omega

theorem lowerBound_ge (k : List Nat) :
    ∀ (bs : List Bucket) (j : Nat) (b : Bucket),
      List.Pairwise (fun a b => keyLess a.key b.key = true) bs →
      lowerBound bs k ≤ j → bs[j]? = some b → keyLess b.key k = false := by
  intro bs
  induction bs with
  | nil => intro j b _ _ h; simp at h
  | cons x xs ih =>
    intro j b hpw hj hb
    simp only [lowerBound] at hj
    split at hj
    · rename_i hx
      cases j with
      | zero => omega
      | succ m =>
        rw [List.getElem?_cons_succ] at hb
        exact ih m b (List.pairwise_cons.mp hpw).2 (by omega) hb
    · rename_i hx
      rw [Bool.not_eq_true] at hx
      cases j with
      | zero =>
        simp only [List.getElem?_cons_zero, Option.some.injEq] at hb
        rw [← hb]
        exact hx
      | succ m =>
        rw [List.getElem?_cons_succ] at hb
        have hmem : b ∈ xs := by
          have := List.getElem?_eq_some.mp hb
          obtain ⟨hlt, hget⟩ := this
          rw [← hget]
          exact List.getElem_mem _
        have hxb : keyLess x.key b.key = true := (List.pairwise_cons.mp hpw).1 b hmem
        rcases hk : keyLess b.key k with _ | _
        · rfl
        · exfalso
          have := keyLess_trans x.key b.key k hxb hk
          rw [hx] at this
          exact Bool.false_ne_true this

/-! ## Sorted-list and family lemmas -/

theorem mem_famBuckets (r : Repo) (p : List Nat) (b : Bucket) :
    b ∈ famBuckets r p ↔ b ∈ r.buckets ∧ b.parts = p := by
  simp [famBuckets, List.mem_filter]

theorem sorted_getLast?_max :
    ∀ (l : List Bucket),
      List.Pairwise (fun a b => keyLess a.key b.key = true) l →
      ∀ L, l.getLast? = some L → ∀ m ∈ l, m = L ∨ keyLess m.key L.key = true := by
  intro l
  induction l with
  | nil => intro _ L h; simp at h
  | cons x xs ih =>
    intro hpw L hL m hm
    cases xs with
    | nil =>
      simp only [List.getLast?_singleton, Option.some.injEq] at hL
      rcases List.mem_singleton.mp hm with h
      left; rw [h, hL]
    | cons y ys =>
      rw [List.getLast?_cons_cons] at hL
      rcases List.mem_cons.mp hm with h | h
      · subst h
        right
        have hLmem : L ∈ y :: ys := by
          obtain ⟨hne, hEq⟩ :=
            List.mem_getLast?_eq_getLast (Option.mem_def.mpr hL)
          rw [hEq]
          exact List.getLast_mem hne
        exact (List.pairwise_cons.mp hpw).1 L hLmem
      · exact ih (List.pairwise_cons.mp hpw).2 L hL m h

theorem sorted_getLast?_of_max :
    ∀ (l : List Bucket),
      List.Pairwise (fun a b => keyLess a.key b.key = true) l →
      ∀ e ∈ l, (∀ m ∈ l, keyLess e.key m.key = false) → l.getLast? = some e := by
  intro l
  induction l with
  | nil => intro _ e he; simp at he
  | cons x xs ih =>
    intro hpw e he hmax
    cases xs with
    | nil =>
      rcases List.mem_singleton.mp he with h
      rw [h, List.getLast?_singleton]
    | cons y ys =>
      rw [List.getLast?_cons_cons]
      rcases List.mem_cons.mp he with h | h
      · exfalso
        subst h
        have h1 : keyLess e.key y.key = true :=
          (List.pairwise_cons.mp hpw).1 y (List.mem_cons_self _ _)
        have h2 := hmax y (List.mem_cons_of_mem _ (List.mem_cons_self _ _))
        rw [h1] at h2
        exact Bool.true_eq_false.mp h2 |>.elim
      · exact ih (List.pairwise_cons.mp hpw).2 e h
          (fun m hm => hmax m (List.mem_cons_of_mem _ hm))

/-! ## Insertion lemmas -/

theorem insertIdx_eq_take_drop {α : Type} (a : α) :
    ∀ (n : Nat) (l : List α), n ≤ l.length →
      l.insertIdx n a = l.take n ++ a :: l.drop n := by
  intro n
  induction n with
  | zero => intro l _; simp
  | succ m ih =>
    intro l hl
    cases l with
    | nil => simp at hl
    | cons x xs =>
      rw [List.insertIdx_succ_cons, ih xs (by simpa using hl)]
      simp

theorem mem_take_lowerBound (k : List Nat) :
    ∀ (bs : List Bucket) (x : Bucket), x ∈ bs.take (lowerBound bs k) →
      keyLess x.key k = true := by
  intro bs
  induction bs with
  | nil => intro x h; simp [lowerBound] at h
  | cons b t ih =>
    intro x hx
    simp only [lowerBound] at hx
    split at hx
    · rename_i hb
      rw [List.take_succ_cons] at hx
      rcases List.mem_cons.mp hx with h | h
      · rw [h]; exact hb
      · exact ih x h
    · simp at hx

theorem mem_drop_lowerBound (k : List Nat) :
    ∀ (bs : List Bucket),
      List.Pairwise (fun a b => keyLess a.key b.key = true) bs →
      ∀ x ∈ bs.drop (lowerBound bs k), keyLess x.key k = false := by
  intro bs
  induction bs with
  | nil => intro _ x h; simp at h
  | cons b t ih =>
    intro hpw x hx
    simp only [lowerBound] at hx
    split at hx
    · rename_i hb
      rw [List.drop_succ_cons] at hx
      exact ih (List.pairwise_cons.mp hpw).2 x hx
    · rename_i hb
      rw [Bool.not_eq_true] at hb
      rw [List.drop_zero] at hx
      rcases List.mem_cons.mp hx with h | h
      · rw [h]; exact hb
      · rcases hk : keyLess x.key k with _ | _
        · rfl
        · exfalso
          have hbx : keyLess b.key x.key = true := (List.pairwise_cons.mp hpw).1 x h
          have := keyLess_trans b.key x.key k hbx hk
          rw [hb] at this
          exact Bool.false_ne_true this

/-- A family bucket with counter below the wrap limit sorts strictly below
    the wildcard search key. -/
theorem fam_lt_searchKey (p : List Nat) (b : Bucket) (hbp : b.parts = p)
    (hfam : b.fam < maxU) : keyLess b.key (searchKey p) = true := by
  rw [key_eq_rawKey, searchKey_eq_rawKey, hbp, rawKey_lt_same]
  exact decide_eq_true hfam

/-- Inserting a bucket of the searched family at the lower-bound position
    preserves the strict key order, provided the new bucket sorts above every
    existing member of its family. -/
theorem pairwise_insert_at_lowerBound (r : Repo) (p : List Nat) (nb : Bucket)
    (hpw : List.Pairwise (fun a b => keyLess a.key b.key = true) r.buckets)
    (hfs : ∀ b ∈ r.buckets, b.parts = p → b.fam < maxU)
    (hnbp : nb.parts = p)
    (hmax : ∀ m ∈ famBuckets r p, keyLess m.key nb.key = true) :
    List.Pairwise (fun a b => keyLess a.key b.key = true)
      (r.buckets.insertIdx (lowerBound r.buckets (searchKey p)) nb) := by
  set ik := lowerBound r.buckets (searchKey p) with hik
  rw [insertIdx_eq_take_drop nb ik r.buckets (hik ▸ lowerBound_le_length _ _)]
  have hsplit := List.pairwise_append.mp
    (by rw [List.take_append_drop]; exact hpw : List.Pairwise
      (fun a b => keyLess a.key b.key = true) (r.buckets.take ik ++ r.buckets.drop ik))
  have hnb_lt_drop : ∀ y ∈ r.buckets.drop ik, keyLess nb.key y.key = true := by
    intro y hy
    have hynotlt : keyLess y.key (searchKey p) = false :=
      mem_drop_lowerBound _ _ hpw y hy
    have hymem : y ∈ r.buckets := List.mem_of_mem_drop hy
    by_cases hyp : y.parts = p
    · exfalso
      have := fam_lt_searchKey p y hyp (hfs y hymem hyp)
      rw [hynotlt] at this
      exact Bool.false_ne_true this
    · have hkne : nb.key ≠ y.key := by
        intro hc
        rw [key_eq_rawKey, key_eq_rawKey] at hc
        have hpe := (rawKey_inj _ _ _ _ hc).1
        rw [hnbp] at hpe
        exact hyp hpe.symm
      have hind : keyLess y.key nb.key = keyLess y.key (searchKey p) := by
        rw [key_eq_rawKey y, key_eq_rawKey nb, hnbp, searchKey_eq_rawKey]
        exact rawKey_lt_indep y.parts p y.fam nb.fam y.fam maxU hyp
      rcases keyLess_total nb.key y.key (hkne) with h | h
      · exact h
      · exfalso
        rw [hind, hynotlt] at h
        exact Bool.false_ne_true h
  apply List.pairwise_append.mpr
  refine ⟨hsplit.1, ?_, ?_⟩
  · apply List.pairwise_cons.mpr
    exact ⟨hnb_lt_drop, hsplit.2.1⟩
  · intro x hx y hy
    rcases List.mem_cons.mp hy with hynb | hydrop
    · subst hynb
      have hxlt : keyLess x.key (searchKey p) = true := mem_take_lowerBound _ _ x hx
      have hxmem : x ∈ r.buckets := List.mem_of_mem_take hx
      by_cases hxp : x.parts = p
      · exact hmax x ((mem_famBuckets r p x).mpr ⟨hxmem, hxp⟩)
      · have hind : keyLess x.key y.key = keyLess x.key (searchKey p) := by
          rw [key_eq_rawKey x, key_eq_rawKey y, hnbp, searchKey_eq_rawKey]
          exact rawKey_lt_indep x.parts p x.fam y.fam x.fam maxU hxp
        rw [hind]
        exact hxlt
    · exact hsplit.2.2 x hx y hydrop

/-- No bucket of the searched family sits at or above the lower-bound
    position. -/
theorem no_fam_in_drop (r : Repo) (p : List Nat)
    (hpw : List.Pairwise (fun a b => keyLess a.key b.key = true) r.buckets)
    (hfs : ∀ b ∈ r.buckets, b.parts = p → b.fam < maxU) :
    ∀ y ∈ r.buckets.drop (lowerBound r.buckets (searchKey p)), y.parts ≠ p := by
  intro y hy hyp
  have hynotlt : keyLess y.key (searchKey p) = false :=
    mem_drop_lowerBound _ _ hpw y hy
  have := fam_lt_searchKey p y hyp (hfs y (List.mem_of_mem_drop hy) hyp)
  rw [hynotlt] at this
  exact Bool.false_ne_true this

/-- Splitting the family filter at the lower-bound position: every family
    member lives in the `take` part. -/
theorem famBuckets_eq_take_filter (r : Repo) (p : List Nat)
    (hpw : List.Pairwise (fun a b => keyLess a.key b.key = true) r.buckets)
    (hfs : ∀ b ∈ r.buckets, b.parts = p → b.fam < maxU) :
    famBuckets r p = (r.buckets.take (lowerBound r.buckets (searchKey p))).filter
      (fun b => b.parts == p) := by
  have hdrop : (r.buckets.drop (lowerBound r.buckets (searchKey p))).filter
      (fun b => b.parts == p) = [] := by
    rw [List.filter_eq_nil_iff]
    intro y hy
    simp only [beq_iff_eq]
    exact no_fam_in_drop r p hpw hfs y hy
  conv_lhs => rw [famBuckets, ← List.take_append_drop
    (lowerBound r.buckets (searchKey p)) r.buckets]
  rw [List.filter_append, hdrop, List.append_nil]

/-- Effect of the lower-bound insertion on family filters: the inserted
    family-member bucket lands at the end of its own family, and every other
    family is untouched. -/
theorem famBuckets_insert (r : Repo) (p : List Nat) (nb : Bucket) (r2 : Repo)
    (hpw : List.Pairwise (fun a b => keyLess a.key b.key = true) r.buckets)
    (hfs : ∀ b ∈ r.buckets, b.parts = p → b.fam < maxU)
    (hnbp : nb.parts = p)
    (hr2 : r2.buckets = r.buckets.insertIdx (lowerBound r.buckets (searchKey p)) nb) :
    famBuckets r2 p = famBuckets r p ++ [nb] ∧
    (∀ q, q ≠ p → famBuckets r2 q = famBuckets r q) := by
  have hins := insertIdx_eq_take_drop nb (lowerBound r.buckets (searchKey p))
    r.buckets (lowerBound_le_length _ _)
  have hdrop : (r.buckets.drop (lowerBound r.buckets (searchKey p))).filter
      (fun b => b.parts == p) = [] := by
    rw [List.filter_eq_nil_iff]
    intro y hy
    simp only [beq_iff_eq]
    exact no_fam_in_drop r p hpw hfs y hy
  constructor
  · show r2.buckets.filter (fun b => b.parts == p) = famBuckets r p ++ [nb]
    rw [hr2, hins, List.filter_append, List.filter_cons]
    have hnb : (nb.parts == p) = true := beq_iff_eq.mpr hnbp
    rw [hnb]
    simp only [if_true]
    rw [hdrop, famBuckets_eq_take_filter r p hpw hfs]
  · intro q hq
    show r2.buckets.filter (fun b => b.parts == q) = famBuckets r q
    rw [hr2, hins, List.filter_append, List.filter_cons]
    have hnb : (nb.parts == q) = false := by
      rw [beq_eq_false_iff_ne, hnbp]
      exact fun hc => hq hc.symm
    rw [hnb]
    simp only [Bool.false_eq_true, if_false]
    conv_rhs => rw [famBuckets, ← List.take_append_drop
      (lowerBound r.buckets (searchKey p)) r.buckets]
    rw [List.filter_append]

/-- The bucket found at `ik[-1]` by declare_bucket is exactly the family's
    current last bucket (the stored last-of-family pointer), and when the
    family is absent the probe finds no family bucket there. -/
theorem lastB_eq_lastOfFamily (r : Repo) (p : List Nat)
    (hpw : List.Pairwise (fun a b => keyLess a.key b.key = true) r.buckets)
    (hfs : ∀ b ∈ r.buckets, b.parts = p → b.fam < maxU) :
    (lastOfFamily r p = none →
      (lowerBound r.buckets (searchKey p) = 0 ∨
       ∀ b, r.buckets[lowerBound r.buckets (searchKey p) - 1]? = some b →
         b.parts ≠ p)) ∧
    (∀ L, lastOfFamily r p = some L →
      lowerBound r.buckets (searchKey p) ≠ 0 ∧
      r.buckets[lowerBound r.buckets (searchKey p) - 1]? = some L) := by
  constructor
  · intro hnone
    by_cases hik : lowerBound r.buckets (searchKey p) = 0
    · exact Or.inl hik
    · refine Or.inr ?_
      intro b hb hbp
      have hmem : b ∈ r.buckets := by
        obtain ⟨hlt, hget⟩ := List.getElem?_eq_some.mp hb
        rw [← hget]
        exact List.getElem_mem _
      have hbfam : b ∈ famBuckets r p := (mem_famBuckets r p b).mpr ⟨hmem, hbp⟩
      rw [lastOfFamily, List.getLast?_eq_none_iff] at hnone
      rw [hnone] at hbfam
      simp at hbfam
  · intro L hL
    have hLfam : L ∈ famBuckets r p := by
      obtain ⟨hne, hEq⟩ := List.mem_getLast?_eq_getLast (Option.mem_def.mpr hL)
      rw [hEq]
      exact List.getLast_mem hne
    obtain ⟨hLmem, hLp⟩ := (mem_famBuckets r p L).mp hLfam
    have hLlt : keyLess L.key (searchKey p) = true :=
      fam_lt_searchKey p L hLp (hfs L hLmem hLp)
    obtain ⟨jL, hjL⟩ := List.mem_iff_getElem?.mp hLmem
    have hjLlt : jL < lowerBound r.buckets (searchKey p) := by
      by_contra hc
      have := lowerBound_ge (searchKey p) r.buckets jL L hpw (by omega) hjL
      rw [hLlt] at this
      exact Bool.true_eq_false.mp this
    have hik : lowerBound r.buckets (searchKey p) ≠ 0 := by omega
    refine ⟨hik, ?_⟩
    have hlen : lowerBound r.buckets (searchKey p) - 1 < r.buckets.length := by
      have h1 := lowerBound_le_length (searchKey p) r.buckets
      have h2 : jL < r.buckets.length := (List.getElem?_eq_some.mp hjL).1
      omega
    obtain ⟨e, he⟩ : ∃ e, r.buckets[lowerBound r.buckets (searchKey p) - 1]? = some e :=
      ⟨_, List.getElem?_eq_getElem hlen⟩
    have hemem : e ∈ r.buckets := by
      obtain ⟨hlt, hget⟩ := List.getElem?_eq_some.mp he
      rw [← hget]
      exact List.getElem_mem _
    have heLt : keyLess e.key (searchKey p) = true :=
      lowerBound_lt (searchKey p) r.buckets _ e (by omega) he
    -- the probed bucket belongs to the family
    have hep : e.parts = p := by
      by_contra hep
      have hLe : keyLess L.key e.key = true := by
        rcases Nat.lt_or_ge jL (lowerBound r.buckets (searchKey p) - 1) with hj | hj
        · have hpg := List.pairwise_iff_getElem.mp hpw jL
            (lowerBound r.buckets (searchKey p) - 1)
            (List.getElem?_eq_some.mp hjL).1 hlen hj
          rw [(List.getElem?_eq_some.mp hjL).2, (List.getElem?_eq_some.mp he).2] at hpg
          exact hpg
        · exfalso
          have hje : jL = lowerBound r.buckets (searchKey p) - 1 := by omega
          rw [hje, he] at hjL
          have heL2 : e = L := by simpa using hjL
          apply hep
          rw [heL2]
          exact hLp
      have hind : keyLess (searchKey p) e.key = keyLess L.key e.key := by
        rw [key_eq_rawKey L, key_eq_rawKey e, hLp, searchKey_eq_rawKey]
        exact rawKey_lt_indep p e.parts maxU e.fam L.fam e.fam
          (fun hc => hep hc.symm)
      have hskLt : keyLess (searchKey p) e.key = true := by rw [hind]; exact hLe
      have := keyLess_trans e.key (searchKey p) e.key heLt hskLt
      rw [keyLess_irrefl] at this
      exact Bool.false_ne_true this
    -- e is maximal within the family, hence its stored last bucket
    have hefam : e ∈ famBuckets r p := (mem_famBuckets r p e).mpr ⟨hemem, hep⟩
    have hemax : ∀ m ∈ famBuckets r p, keyLess e.key m.key = false := by
      intro m hm
      obtain ⟨hmmem, hmp⟩ := (mem_famBuckets r p m).mp hm
      have hmlt : keyLess m.key (searchKey p) = true :=
        fam_lt_searchKey p m hmp (hfs m hmmem hmp)
      obtain ⟨jm, hjm⟩ := List.mem_iff_getElem?.mp hmmem
      have hjmlt : jm < lowerBound r.buckets (searchKey p) := by
        by_contra hc
        have := lowerBound_ge (searchKey p) r.buckets jm m hpw (by omega) hjm
        rw [hmlt] at this
        exact Bool.true_eq_false.mp this
      rcases Nat.lt_or_ge jm (lowerBound r.buckets (searchKey p) - 1) with hj | hj
      · have hpg := List.pairwise_iff_getElem.mp hpw jm
          (lowerBound r.buckets (searchKey p) - 1)
          (List.getElem?_eq_some.mp hjm).1 hlen hj
        rw [(List.getElem?_eq_some.mp hjm).2, (List.getElem?_eq_some.mp he).2] at hpg
        exact keyLess_asymm _ _ hpg
      · have hje : jm = lowerBound r.buckets (searchKey p) - 1 := by omega
        rw [hje, he] at hjm
        have hme : e = m := by simpa using hjm
        rw [← hme, keyLess_irrefl]
    have hfampw : List.Pairwise (fun a b => keyLess a.key b.key = true)
        (famBuckets r p) := hpw.filter _
    have := sorted_getLast?_of_max (famBuckets r p) hfampw e hefam hemax
    rw [lastOfFamily] at hL
    rw [this] at hL
    have heL : e = L := by simpa using hL
    rw [← heL]
    exact he

/-! ## declare_bucket characterization -/

theorem declareBucket_unfold (r : Repo) (p : List Nat) :
    declareBucket r p =
      match (if lowerBound r.buckets (searchKey p) = 0 then none
        else match r.buckets[lowerBound r.buckets (searchKey p) - 1]? with
          | some b => if b.parts = p then some b else none
          | none => none : Option Bucket) with
      | some last =>
        if last.size = 0 then .error (.emptyLast, r)
        else if last.size < last.cap then .ok (r, last)
        else if last.fam < maxU then
          .ok (insRepo r p (freshBucket r p (last.fam + 1)),
            freshBucket r p (last.fam + 1))
        else .error (.tooManyBuckets, r)
      | none =>
        match computeFieldMap r.cap r.etype p r.fields with
        | .error e => .error (.layout e, r)
        | .ok _ => .ok (insRepo r p (freshBucket r p 0), freshBucket r p 0) := rfl

/-- Behavior of declare_bucket expressed through the family's stored last
    bucket, on a key-sorted repository whose searched family has counters
    below the wrap limit. -/
theorem declareBucket_spec (r : Repo) (p : List Nat)
    (hpw : List.Pairwise (fun a b => keyLess a.key b.key = true) r.buckets)
    (hfs : ∀ b ∈ r.buckets, b.parts = p → b.fam < maxU) :
    (lastOfFamily r p = none →
      declareBucket r p =
        match computeFieldMap r.cap r.etype p r.fields with
        | .error e => .error (.layout e, r)
        | .ok _ => .ok (insRepo r p (freshBucket r p 0), freshBucket r p 0)) ∧
    (∀ L, lastOfFamily r p = some L →
      declareBucket r p =
        if L.size = 0 then .error (.emptyLast, r)
        else if L.size < L.cap then .ok (r, L)
        else if L.fam < maxU then
          .ok (insRepo r p (freshBucket r p (L.fam + 1)),
            freshBucket r p (L.fam + 1))
        else .error (.tooManyBuckets, r)) := by
  obtain ⟨hc1, hc2⟩ := lastB_eq_lastOfFamily r p hpw hfs
  constructor
  · intro hnone
    have hscrut : (if lowerBound r.buckets (searchKey p) = 0 then none
        else match r.buckets[lowerBound r.buckets (searchKey p) - 1]? with
          | some b => if b.parts = p then some b else none
          | none => none : Option Bucket) = none := by
      rcases hc1 hnone with h | h
      · rw [if_pos h]
      · by_cases hik : lowerBound r.buckets (searchKey p) = 0
        · rw [if_pos hik]
        · rw [if_neg hik]
          cases hget : r.buckets[lowerBound r.buckets (searchKey p) - 1]? with
          | none => rfl
          | some b =>
            have hbp := h b hget
            show (if b.parts = p then some b else none) = (none : Option Bucket)
            rw [if_neg hbp]
    rw [declareBucket_unfold, hscrut]
  · intro L hL
    obtain ⟨hik, hget⟩ := hc2 L hL
    have hLp : L.parts = p := by
      have hLfam : L ∈ famBuckets r p := by
        obtain ⟨hne, hEq⟩ := List.mem_getLast?_eq_getLast (Option.mem_def.mpr hL)
        rw [hEq]
        exact List.getLast_mem hne
      exact ((mem_famBuckets r p L).mp hLfam).2
    have hscrut : (if lowerBound r.buckets (searchKey p) = 0 then none
        else match r.buckets[lowerBound r.buckets (searchKey p) - 1]? with
          | some b => if b.parts = p then some b else none
          | none => none : Option Bucket) = some L := by
      rw [if_neg hik, hget]
      show (if L.parts = p then some L else none) = some L
      rw [if_pos hLp]
    rw [declareBucket_unfold, hscrut]

/-! ## Well-formedness preservation: declare_bucket -/

theorem chainKeys_iff_pairwise (l : List Bucket) :
    List.Chain' (fun a b => keyLess a.key b.key = true) l ↔
      List.Pairwise (fun a b => keyLess a.key b.key = true) l :=
  @List.chain'_iff_pairwise Bucket (fun a b => keyLess a.key b.key = true)
    ⟨fun a b c hab hbc => keyLess_trans a.key b.key c.key hab hbc⟩ l

theorem getD_replicate_none : ∀ (n i : Nat),
    (List.replicate n (none : Option EntityId)).getD i none = none := by
  intro n
  induction n with
  | zero => intro i; simp
  | succ m ih =>
    intro i
    cases i with
    | zero => simp [List.replicate]
    | succ j =>
      rw [List.replicate]
      simp only [List.getD_cons_succ]
      exact ih j

theorem lastOfFamily_mem (r : Repo) (p : List Nat) (L : Bucket)
    (hL : lastOfFamily r p = some L) : L ∈ famBuckets r p := by
  obtain ⟨hne, hEq⟩ := List.mem_getLast?_eq_getLast (Option.mem_def.mpr hL)
  rw [hEq]
  exact List.getLast_mem hne

theorem lastOfFamily_parts (r : Repo) (p : List Nat) (L : Bucket)
    (hL : lastOfFamily r p = some L) : L ∈ r.buckets ∧ L.parts = p :=
  (mem_famBuckets r p L).mp (lastOfFamily_mem r p L hL)

/-- Inserting a fresh family bucket at the lower-bound position preserves
    repository well-formedness, provided the new bucket sorts above its
    family and every existing member of the family is full. -/
theorem insert_WF (r : Repo) (p : List Nat) (nb : Bucket) (hWF : WF r)
    (hfs : ∀ b ∈ r.buckets, b.parts = p → b.fam < maxU)
    (hnbp : nb.parts = p)
    (hmax : ∀ m ∈ famBuckets r p, keyLess m.key nb.key = true)
    (hcap : nb.cap = r.cap) (hsz : nb.size = 0)
    (hslots : nb.slots = List.replicate r.cap none)
    (hdata : nb.data = List.replicate r.cap 0)
    (hfull : ∀ m ∈ famBuckets r p, m.size = m.cap) :
    WF (insRepo r p nb) := by
  obtain ⟨hcap0, hch, hbwf⟩ := hWF
  have hpw := (chainKeys_iff_pairwise r.buckets).mp hch
  have hlb_le := lowerBound_le_length (searchKey p) r.buckets
  have hfams := famBuckets_insert r p nb (insRepo r p nb) hpw hfs hnbp rfl
  have hlast_p : lastOfFamily (insRepo r p nb) p = some nb := by
    rw [lastOfFamily, hfams.1]
    exact List.getLast?_concat _
  have hlast_q : ∀ q, q ≠ p →
      lastOfFamily (insRepo r p nb) q = lastOfFamily r q := by
    intro q hq
    rw [lastOfFamily, hfams.2 q hq, lastOfFamily]
  refine ⟨hcap0, ?_, ?_⟩
  · exact (chainKeys_iff_pairwise _).mpr
      (pairwise_insert_at_lowerBound r p nb hpw hfs hnbp hmax)
  · intro b hb
    have hb2 : b = nb ∨ b ∈ r.buckets := (List.mem_insertIdx hlb_le).mp hb
    rcases hb2 with hbnb | hbold
    · subst hbnb
      refine ⟨hcap, ?_, ?_, ?_, ?_, ?_, ?_, ?_⟩
      · rw [hsz]; exact Nat.zero_le _
      · rw [hslots, hcap]; exact List.length_replicate _ _
      · rw [hdata, hcap]; exact List.length_replicate _ _
      · intro i hi
        rw [hsz] at hi
        exact absurd hi (by omega)
      · intro i _ _
        rw [hslots]
        exact getD_replicate_none _ _
      · intro hne
        exact absurd (hnbp ▸ hlast_p) hne
      · intro i hi
        rw [hsz] at hi
        exact absurd hi (by omega)
    · obtain ⟨c1, c2, c3, c4, c5, c6, c7, c8⟩ := hbwf b hbold
      refine ⟨c1, c2, c3, c4, c5, c6, ?_, c8⟩
      intro _
      by_cases hbp : b.parts = p
      · exact hfull b ((mem_famBuckets r p b).mpr ⟨hbold, hbp⟩)
      · rename_i hne
        rw [hlast_q b.parts hbp] at hne
        exact c7 hne

/-- declare_bucket preserves well-formedness on success. -/
theorem declare_ok_WF (r : Repo) (p : List Nat) (r2 : Repo) (b : Bucket)
    (hWF : WF r) (hfs : famSafe r)
    (h : declareBucket r p = .ok (r2, b)) : WF r2 := by
  have hpw := (chainKeys_iff_pairwise r.buckets).mp hWF.2.1
  have hfs2 : ∀ bb ∈ r.buckets, bb.parts = p → bb.fam < maxU :=
    fun bb hm _ => hfs bb hm
  obtain ⟨hs1, hs2⟩ := declareBucket_spec r p hpw hfs2
  cases hlof : lastOfFamily r p with
  | none =>
    have hd := hs1 hlof
    have hfamnil : famBuckets r p = [] := by
      rw [lastOfFamily, List.getLast?_eq_none_iff] at hlof
      exact hlof
    cases hcm : computeFieldMap r.cap r.etype p r.fields with
    | error e =>
      rw [hcm] at hd
      rw [hd] at h
      exact absurd h (by simp)
    | ok fmp =>
      rw [hcm] at hd
      rw [hd] at h
      simp only [Except.ok.injEq, Prod.mk.injEq] at h
      obtain ⟨h1, h2⟩ := h
      rw [← h1]
      exact insert_WF r p (freshBucket r p 0) hWF hfs2 rfl
        (by rw [hfamnil]; intro m hm; simp at hm) rfl rfl rfl rfl
        (by rw [hfamnil]; intro m hm; simp at hm)
  | some L =>
    have hd := hs2 L hlof
    obtain ⟨hLmem, hLp⟩ := lastOfFamily_parts r p L hlof
    by_cases hsz : L.size = 0
    · rw [if_pos hsz] at hd
      rw [hd] at h
      exact absurd h (by simp)
    · rw [if_neg hsz] at hd
      by_cases hlt : L.size < L.cap
      · rw [if_pos hlt] at hd
        rw [hd] at h
        simp only [Except.ok.injEq, Prod.mk.injEq] at h
        rw [← h.1]
        exact hWF
      · rw [if_neg hlt] at hd
        have hLfam : L.fam < maxU := hfs L hLmem
        rw [if_pos hLfam] at hd
        rw [hd] at h
        simp only [Except.ok.injEq, Prod.mk.injEq] at h
        obtain ⟨h1, h2⟩ := h
        rw [← h1]
        have hLsz : L.size = L.cap := by
          have := (hWF.2.2 L hLmem).2.1
          omega
        have hfampw : List.Pairwise (fun a b => keyLess a.key b.key = true)
            (famBuckets r p) := hpw.filter _
        refine insert_WF r p (freshBucket r p (L.fam + 1)) hWF hfs2 rfl ?_
          rfl rfl rfl rfl ?_
        · intro m hm
          have hmfacts := (mem_famBuckets r p m).mp hm
          have hLkey : keyLess L.key (freshBucket r p (L.fam + 1)).key = true := by
            rw [key_eq_rawKey L, hLp]
            show keyLess (rawKey p L.fam) (rawKey p (L.fam + 1)) = true
            rw [rawKey_lt_same]
            exact decide_eq_true (by omega)
          rcases sorted_getLast?_max (famBuckets r p) hfampw L hlof m hm with hmL | hmL
          · rw [hmL]; exact hLkey
          · exact keyLess_trans _ _ _ hmL hLkey
        · intro m hm
          by_cases hmlast : lastOfFamily r p = some m
          · have : m = L := by
              rw [hlof] at hmlast
              simpa using hmlast.symm
            rw [this]
            exact hLsz
          · exact ((hWF.2.2 m ((mem_famBuckets r p m).mp hm).1).2.2.2.2.2.2.1)
              (by rw [((mem_famBuckets r p m).mp hm).2]; exact hmlast)

/-- Case analysis of a successful declare_bucket call. -/
theorem declare_ok_cases (r : Repo) (p : List Nat) (r2 : Repo) (b : Bucket)
    (hWF : WF r) (hfs : famSafe r)
    (h : declareBucket r p = .ok (r2, b)) :
    (∃ L, lastOfFamily r p = some L ∧ b = L ∧ r2 = r ∧ 0 < L.size ∧
      L.size < L.cap) ∨
    (∃ L, lastOfFamily r p = some L ∧ L.size = L.cap ∧
      b = freshBucket r p (L.fam + 1) ∧ r2 = insRepo r p b) ∨
    (lastOfFamily r p = none ∧ b = freshBucket r p 0 ∧ r2 = insRepo r p b) := by
  have hpw := (chainKeys_iff_pairwise r.buckets).mp hWF.2.1
  have hfs2 : ∀ bb ∈ r.buckets, bb.parts = p → bb.fam < maxU :=
    fun bb hm _ => hfs bb hm
  obtain ⟨hs1, hs2⟩ := declareBucket_spec r p hpw hfs2
  cases hlof : lastOfFamily r p with
  | none =>
    have hd := hs1 hlof
    cases hcm : computeFieldMap r.cap r.etype p r.fields with
    | error e =>
      rw [hcm] at hd
      rw [hd] at h
      exact absurd h (by simp)
    | ok fmp =>
      rw [hcm] at hd
      rw [hd] at h
      simp only [Except.ok.injEq, Prod.mk.injEq] at h
      exact Or.inr (Or.inr ⟨rfl, h.2.symm, by rw [← h.1, ← h.2]⟩)
  | some L =>
    have hd := hs2 L hlof
    obtain ⟨hLmem, hLp⟩ := lastOfFamily_parts r p L hlof
    by_cases hsz : L.size = 0
    · rw [if_pos hsz] at hd
      rw [hd] at h
      exact absurd h (by simp)
    · rw [if_neg hsz] at hd
      by_cases hlt : L.size < L.cap
      · rw [if_pos hlt] at hd
        rw [hd] at h
        simp only [Except.ok.injEq, Prod.mk.injEq] at h
        exact Or.inl ⟨L, rfl, h.2.symm, h.1.symm, by omega, hlt⟩
      · rw [if_neg hlt] at hd
        have hLfam : L.fam < maxU := hfs L hLmem
        rw [if_pos hLfam] at hd
        rw [hd] at h
        simp only [Except.ok.injEq, Prod.mk.injEq] at h
        have hLsz : L.size = L.cap := by
          have := (hWF.2.2 L hLmem).2.1
          omega
        exact Or.inr (Or.inl ⟨L, rfl, hLsz, h.2.symm, by rw [← h.1, ← h.2]⟩)

/-! ## Claim C10 -/

/-- C10: every successful declare_bucket call returns a bucket whose size is
    strictly below its capacity, so one object can be placed without a
    further allocation; the first bucket of a newly created family is
    returned empty (size zero, counter zero). -/
theorem claimC10_spare_capacity (r : Repo) (p : List Nat) (r2 : Repo)
    (b : Bucket) (hWF : WF r) (hfs : famSafe r)
    (h : declareBucket r p = .ok (r2, b)) :
    b.size < b.cap ∧
    (lastOfFamily r p = none → b.size = 0 ∧ b.fam = 0) := by
  rcases declare_ok_cases r p r2 b hWF hfs h with
    ⟨L, hlof, hbL, _, _, hlt⟩ | ⟨L, hlof, _, hbL, _⟩ | ⟨hlof, hbL, _⟩
  · constructor
    · rw [hbL]; exact hlt
    · intro hnone
      rw [hlof] at hnone
      exact absurd hnone (by simp)
  · constructor
    · rw [hbL]
      show 0 < r.cap
      exact hWF.1
    · intro hnone
      rw [hlof] at hnone
      exact absurd hnone (by simp)
  · constructor
    · rw [hbL]
      show 0 < r.cap
      exact hWF.1
    · intro _
      rw [hbL]
      exact ⟨rfl, rfl⟩

/-- Witness for C10: declaring into the empty repository returns the new
    family's empty first bucket. -/
theorem claimC10_spare_capacity_witness :
    (WF emptyRepo ∧ famSafe emptyRepo ∧
      declareBucket emptyRepo [3] =
        .ok (insRepo emptyRepo [3] (freshBucket emptyRepo [3] 0),
          freshBucket emptyRepo [3] 0)) ∧
    ((freshBucket emptyRepo [3] 0).size < (freshBucket emptyRepo [3] 0).cap ∧
      (lastOfFamily emptyRepo [3] = none →
        (freshBucket emptyRepo [3] 0).size = 0 ∧
        (freshBucket emptyRepo [3] 0).fam = 0)) :=
  ⟨⟨⟨by decide, by simp [emptyRepo], by intro b hb; simp [emptyRepo] at hb⟩,
      by intro b hb; simp [emptyRepo] at hb, rfl⟩,
    claimC10_spare_capacity emptyRepo [3] _ _
      ⟨by decide, by simp [emptyRepo], by intro b hb; simp [emptyRepo] at hb⟩
      (by intro b hb; simp [emptyRepo] at hb) rfl⟩

/-! ## Claim C7 -/

/-- C7 (amended): on a well-formed repository below the counter limit,
    declare_bucket returns the family's nonempty last bucket unchanged when
    it has spare capacity; when it is full, a new empty bucket with counter
    one greater is inserted at the binary-search position and becomes the
    family's new last bucket; when no family exists and the layout resolves,
    the family's first bucket is created with counter zero; the
    counter-overflow failure is unreachable (the guard compares the bucket
    preceding the search position, which in a strictly ordered repository
    never carries the maximum counter). -/
theorem claimC7_declare_contract (r : Repo) (p : List Nat)
    (hWF : WF r) (hfs : famSafe r) :
    (∀ L, lastOfFamily r p = some L → 0 < L.size → L.size < L.cap →
      declareBucket r p = .ok (r, L)) ∧
    (∀ L, lastOfFamily r p = some L → L.size = L.cap →
      declareBucket r p =
        .ok (insRepo r p (freshBucket r p (L.fam + 1)),
          freshBucket r p (L.fam + 1)) ∧
      (freshBucket r p (L.fam + 1)).fam = L.fam + 1 ∧
      lastOfFamily (insRepo r p (freshBucket r p (L.fam + 1))) p
        = some (freshBucket r p (L.fam + 1))) ∧
    (lastOfFamily r p = none →
      ∀ fmp, computeFieldMap r.cap r.etype p r.fields = .ok fmp →
        declareBucket r p =
          .ok (insRepo r p (freshBucket r p 0), freshBucket r p 0)) ∧
    (∀ er, declareBucket r p = .error er → er.1 ≠ .tooManyBuckets) := by
  have hpw := (chainKeys_iff_pairwise r.buckets).mp hWF.2.1
  have hfs2 : ∀ bb ∈ r.buckets, bb.parts = p → bb.fam < maxU :=
    fun bb hm _ => hfs bb hm
  obtain ⟨hs1, hs2⟩ := declareBucket_spec r p hpw hfs2
  have hcap0 := hWF.1
  refine ⟨?_, ?_, ?_, ?_⟩
  · intro L hlof hpos hlt
    have hd := hs2 L hlof
    rw [if_neg (by omega), if_pos hlt] at hd
    exact hd
  · intro L hlof hfull
    obtain ⟨hLmem, hLp⟩ := lastOfFamily_parts r p L hlof
    have hLfam : L.fam < maxU := hfs L hLmem
    have hd := hs2 L hlof
    have hLcap : L.cap = r.cap := (hWF.2.2 L hLmem).1
    rw [if_neg (by omega), if_neg (by omega), if_pos hLfam] at hd
    refine ⟨hd, rfl, ?_⟩
    have hfams := famBuckets_insert r p (freshBucket r p (L.fam + 1))
      (insRepo r p (freshBucket r p (L.fam + 1))) hpw hfs2 rfl rfl
    rw [lastOfFamily, hfams.1]
    exact List.getLast?_concat _
  · intro hnone fmp hcm
    have hd := hs1 hnone
    rw [hcm] at hd
    exact hd
  · intro er her hcon
    cases hlof : lastOfFamily r p with
    | none =>
      have hd := hs1 hlof
      cases hcm : computeFieldMap r.cap r.etype p r.fields with
      | error e =>
        rw [hcm] at hd
        rw [hd] at her
        simp only [Except.error.injEq] at her
        rw [← her] at hcon
        simp at hcon
      | ok fmp =>
        rw [hcm] at hd
        rw [hd] at her
        exact absurd her (by simp)
    | some L =>
      obtain ⟨hLmem, hLp⟩ := lastOfFamily_parts r p L hlof
      have hLfam : L.fam < maxU := hfs L hLmem
      have hd := hs2 L hlof
      by_cases hsz : L.size = 0
      · rw [if_pos hsz] at hd
        rw [hd] at her
        simp only [Except.error.injEq] at her
        rw [← her] at hcon
        simp at hcon
      · rw [if_neg hsz] at hd
        by_cases hlt : L.size < L.cap
        · rw [if_pos hlt] at hd
          rw [hd] at her
          exact absurd her (by simp)
        · rw [if_neg hlt, if_pos hLfam] at hd
          rw [hd] at her
          exact absurd her (by simp)

/-- Witness for C7 at a one-bucket full family of capacity 1. -/
theorem claimC7_declare_contract_witness :
    (WF oneRepo ∧ famSafe oneRepo) ∧
    ((∀ L, lastOfFamily oneRepo [3] = some L → 0 < L.size → L.size < L.cap →
        declareBucket oneRepo [3] = .ok (oneRepo, L)) ∧
      (∀ L, lastOfFamily oneRepo [3] = some L → L.size = L.cap →
        declareBucket oneRepo [3] =
          .ok (insRepo oneRepo [3] (freshBucket oneRepo [3] (L.fam + 1)),
            freshBucket oneRepo [3] (L.fam + 1)) ∧
        (freshBucket oneRepo [3] (L.fam + 1)).fam = L.fam + 1 ∧
        lastOfFamily (insRepo oneRepo [3] (freshBucket oneRepo [3] (L.fam + 1))) [3]
          = some (freshBucket oneRepo [3] (L.fam + 1))) ∧
      (lastOfFamily oneRepo [3] = none →
        ∀ fmp, computeFieldMap oneRepo.cap oneRepo.etype [3] oneRepo.fields = .ok fmp →
          declareBucket oneRepo [3] =
            .ok (insRepo oneRepo [3] (freshBucket oneRepo [3] 0),
              freshBucket oneRepo [3] 0)) ∧
      (∀ er, declareBucket oneRepo [3] = .error er → er.1 ≠ .tooManyBuckets)) := by
  have hWF1 : WF oneRepo := by
    refine ⟨by decide, by simp [oneRepo], ?_⟩
    intro b hb
    simp only [oneRepo, List.mem_singleton] at hb
    subst hb
    refine ⟨rfl, by decide, by decide, by decide, ?_, ?_, ?_, ?_⟩
    · intro i hi
      interval_cases i
      decide
    · intro i h1 h2
      have h1b : i < 1 := h1
      have h2b : 1 ≤ i := h2
      omega
    · intro hne
      rfl
    · intro i hi
      interval_cases i
      decide
  have hfs1 : famSafe oneRepo := by
    intro b hb
    simp only [oneRepo, List.mem_singleton] at hb
    subst hb
    decide
  exact ⟨⟨hWF1, hfs1⟩, claimC7_declare_contract oneRepo [3] hWF1 hfs1⟩

/-- C7 counterexample: two divergences from the claim.  First, a family whose
    last bucket is empty (freshly declared, not yet filled) is not returned:
    the call throws the empty-last logic error even though the last bucket
    has spare capacity.  Second, with the family counter at the maximum
    `~0u`, the binary search lands on that bucket itself, the overflow guard
    is bypassed, and the call succeeds instead of failing. -/
theorem claimC7_counterexample :
    (∃ s1 b1, declareBucket emptyRepo [3] = .ok (s1, b1) ∧
      lastOfFamily s1 [3] = some b1 ∧ b1.size < b1.cap ∧
      declareBucket s1 [3] = .error (.emptyLast, s1)) ∧
    (∃ L, lastOfFamily maxRepo [3] = some L ∧ L.fam = maxU ∧
      okB (declareBucket maxRepo [3]) = true) := by
  constructor
  · exact ⟨insRepo emptyRepo [3] (freshBucket emptyRepo [3] 0),
      freshBucket emptyRepo [3] 0, rfl, rfl, by decide, rfl⟩
  · exact ⟨maxBucket, rfl, rfl, by decide⟩

/-! ## destroy_bucket lemmas -/

theorem getElem?_eraseIdx_lt {α : Type} :
    ∀ (l : List α) (i j : Nat), j < i → (l.eraseIdx i)[j]? = l[j]? := by
  intro l
  induction l with
  | nil => intro i j _; simp [List.eraseIdx]
  | cons x xs ih =>
    intro i j hji
    cases i with
    | zero => omega
    | succ m =>
      rw [List.eraseIdx_cons_succ]
      cases j with
      | zero => simp
      | succ n =>
        rw [List.getElem?_cons_succ, List.getElem?_cons_succ]
        exact ih m n (by omega)

theorem lowerBound_of_index (k : List Nat) :
    ∀ (bs : List Bucket) (i : Nat) (b : Bucket),
      bs[i]? = some b → keyLess b.key k = false →
      (∀ (j : Nat) (c : Bucket), j < i → bs[j]? = some c → keyLess c.key k = true) →
      lowerBound bs k = i := by
  intro bs
  induction bs with
  | nil => intro i b h; simp at h
  | cons x xs ih =>
    intro i b hib hbk hbelow
    cases i with
    | zero =>
      simp only [List.getElem?_cons_zero, Option.some.injEq] at hib
      simp only [lowerBound]
      rw [if_neg]
      rw [hib]
      simp [hbk]
    | succ m =>
      rw [List.getElem?_cons_succ] at hib
      have hx : keyLess x.key k = true :=
        hbelow 0 x (by omega) (by simp)
      simp only [lowerBound]
      rw [if_pos hx]
      rw [ih m b hib hbk]
      intro j c hji hjc
      exact hbelow (j + 1) c (by omega) (by rw [List.getElem?_cons_succ]; exact hjc)

theorem getB_some (r : Repo) (k : List Nat) (b : Bucket) (h : getB r k = some b) :
    b ∈ r.buckets ∧ b.key = k :=
  ⟨List.mem_of_find?_eq_some h, by simpa using List.find?_some h⟩

theorem find?_key_of_mem :
    ∀ (l : List Bucket), List.Pairwise (fun a b => keyLess a.key b.key = true) l →
      ∀ b ∈ l, l.find? (fun x => x.key == b.key) = some b := by
  intro l
  induction l with
  | nil => intro _ b hb; simp at hb
  | cons x xs ih =>
    intro hpw b hb
    by_cases hx : (x.key == b.key) = true
    · have hxb : x = b := by
        rcases List.mem_cons.mp hb with h | h
        · rw [h]
        · exfalso
          have hlt : keyLess x.key b.key = true :=
            (List.pairwise_cons.mp hpw).1 b h
          have hkeq : x.key = b.key := beq_iff_eq.mp hx
          rw [hkeq, keyLess_irrefl] at hlt
          exact Bool.false_ne_true hlt
      simp [List.find?_cons, hx, hxb]
    · have hbxs : b ∈ xs := by
        rcases List.mem_cons.mp hb with h | h
        · exfalso
          apply hx
          rw [h]
          exact beq_self_eq_true _
        · exact h
      rw [Bool.not_eq_true] at hx
      simp only [List.find?_cons, hx]
      exact ih (List.pairwise_cons.mp hpw).2 b hbxs

theorem getB_of_mem (r : Repo) (b : Bucket)
    (hpw : List.Pairwise (fun a b => keyLess a.key b.key = true) r.buckets)
    (hb : b ∈ r.buckets) : getB r b.key = some b :=
  find?_key_of_mem r.buckets hpw b hb

theorem sorted_locate (r : Repo) (b : Bucket)
    (hpw : List.Pairwise (fun a b => keyLess a.key b.key = true) r.buckets)
    (hb : b ∈ r.buckets) :
    ∃ jb, r.buckets[jb]? = some b ∧ lowerBound r.buckets b.key = jb := by
  obtain ⟨jb, hjb⟩ := List.mem_iff_getElem?.mp hb
  refine ⟨jb, hjb, ?_⟩
  apply lowerBound_of_index b.key r.buckets jb b hjb (keyLess_irrefl _)
  intro j c hji hjc
  have hpg := List.pairwise_iff_getElem.mp hpw j jb
    (List.getElem?_eq_some.mp hjc).1 (List.getElem?_eq_some.mp hjb).1 hji
  rw [(List.getElem?_eq_some.mp hjc).2, (List.getElem?_eq_some.mp hjb).2] at hpg
  exact hpg

theorem famBuckets_erase (r : Repo) (b : Bucket) (jb : Nat)
    (hpw : List.Pairwise (fun a b => keyLess a.key b.key = true) r.buckets)
    (hjb : r.buckets[jb]? = some b)
    (hlast : lastOfFamily r b.parts = some b) :
    famBuckets r b.parts =
      (r.buckets.take jb).filter (fun x => x.parts == b.parts) ++ [b] ∧
    famBuckets (delRepo r jb) b.parts =
      (r.buckets.take jb).filter (fun x => x.parts == b.parts) ∧
    (∀ q, q ≠ b.parts → famBuckets (delRepo r jb) q = famBuckets r q) := by
  have hlen : jb < r.buckets.length := (List.getElem?_eq_some.mp hjb).1
  have hdecomp : r.buckets = r.buckets.take jb ++ b :: r.buckets.drop (jb + 1) := by
    conv_lhs => rw [← List.take_append_drop jb r.buckets]
    rw [List.drop_eq_getElem_cons hlen, (List.getElem?_eq_some.mp hjb).2]
  have hpw2 : List.Pairwise (fun a b => keyLess a.key b.key = true)
      (r.buckets.take jb ++ b :: r.buckets.drop (jb + 1)) := by
    rw [← hdecomp]
    exact hpw
  have hcross := List.pairwise_append.mp hpw2
  have hbd : ∀ y ∈ r.buckets.drop (jb + 1), keyLess b.key y.key = true :=
    fun y hy => (List.pairwise_cons.mp hcross.2.1).1 y hy
  have hdropnil : (r.buckets.drop (jb + 1)).filter (fun x => x.parts == b.parts)
      = [] := by
    rw [List.filter_eq_nil_iff]
    intro y hy hyp2
    have hyp : y.parts = b.parts := by simpa using hyp2
    have hymem : y ∈ r.buckets := List.mem_of_mem_drop hy
    have hyfam : y ∈ famBuckets r b.parts :=
      (mem_famBuckets r b.parts y).mpr ⟨hymem, hyp⟩
    have hby := hbd y hy
    rcases sorted_getLast?_max _ (hpw.filter _) b hlast y hyfam with h | h
    · rw [h, keyLess_irrefl] at hby
      exact Bool.false_ne_true hby
    · rw [keyLess_asymm _ _ h] at hby
      exact Bool.false_ne_true hby
  have hfilterb : (b.parts == b.parts) = true := beq_self_eq_true _
  refine ⟨?_, ?_, ?_⟩
  · show r.buckets.filter (fun x => x.parts == b.parts) = _
    conv_lhs => rw [hdecomp]
    rw [List.filter_append, List.filter_cons, hfilterb]
    simp only [if_true]
    rw [hdropnil]
  · show (r.buckets.eraseIdx jb).filter (fun x => x.parts == b.parts) = _
    rw [List.eraseIdx_eq_take_drop_succ, List.filter_append, hdropnil,
      List.append_nil]
  · intro q hq
    show (r.buckets.eraseIdx jb).filter (fun x => x.parts == q)
      = r.buckets.filter (fun x => x.parts == q)
    conv_rhs => rw [hdecomp]
    rw [List.eraseIdx_eq_take_drop_succ, List.filter_append, List.filter_append,
      List.filter_cons]
    have hbq : (b.parts == q) = false := beq_eq_false_iff_ne.mpr (fun hc => hq hc.symm)
    rw [hbq]
    simp only [Bool.false_eq_true, if_false]

/-- From a well-formed state, the family-aware destroy_bucket on an empty
    last bucket passes all its validations, including the checks performed
    after the erase, and returns the repository with that bucket removed. -/
theorem destroy_spec (r : Repo) (k : List Nat) (b : Bucket) (jb : Nat)
    (hpw : List.Pairwise (fun a b => keyLess a.key b.key = true) r.buckets)
    (hpack : ∀ m ∈ r.buckets, lastOfFamily r m.parts ≠ some m → m.size = m.cap)
    (hcap : ∀ m ∈ r.buckets, 0 < m.cap)
    (hget : getB r k = some b)
    (hsz : b.size = 0)
    (hlast : lastOfFamily r b.parts = some b)
    (hjb : r.buckets[jb]? = some b)
    (hlb : lowerBound r.buckets b.key = jb) :
    destroyBucketK r k = .ok (delRepo r jb) := by
  have hlen : jb < r.buckets.length := (List.getElem?_eq_some.mp hjb).1
  have hdecomp : r.buckets = r.buckets.take jb ++ b :: r.buckets.drop (jb + 1) := by
    conv_lhs => rw [← List.take_append_drop jb r.buckets]
    rw [List.drop_eq_getElem_cons hlen, (List.getElem?_eq_some.mp hjb).2]
  have hpw2 : List.Pairwise (fun a b => keyLess a.key b.key = true)
      (r.buckets.take jb ++ b :: r.buckets.drop (jb + 1)) := by
    rw [← hdecomp]
    exact hpw
  have hcross := List.pairwise_append.mp hpw2
  obtain ⟨hfam1, hfam2, hfam3⟩ := famBuckets_erase r b jb hpw hjb hlast
  simp only [destroyBucketK]
  rw [hget]
  show (if b.size ≠ 0 ∨ lastOfFamily r b.parts ≠ some b then _ else _) = _
  rw [if_neg (by simp [hsz, hlast]), hlb, hjb]
  show (if b ≠ b then _ else _) = _
  rw [if_neg (by simp)]
  by_cases hfst : firstOfFamily r b.parts = some b
  · rw [if_pos hfst]
    rfl
  · rw [if_neg hfst]
    have hftake_ne : (r.buckets.take jb).filter (fun x => x.parts == b.parts)
        ≠ [] := by
      intro hnil
      apply hfst
      rw [firstOfFamily, hfam1, hnil]
      rfl
    have hjb0 : jb ≠ 0 := by
      intro h0
      apply hftake_ne
      rw [h0]
      rfl
    rw [if_neg hjb0]
    have hjb1 : jb - 1 < r.buckets.length := by omega
    obtain ⟨prev, hprev⟩ : ∃ pv, r.buckets[jb - 1]? = some pv :=
      ⟨_, List.getElem?_eq_getElem hjb1⟩
    have hprev2 : (r.buckets.eraseIdx jb)[jb - 1]? = some prev := by
      rw [getElem?_eraseIdx_lt r.buckets jb (jb - 1) (by omega)]
      exact hprev
    have htake : r.buckets.take jb = r.buckets.take (jb - 1) ++ [prev] := by
      have hjbe : jb = (jb - 1) + 1 := by omega
      conv_lhs => rw [hjbe]
      rw [List.take_succ, hprev]
      rfl
    have hprevtake : prev ∈ r.buckets.take jb := by
      rw [htake]
      exact List.mem_append.mpr (Or.inr (List.mem_singleton.mpr rfl))
    have hprevb : keyLess prev.key b.key = true :=
      hcross.2.2 prev hprevtake b (List.mem_cons_self _ _)
    have hprevp : prev.parts = b.parts := by
      by_contra hpp
      obtain ⟨f, t, hft⟩ : ∃ f t, (r.buckets.take jb).filter
          (fun x => x.parts == b.parts) = f :: t := by
        cases hc : (r.buckets.take jb).filter (fun x => x.parts == b.parts) with
        | nil => exact absurd hc hftake_ne
        | cons f t => exact ⟨f, t, rfl⟩
      have hf : f ∈ (r.buckets.take jb).filter (fun x => x.parts == b.parts) := by
        rw [hft]
        exact List.mem_cons_self _ _
      have hfmem : f ∈ r.buckets.take jb := List.mem_of_mem_filter hf
      have hfp : f.parts = b.parts := by simpa using List.of_mem_filter hf
      rw [htake] at hfmem
      rcases List.mem_append.mp hfmem with hfm | hfm
      · have hpwtake : List.Pairwise (fun a b => keyLess a.key b.key = true)
            (r.buckets.take jb) := hpw.sublist (List.take_sublist _ _)
        rw [htake] at hpwtake
        have hfp2 : keyLess f.key prev.key = true :=
          (List.pairwise_append.mp hpwtake).2.2 f hfm prev
            (List.mem_singleton.mpr rfl)
        have hind : keyLess b.key prev.key = keyLess f.key prev.key := by
          rw [key_eq_rawKey b, key_eq_rawKey f, key_eq_rawKey prev, hfp]
          exact rawKey_lt_indep b.parts prev.parts b.fam prev.fam f.fam prev.fam
            (fun hc => hpp hc.symm)
        rw [hfp2] at hind
        rw [keyLess_asymm _ _ hprevb] at hind
        exact Bool.false_ne_true hind
      · have hfprev : f = prev := List.mem_singleton.mp hfm
        exact hpp (hfprev ▸ hfp)
    have hprevmem : prev ∈ r.buckets := List.mem_of_mem_take hprevtake
    have hprevne : prev ≠ b := by
      intro hc
      rw [hc, keyLess_irrefl] at hprevb
      exact Bool.false_ne_true hprevb
    have hprevfull : prev.size = prev.cap := by
      apply hpack prev hprevmem
      rw [hprevp, hlast]
      intro hc
      have hcc : b = prev := by simpa using hc
      exact hprevne hcc.symm
    have hprevpos : ¬ prev.size = 0 := by
      have := hcap prev hprevmem
      omega
    split
    · rename_i hnone
      exfalso
      have hcontra : (r.buckets.eraseIdx jb)[jb - 1]? = none := hnone
      rw [hprev2] at hcontra
      exact absurd hcontra (by simp)
    · rename_i pv hpv
      have hpv2 : (r.buckets.eraseIdx jb)[jb - 1]? = some pv := hpv
      rw [hprev2] at hpv2
      have hpveq : prev = pv := by simpa using hpv2
      subst hpveq
      rw [if_neg hprevpos]
      rfl

/-- Removing the family's empty last bucket preserves well-formedness. -/
theorem erase_last_WF (r : Repo) (b : Bucket) (jb : Nat)
    (hWF : WF r)
    (hjb : r.buckets[jb]? = some b)
    (hlast : lastOfFamily r b.parts = some b) :
    WF (delRepo r jb) := by
  have hpw := (chainKeys_iff_pairwise r.buckets).mp hWF.2.1
  have hlen : jb < r.buckets.length := (List.getElem?_eq_some.mp hjb).1
  have hdecomp : r.buckets = r.buckets.take jb ++ b :: r.buckets.drop (jb + 1) := by
    conv_lhs => rw [← List.take_append_drop jb r.buckets]
    rw [List.drop_eq_getElem_cons hlen, (List.getElem?_eq_some.mp hjb).2]
  have hpw2 : List.Pairwise (fun a b => keyLess a.key b.key = true)
      (r.buckets.take jb ++ b :: r.buckets.drop (jb + 1)) := by
    rw [← hdecomp]
    exact hpw
  have hcross := List.pairwise_append.mp hpw2
  obtain ⟨hfam1, hfam2, hfam3⟩ := famBuckets_erase r b jb hpw hjb hlast
  have hsub : List.Sublist (r.buckets.eraseIdx jb) r.buckets :=
    List.eraseIdx_sublist r.buckets jb
  refine ⟨hWF.1, ?_, ?_⟩
  · exact (chainKeys_iff_pairwise _).mpr (hpw.sublist hsub)
  · intro m hm
    have hmold : m ∈ r.buckets := hsub.subset hm
    have hmne : m ≠ b := by
      intro hc
      have hm2 : m ∈ r.buckets.take jb ++ r.buckets.drop (jb + 1) := by
        have hm3 : m ∈ r.buckets.eraseIdx jb := hm
        rwa [List.eraseIdx_eq_take_drop_succ] at hm3
      rcases List.mem_append.mp hm2 with h | h
      · have := hcross.2.2 m h b (List.mem_cons_self _ _)
        rw [hc, keyLess_irrefl] at this
        exact Bool.false_ne_true this
      · have := (List.pairwise_cons.mp hcross.2.1).1 m h
        rw [hc, keyLess_irrefl] at this
        exact Bool.false_ne_true this
    obtain ⟨c1, c2, c3, c4, c5, c6, c7, c8⟩ := hWF.2.2 m hmold
    refine ⟨c1, c2, c3, c4, c5, c6, ?_, c8⟩
    intro _
    by_cases hmp : m.parts = b.parts
    · apply c7
      rw [hmp, hlast]
      intro hc
      have hcc : b = m := by simpa using hc
      exact hmne hcc.symm
    · rename_i hne
      have hlq : lastOfFamily (delRepo r jb) m.parts = lastOfFamily r m.parts := by
        rw [lastOfFamily, hfam3 m.parts hmp, lastOfFamily]
      rw [hlq] at hne
      exact c7 hne

/-- destroy_bucket preserves well-formedness on success. -/
theorem destroy_ok_WF (r : Repo) (k : List Nat) (r2 : Repo)
    (hWF : WF r) (h : destroyBucketK r k = .ok r2) : WF r2 := by
  simp only [destroyBucketK] at h
  split at h
  · simp at h
  · rename_i b hget
    split at h
    · simp at h
    · rename_i hval
      rw [not_or, not_ne_iff, not_ne_iff] at hval
      split at h
      · simp at h
      · rename_i bb hik
        split at h
        · simp at h
        · rename_i hbb
          rw [not_ne_iff] at hbb
          subst hbb
          have hjb : r.buckets[lowerBound r.buckets bb.key]? = some bb := hik
          split at h
          · simp only [Except.ok.injEq] at h
            rw [← h]
            exact erase_last_WF r bb _ hWF hjb hval.2
          · split at h
            · simp at h
            · split at h
              · simp at h
              · split at h
                · simp at h
                · simp only [Except.ok.injEq] at h
                  rw [← h]
                  exact erase_last_WF r bb _ hWF hjb hval.2

/-- From a well-formed state every destroy_bucket failure leaves the
    repository unchanged: the half-updated error paths after the erase are
    unreachable. -/
theorem destroy_error_state (r : Repo) (k : List Nat) (e : DestErr) (rE : Repo)
    (hWF : WF r) (h : destroyBucketK r k = .error (e, rE)) : rE = r := by
  have hpw := (chainKeys_iff_pairwise r.buckets).mp hWF.2.1
  cases hget : getB r k with
  | none =>
    simp only [destroyBucketK, hget] at h
    simp only [Except.error.injEq, Prod.mk.injEq] at h
    exact h.2.symm
  | some b =>
    by_cases hval : b.size = 0 ∧ lastOfFamily r b.parts = some b
    · obtain ⟨hjb2, hbmem⟩ := getB_some r k b hget
      obtain ⟨jb, hjb, hlb⟩ := sorted_locate r b hpw hjb2
      have := destroy_spec r k b jb hpw
        (fun m hm => (hWF.2.2 m hm).2.2.2.2.2.2.1)
        (fun m hm => by
          have h1 := (hWF.2.2 m hm).1
          have h2 := hWF.1
          omega)
        hget hval.1 hval.2 hjb hlb
      rw [this] at h
      exact absurd h (by simp)
    · simp only [destroyBucketK, hget] at h
      rw [if_pos] at h
      · simp only [Except.error.injEq, Prod.mk.injEq] at h
        exact h.2.symm
      · by_cases h1 : b.size = 0
        · right
          intro hc
          exact hval ⟨h1, hc⟩
        · left
          exact h1

/-! ## Slot-primitive lemmas -/

theorem getD_set_self {α : Type} (l : List α) (i : Nat) (v d : α)
    (h : i < l.length) : (l.set i v).getD i d = v := by
  rw [List.getD_eq_getElem?_getD]
  have hq : (l.set i v)[i]? = some v := by
    rw [List.getElem?_set_self]
    simp [h]
  rw [hq]
  rfl

theorem getD_set_other {α : Type} (l : List α) (i j : Nat) (v d : α)
    (h : i ≠ j) : (l.set i v).getD j d = l.getD j d := by
  rw [List.getD_eq_getElem?_getD, List.getElem?_set_ne h,
    ← List.getD_eq_getElem?_getD]

theorem find?_map_keyPres (g : Bucket → Bucket) (hkey : ∀ b, (g b).key = b.key) :
    ∀ (l : List Bucket) (k2 : List Nat),
      (l.map g).find? (fun x => x.key == k2) =
        (l.find? (fun x => x.key == k2)).map g := by
  intro l
  induction l with
  | nil => intro k2; rfl
  | cons x xs ih =>
    intro k2
    rw [List.map_cons]
    by_cases hx : (x.key == k2) = true
    · have hgx : ((g x).key == k2) = true := by rw [hkey x]; exact hx
      simp [List.find?_cons, hx, hgx]
    · have hx2 : (x.key == k2) = false := Bool.eq_false_iff.mpr hx
      have hgx : ((g x).key == k2) = false := by rw [hkey x]; exact hx2
      simp only [List.find?_cons, hx2, hgx]
      exact ih k2

theorem getB_updB (r : Repo) (k k2 : List Nat) (f : Bucket → Bucket)
    (hkey : ∀ b, (f b).key = b.key) :
    getB (updB r k f) k2 =
      (getB r k2).map (fun b => if b.key = k then f b else b) := by
  show (r.buckets.map _).find? _ = _
  refine find?_map_keyPres _ ?_ r.buckets k2
  intro b
  by_cases hb : b.key = k
  · simp [hb, hkey b]
  · simp [hb]

theorem famBuckets_updB (r : Repo) (k : List Nat) (f : Bucket → Bucket)
    (hparts : ∀ b, (f b).parts = b.parts) (p : List Nat) :
    famBuckets (updB r k f) p =
      (famBuckets r p).map (fun b => if b.key = k then f b else b) := by
  show (r.buckets.map _).filter _ = (r.buckets.filter _).map _
  rw [List.filter_map]
  congr 1
  apply List.filter_congr
  intro b _
  by_cases hb : b.key = k
  · simp [hb, hparts b]
  · simp [hb]

theorem lastOfFamily_updB (r : Repo) (k : List Nat) (f : Bucket → Bucket)
    (hparts : ∀ b, (f b).parts = b.parts) (p : List Nat) :
    lastOfFamily (updB r k f) p =
      (lastOfFamily r p).map (fun b => if b.key = k then f b else b) := by
  rw [lastOfFamily, famBuckets_updB r k f hparts, List.getLast?_map, lastOfFamily]

theorem updB_updB (r : Repo) (k : List Nat) (f1 f2 : Bucket → Bucket)
    (hkey1 : ∀ b, (f1 b).key = b.key) :
    updB (updB r k f1) k f2 = updB r k (fun b => f2 (f1 b)) := by
  have hb : ((updB r k f1).buckets.map
        (fun b => if b.key = k then f2 b else b)) =
      r.buckets.map (fun b => if b.key = k then f2 (f1 b) else b) := by
    show (r.buckets.map _).map _ = _
    rw [List.map_map]
    apply List.map_congr_left
    intro b _
    by_cases hbk : b.key = k
    · simp [Function.comp, hbk, hkey1 b]
    · simp [Function.comp, hbk]
  show ({ r with buckets := (updB r k f1).buckets.map _ } : Repo) = _
  rw [hb]
  rfl

theorem updB_congr (r : Repo) (k : List Nat) (f1 f2 : Bucket → Bucket)
    (h : ∀ b ∈ r.buckets, b.key = k → f1 b = f2 b) :
    updB r k f1 = updB r k f2 := by
  have hb : r.buckets.map (fun b => if b.key = k then f1 b else b) =
      r.buckets.map (fun b => if b.key = k then f2 b else b) := by
    apply List.map_congr_left
    intro b hbm
    by_cases hbk : b.key = k
    · simp only [if_pos hbk]
      exact h b hbm hbk
    · simp [hbk]
  show ({ r with buckets := r.buckets.map _ } : Repo) = _
  rw [hb]
  rfl

theorem copyFields_eq (r : Repo) (dk : List Nat) (di : Nat) (sk : List Nat)
    (si : Nat) (sb : Bucket) (h : getB r sk = some sb) :
    copyFields r dk di sk si =
      updB r dk (fun b => { b with data := b.data.set di (sb.data.getD si 0) }) := by
  simp only [copyFields, h]

/-! ## Map-level state transport -/

theorem pairwise_keys_map (l : List Bucket) (g : Bucket → Bucket)
    (hkey : ∀ b, (g b).key = b.key)
    (h : List.Pairwise (fun a b => keyLess a.key b.key = true) l) :
    List.Pairwise (fun a b => keyLess a.key b.key = true) (l.map g) := by
  rw [List.pairwise_map]
  refine h.imp ?_
  intro a b hab
  rw [hkey a, hkey b]
  exact hab

theorem keys_unique (l : List Bucket)
    (hpw : List.Pairwise (fun a b => keyLess a.key b.key = true) l) :
    ∀ b1 ∈ l, ∀ b2 ∈ l, b1.key = b2.key → b1 = b2 := by
  induction l with
  | nil => intro b1 h1; simp at h1
  | cons x xs ih =>
    intro b1 h1 b2 h2 heq
    rcases List.mem_cons.mp h1 with rfl | h1'
    · rcases List.mem_cons.mp h2 with rfl | h2'
      · rfl
      · exfalso
        have := (List.pairwise_cons.mp hpw).1 b2 h2'
        rw [← heq, keyLess_irrefl] at this
        exact Bool.false_ne_true this
    · rcases List.mem_cons.mp h2 with rfl | h2'
      · exfalso
        have := (List.pairwise_cons.mp hpw).1 b1 h1'
        rw [heq, keyLess_irrefl] at this
        exact Bool.false_ne_true this
      · exact ih (List.pairwise_cons.mp hpw).2 b1 h1' b2 h2' heq

theorem key_eq_parts_eq (b c : Bucket) (h : b.key = c.key) :
    b.parts = c.parts ∧ b.fam = c.fam := by
  rw [key_eq_rawKey, key_eq_rawKey] at h
  exact rawKey_inj _ _ _ _ h

theorem getB_of_map (r r2 : Repo) (g : Bucket → Bucket)
    (hkey : ∀ b, (g b).key = b.key)
    (hbl : r2.buckets = r.buckets.map g) (k2 : List Nat) :
    getB r2 k2 = (getB r k2).map g := by
  show r2.buckets.find? _ = _
  rw [hbl]
  exact find?_map_keyPres g hkey r.buckets k2

theorem famBuckets_of_map (r r2 : Repo) (g : Bucket → Bucket)
    (hparts : ∀ b, (g b).parts = b.parts)
    (hbl : r2.buckets = r.buckets.map g) (p : List Nat) :
    famBuckets r2 p = (famBuckets r p).map g := by
  show r2.buckets.filter _ = (r.buckets.filter _).map g
  rw [hbl, List.filter_map]
  congr 1
  apply List.filter_congr
  intro b _
  show ((g b).parts == p) = (b.parts == p)
  rw [hparts b]

theorem lastOfFamily_of_map (r r2 : Repo) (g : Bucket → Bucket)
    (hparts : ∀ b, (g b).parts = b.parts)
    (hbl : r2.buckets = r.buckets.map g) (p : List Nat) :
    lastOfFamily r2 p = (lastOfFamily r p).map g := by
  rw [lastOfFamily, famBuckets_of_map r r2 g hparts hbl, List.getLast?_map,
    lastOfFamily]

theorem slotAt_updB (r : Repo) (k k2 : List Nat) (f : Bucket → Bucket)
    (hkey : ∀ b, (f b).key = b.key) (i : Nat) :
    slotAt (updB r k f) k2 i =
      match getB r k2 with
      | none => none
      | some b => (if b.key = k then f b else b).slots.getD i none := by
  rw [slotAt, getB_updB r k k2 f hkey]
  cases getB r k2 <;> rfl

theorem slotAt_replaceEntity (r : Repo) (k : List Nat) (i : Nat)
    (e : Option EntityId) (k2 : List Nat) (j : Nat) :
    slotAt (replaceEntity r k i e) k2 j =
      match getB r k2 with
      | none => none
      | some b =>
        if b.key = k then (b.slots.set i e).getD j none
        else b.slots.getD j none := by
  rw [replaceEntity,
    slotAt_updB r k k2 (fun b => { b with slots := b.slots.set i e })
      (fun b => rfl) j]
  cases getB r k2 with
  | none => rfl
  | some b => by_cases h : b.key = k <;> simp [h]

theorem slotAt_replace_self (r : Repo) (k : List Nat) (i : Nat)
    (e : Option EntityId) (b : Bucket) (hget : getB r k = some b)
    (hi : i < b.slots.length) :
    slotAt (replaceEntity r k i e) k i = e := by
  have hbk : b.key = k := (getB_some r k b hget).2
  rw [slotAt_replaceEntity]
  rw [hget]
  show (if b.key = k then (b.slots.set i e).getD i none else _) = e
  rw [if_pos hbk]
  exact getD_set_self _ _ _ _ hi

theorem slotAt_replace_ne (r : Repo) (k : List Nat) (i : Nat)
    (e : Option EntityId) (k2 : List Nat) (j : Nat)
    (hne : k2 ≠ k ∨ j ≠ i) :
    slotAt (replaceEntity r k i e) k2 j = slotAt r k2 j := by
  rw [slotAt_replaceEntity, slotAt]
  cases hget : getB r k2 with
  | none => rfl
  | some b =>
    show (if b.key = k then (b.slots.set i e).getD j none else _) = _
    by_cases hbk : b.key = k
    · rw [if_pos hbk]
      have hbk2 : b.key = k2 := (getB_some r k2 b hget).2
      rcases hne with h | h
      · exact absurd (hbk2.symm.trans hbk) h
      · exact getD_set_other _ _ _ _ _ (fun hc => h hc.symm)
    · rw [if_neg hbk]

theorem slotAt_copyFields (r : Repo) (dk : List Nat) (di : Nat) (sk : List Nat)
    (si : Nat) (k2 : List Nat) (j : Nat) :
    slotAt (copyFields r dk di sk si) k2 j = slotAt r k2 j := by
  cases hsb : getB r sk with
  | none => simp only [copyFields, hsb]
  | some sb =>
    rw [copyFields_eq r dk di sk si sb hsb,
      slotAt_updB r dk k2
        (fun b => { b with data := b.data.set di (sb.data.getD si 0) })
        (fun b => rfl) j, slotAt]
    cases getB r k2 with
    | none => rfl
    | some b => by_cases h : b.key = dk <;> simp [h]

theorem slotAt_setRef (r : Repo) (e : EntityId) (k : List Nat) (i : Nat)
    (k2 : List Nat) (j : Nat) :
    slotAt (setRef r e k i) k2 j = slotAt r k2 j := rfl

theorem backRef_copyFields (r : Repo) (dk : List Nat) (di : Nat) (sk : List Nat)
    (si : Nat) : (copyFields r dk di sk si).backRef = r.backRef := by
  rw [copyFields]
  cases getB r sk <;> rfl

theorem mem_eraseIdx_of_ne {α : Type} (l : List α) (j : Nat) (b : α)
    (hj : l[j]? = some b) (m : α) (hm : m ∈ l) (hne : m ≠ b) :
    m ∈ l.eraseIdx j := by
  have hlen : j < l.length := (List.getElem?_eq_some.mp hj).1
  have hdecomp : l = l.take j ++ b :: l.drop (j + 1) := by
    conv_lhs => rw [← List.take_append_drop j l]
    rw [List.drop_eq_getElem_cons hlen, (List.getElem?_eq_some.mp hj).2]
  rw [List.eraseIdx_eq_take_drop_succ]
  rw [hdecomp] at hm
  rcases List.mem_append.mp hm with h | h
  · exact List.mem_append.mpr (Or.inl h)
  · rcases List.mem_cons.mp h with rfl | h'
    · exact absurd rfl hne
    · exact List.mem_append.mpr (Or.inr h')

theorem famSize_map_lastDec (r r5 : Repo) (g : Bucket → Bucket)
    (hparts : ∀ b, (g b).parts = b.parts)
    (hbl : r5.buckets = r.buckets.map g)
    (p : List Nat) (L : Bucket)
    (hpw : List.Pairwise (fun a b => keyLess a.key b.key = true) r.buckets)
    (hlast : lastOfFamily r p = some L)
    (hg : ∀ b ∈ famBuckets r p, b ≠ L → (g b).size = b.size)
    (hgl : (g L).size = L.size - 1) (hpos : 0 < L.size) :
    famSize r5 p + 1 = famSize r p := by
  rw [famSize, famSize, famBuckets_of_map r r5 g hparts hbl]
  have hdecomp : (famBuckets r p).dropLast ++ [L] = famBuckets r p :=
    List.dropLast_append_getLast? L (Option.mem_def.mpr hlast)
  have hpwf : List.Pairwise (fun a b => keyLess a.key b.key = true)
      (famBuckets r p) := hpw.filter _
  have hne : ∀ b ∈ (famBuckets r p).dropLast, b ≠ L := by
    intro b hb hc
    have hpw2 : List.Pairwise (fun a b => keyLess a.key b.key = true)
        ((famBuckets r p).dropLast ++ [L]) := by
      rw [hdecomp]
      exact hpwf
    have := (List.pairwise_append.mp hpw2).2.2 b hb L (List.mem_singleton.mpr rfl)
    rw [hc, keyLess_irrefl] at this
    exact Bool.false_ne_true this
  conv_lhs => rw [← hdecomp]
  conv_rhs => rw [← hdecomp]
  rw [List.map_append, List.map_append, List.map_append, List.sum_append,
    List.sum_append, List.map_map]
  have hcongr : (famBuckets r p).dropLast.map ((fun b => b.size) ∘ g) =
      (famBuckets r p).dropLast.map (fun b => b.size) := by
    apply List.map_congr_left
    intro b hb
    have hbf : b ∈ famBuckets r p := by
      rw [← hdecomp]
      exact List.mem_append.mpr (Or.inl hb)
    exact hg b hbf (hne b hb)
  rw [hcongr]
  simp only [List.map_cons, List.map_nil, List.sum_cons, List.sum_nil]
  rw [hgl]
  omega

theorem applyAt_of_eq (kk : List Nat) (f : Bucket → Bucket) (b : Bucket)
    (h : b.key = kk) : applyAt kk f b = f b := if_pos h

theorem applyAt_of_ne (kk : List Nat) (f : Bucket → Bucket) (b : Bucket)
    (h : b.key ≠ kk) : applyAt kk f b = b := if_neg h

theorem applyAt_key (kk : List Nat) (f : Bucket → Bucket)
    (hf : ∀ b, (f b).key = b.key) (b : Bucket) :
    (applyAt kk f b).key = b.key := by
  rw [applyAt]
  by_cases h : b.key = kk
  · rw [if_pos h]
    exact hf b
  · rw [if_neg h]

theorem applyAt_parts (kk : List Nat) (f : Bucket → Bucket)
    (hf : ∀ b, (f b).parts = b.parts) (b : Bucket) :
    (applyAt kk f b).parts = b.parts := by
  rw [applyAt]
  by_cases h : b.key = kk
  · rw [if_pos h]
    exact hf b
  · rw [if_neg h]

theorem recvB_key (i : Nat) (e : EntityId) (v : Nat) (b : Bucket) :
    (recvB i e v b).key = b.key := rfl

theorem recvB_parts (i : Nat) (e : EntityId) (v : Nat) (b : Bucket) :
    (recvB i e v b).parts = b.parts := rfl

theorem recvB_size (i : Nat) (e : EntityId) (v : Nat) (b : Bucket) :
    (recvB i e v b).size = b.size := rfl

theorem recvB_cap (i : Nat) (e : EntityId) (v : Nat) (b : Bucket) :
    (recvB i e v b).cap = b.cap := rfl

theorem recvB_slots (i : Nat) (e : EntityId) (v : Nat) (b : Bucket) :
    (recvB i e v b).slots = b.slots.set i (some e) := rfl

theorem recvB_data (i : Nat) (e : EntityId) (v : Nat) (b : Bucket) :
    (recvB i e v b).data = b.data.set i v := rfl

theorem shrinkB_key (n1 : Nat) (b : Bucket) : (shrinkB n1 b).key = b.key := rfl

theorem shrinkB_parts (n1 : Nat) (b : Bucket) :
    (shrinkB n1 b).parts = b.parts := rfl

theorem shrinkB_size (n1 : Nat) (b : Bucket) :
    (shrinkB n1 b).size = b.size - 1 := rfl

theorem shrinkB_cap (n1 : Nat) (b : Bucket) : (shrinkB n1 b).cap = b.cap := rfl

theorem shrinkB_slots (n1 : Nat) (b : Bucket) :
    (shrinkB n1 b).slots = b.slots.set n1 none := rfl

theorem shrinkB_data (n1 : Nat) (b : Bucket) :
    (shrinkB n1 b).data = b.data := rfl

theorem updB_buckets (r : Repo) (kk : List Nat) (f : Bucket → Bucket) :
    (updB r kk f).buckets = r.buckets.map (applyAt kk f) := rfl

theorem WF_of_map (r r2 : Repo) (g : Bucket → Bucket)
    (hkey : ∀ b, (g b).key = b.key)
    (hcap : r2.cap = r.cap)
    (hbl : r2.buckets = r.buckets.map g)
    (hWF : WF r)
    (hbw : ∀ b ∈ r.buckets, bucketWF r2 (g b)) :
    WF r2 := by
  refine ⟨by rw [hcap]; exact hWF.1, ?_, ?_⟩
  · rw [hbl]
    exact (chainKeys_iff_pairwise _).mpr
      (pairwise_keys_map _ g hkey ((chainKeys_iff_pairwise _).mp hWF.2.1))
  · intro m hm
    rw [hbl] at hm
    obtain ⟨b, hbmem, hgb⟩ := List.mem_map.mp hm
    rw [← hgb]
    exact hbw b hbmem

/-! ## remove_entity: no-move case -/

/-- remove_entity on the very last live slot of the family's last bucket:
    no object moves; the bucket shrinks by one and is destroyed if empty. -/
theorem remove_ok_nomove (r : Repo) (k : List Nat) (i : Nat) (kb : Bucket)
    (hWF : WF r) (hget : getB r k = some kb) (hi : i < kb.size)
    (hlast : lastOfFamily r kb.parts = some kb)
    (hcond : kb.size = i + 1) :
    ∃ r2, removeEntity r k i = .ok (r2, [.vacate k i]) ∧ WF r2 ∧
      famSize r2 kb.parts + 1 = famSize r kb.parts ∧
      (∀ q, q ≠ kb.parts → famBuckets r2 q = famBuckets r q) ∧
      (kb.size = 1 → ∀ m ∈ r2.buckets, m.key ≠ k) ∧
      (1 < kb.size → ∃ L2, getB r2 k = some L2 ∧ L2.size + 1 = kb.size) := by
  have hpw := (chainKeys_iff_pairwise r.buckets).mp hWF.2.1
  obtain ⟨hkbmem, hkbk⟩ := getB_some r k kb hget
  obtain ⟨c1, c2, c3, c4, c5, c6, c7, c8⟩ := hWF.2.2 kb hkbmem
  have hpos : 0 < kb.size := by omega
  have huniq := keys_unique r.buckets hpw
  set L2 : Bucket :=
    { kb with size := kb.size - 1, slots := kb.slots.set (kb.size - 1) none }
    with hL2
  have hL2parts : L2.parts = kb.parts := by rw [hL2]
  set r5 : Repo := replaceEntity (decSize r kb.key) kb.key (kb.size - 1) none
    with hr5
  have hr5u : r5 = updB r kb.key (fun b =>
      { b with size := b.size - 1, slots := b.slots.set (kb.size - 1) none }) := by
    rw [hr5, replaceEntity, decSize]
    exact updB_updB r kb.key _ _ (fun b => rfl)
  set g : Bucket → Bucket := fun b =>
    if b.key = kb.key then
      { b with size := b.size - 1, slots := b.slots.set (kb.size - 1) none }
    else b with hg
  have hbl5 : r5.buckets = r.buckets.map g := by rw [hr5u, hg]; rfl
  have hgkey : ∀ b, (g b).key = b.key := by
    intro b
    simp only [hg]
    by_cases h : b.key = kb.key
    · rw [if_pos h]
      rfl
    · rw [if_neg h]
  have hgparts : ∀ b, (g b).parts = b.parts := by
    intro b
    simp only [hg]
    by_cases h : b.key = kb.key
    · rw [if_pos h]
    · rw [if_neg h]
  have hgkb : g kb = L2 := if_pos rfl
  have hgother : ∀ b, b.key ≠ kb.key → g b = b := by
    intro b h
    simp only [hg]
    rw [if_neg h]
  have hget5 : getB r5 kb.key = some L2 := by
    rw [getB_of_map r r5 g hgkey hbl5, hkbk, hget]
    simp [hgkb]
  have hlast5 : lastOfFamily r5 kb.parts = some L2 := by
    rw [lastOfFamily_of_map r r5 g hgparts hbl5, hlast]
    simp [hgkb]
  have hcap5 : r5.cap = r.cap := by rw [hr5u]; rfl
  have hbr5 : r5.backRef = r.backRef := by rw [hr5u]; rfl
  have hWF5 : WF r5 := by
    refine WF_of_map r r5 g hgkey hcap5 hbl5 hWF ?_
    intro b hb
    by_cases hbkey : b.key = kb.key
    · have hbeq : b = kb := huniq b hb kb hkbmem hbkey
      subst hbeq
      rw [hgkb]
      refine ⟨?_, ?_, ?_, c4, ?_, ?_, ?_, ?_⟩
      · rw [hcap5]
        exact c1
      · show b.size - 1 ≤ b.cap
        omega
      · show (b.slots.set (b.size - 1) none).length = b.cap
        rw [List.length_set]
        exact c3
      · intro j hj
        show ((b.slots.set (b.size - 1) none).getD j none).isSome = true
        have hjlt : j < b.size - 1 := hj
        rw [getD_set_other _ _ _ _ _ (by omega : b.size - 1 ≠ j)]
        exact c5 j (by omega)
      · intro j hj1 hj2
        show (b.slots.set (b.size - 1) none).getD j none = none
        have hj1b : j < b.cap := hj1
        have hj2b : b.size - 1 ≤ j := hj2
        by_cases hj3 : j = b.size - 1
        · subst hj3
          exact getD_set_self _ _ _ _ (by rw [c3]; omega)
        · rw [getD_set_other _ _ _ _ _ (fun hc => hj3 hc.symm)]
          exact c6 j hj1b (by omega)
      · intro hcon
        exact absurd hlast5 hcon
      · intro j hj
        have hjlt : j < b.size - 1 := hj
        show r5.backRef (((b.slots.set (b.size - 1) none).getD j none).getD 0)
          = some (L2.key, j)
        rw [hbr5, getD_set_other _ _ _ _ _ (by omega : b.size - 1 ≠ j)]
        exact c8 j (by omega)
    · rw [hgother b hbkey]
      obtain ⟨d1, d2, d3, d4, d5, d6, d7, d8⟩ := hWF.2.2 b hb
      refine ⟨by rw [hcap5]; exact d1, d2, d3, d4, d5, d6, ?_, ?_⟩
      · intro hcon
        apply d7
        intro hcon2
        apply hcon
        rw [lastOfFamily_of_map r r5 g hgparts hbl5, hcon2]
        simp [hgother b hbkey]
      · intro j hj
        rw [hbr5]
        exact d8 j hj
  have hfs5 : famSize r5 kb.parts + 1 = famSize r kb.parts := by
    refine famSize_map_lastDec r r5 g hgparts hbl5 kb.parts kb hpw hlast ?_ ?_ hpos
    · intro b hb hne
      have hbk : b.key ≠ kb.key := by
        intro hc
        exact hne (huniq b (List.mem_of_mem_filter hb) kb hkbmem hc)
      rw [hgother b hbk]
    · rw [hgkb]
  have hframe5 : ∀ q, q ≠ kb.parts → famBuckets r5 q = famBuckets r q := by
    intro q hq
    rw [famBuckets_of_map r r5 g hgparts hbl5]
    have hid : ∀ b ∈ famBuckets r q, g b = b := by
      intro b hb
      apply hgother
      intro hc
      have hp2 := (key_eq_parts_eq b kb hc).1
      have hbq : b.parts = q := by simpa using List.of_mem_filter hb
      apply hq
      rw [← hbq, hp2]
    conv_rhs => rw [← List.map_id (famBuckets r q)]
    exact List.map_congr_left (fun b hb => by rw [hid b hb]; rfl)
  by_cases hone : kb.size = 1
  · -- the bucket empties: it is destroyed
    have hi0 : i = 0 := by omega
    have hn10 : kb.size - 1 = 0 := by omega
    have hpw5 : List.Pairwise (fun a b => keyLess a.key b.key = true) r5.buckets := by
      rw [hbl5]
      exact pairwise_keys_map _ g hgkey hpw
    have hmem5 : L2 ∈ r5.buckets := by
      have := List.mem_map_of_mem g hkbmem
      rw [hgkb] at this
      rw [hbl5]
      exact this
    obtain ⟨j5, hj5, hlb5⟩ := sorted_locate r5 L2 hpw5 hmem5
    have hpack5 : ∀ m ∈ r5.buckets, lastOfFamily r5 m.parts ≠ some m →
        m.size = m.cap := fun m hm hcon => (hWF5.2.2 m hm).2.2.2.2.2.2.1 hcon
    have hcapm5 : ∀ m ∈ r5.buckets, 0 < m.cap := by
      intro m hm
      have h1 := (hWF5.2.2 m hm).1
      have h2 := hWF.1
      rw [hcap5] at h1
      omega
    have hsz5 : L2.size = 0 := hn10
    have hdestroy : destroyBucketK r5 kb.key = .ok (delRepo r5 j5) :=
      destroy_spec r5 kb.key L2 j5 hpw5 hpack5 hcapm5 hget5 hsz5 hlast5 hj5 hlb5
    obtain ⟨hf1, hf2, hf3⟩ := famBuckets_erase r5 L2 j5 hpw5 hj5 hlast5
    rw [hL2parts] at hf1 hf2 hf3
    refine ⟨delRepo r5 j5, ?_, ?_, ?_, ?_, ?_, ?_⟩
    · simp only [removeEntity, hget, hlast,
        if_pos (⟨hkbk, hcond⟩ : kb.key = k ∧ kb.size = i + 1), if_pos hn10]
      rw [← hr5, hdestroy]
      rw [List.nil_append, hkbk, hn10, hi0]
    · exact erase_last_WF r5 L2 j5 hWF5 hj5 hlast5
    · have heq : famSize (delRepo r5 j5) kb.parts = famSize r5 kb.parts := by
        rw [famSize, famSize, hf1, hf2, List.map_append, List.sum_append]
        simp only [List.map_cons, List.map_nil, List.sum_cons, List.sum_nil]
        have hsz : L2.size = 0 := hn10
        omega
      rw [heq]
      exact hfs5
    · intro q hq
      rw [hf3 q hq]
      exact hframe5 q hq
    · intro _ m hm hkey2
      have hlen5 : j5 < r5.buckets.length := (List.getElem?_eq_some.mp hj5).1
      have hdec5 : r5.buckets =
          r5.buckets.take j5 ++ L2 :: r5.buckets.drop (j5 + 1) := by
        conv_lhs => rw [← List.take_append_drop j5 r5.buckets]
        rw [List.drop_eq_getElem_cons hlen5, (List.getElem?_eq_some.mp hj5).2]
      have hpw52 : List.Pairwise (fun a b => keyLess a.key b.key = true)
          (r5.buckets.take j5 ++ L2 :: r5.buckets.drop (j5 + 1)) := by
        rw [← hdec5]
        exact hpw5
      have hcross := List.pairwise_append.mp hpw52
      have hm2 : m ∈ r5.buckets.take j5 ++ r5.buckets.drop (j5 + 1) := by
        have hmm : m ∈ (delRepo r5 j5).buckets := hm
        show m ∈ _
        rw [← List.eraseIdx_eq_take_drop_succ]
        exact hmm
      have hkeyL : m.key = L2.key := by
        rw [hkey2]
        exact hkbk.symm
      rcases List.mem_append.mp hm2 with h | h
      · have hx := hcross.2.2 m h L2 (List.mem_cons_self _ _)
        rw [hkeyL, keyLess_irrefl] at hx
        exact Bool.false_ne_true hx
      · have hx := (List.pairwise_cons.mp hcross.2.1).1 m h
        rw [hkeyL, keyLess_irrefl] at hx
        exact Bool.false_ne_true hx
    · intro hcon
      exact absurd hcon (by omega)
  · -- the bucket keeps at least one object
    have hn1pos : ¬ kb.size - 1 = 0 := by omega
    have hn1i : kb.size - 1 = i := by omega
    refine ⟨r5, ?_, hWF5, hfs5, hframe5, ?_, ?_⟩
    · simp only [removeEntity, hget, hlast,
        if_pos (⟨hkbk, hcond⟩ : kb.key = k ∧ kb.size = i + 1), if_neg hn1pos]
      rw [← hr5, List.nil_append, hkbk, hn1i]
    · intro h1
      exact absurd h1 hone
    · intro _
      refine ⟨L2, ?_, ?_⟩
      · rw [← hkbk]
        exact hget5
      · show kb.size - 1 + 1 = kb.size
        omega

/-! ## remove_entity: move case -/

/-- remove_entity when `(k, i)` is not the very last live slot of the
    family's last bucket: the last bucket's final live entity is copied into
    `(k, i)`, its back-reference is updated and the relocation hook invoked,
    then the last bucket shrinks and is destroyed if it became empty. -/
theorem remove_ok_move (r : Repo) (k : List Nat) (i : Nat) (kb L : Bucket)
    (hWF : WF r) (hget : getB r k = some kb) (hi : i < kb.size)
    (hlast : lastOfFamily r kb.parts = some L) (hn : 0 < L.size)
    (hc : ¬ (L.key = k ∧ kb.size = i + 1)) :
    ∃ r2 e, L.slots.getD (L.size - 1) none = some e ∧
      removeEntity r k i = .ok (r2,
        [.moved e k i, .hook e, .vacate L.key (L.size - 1)]) ∧
      WF r2 ∧
      famSize r2 kb.parts + 1 = famSize r kb.parts ∧
      (∀ q, q ≠ kb.parts → famBuckets r2 q = famBuckets r q) ∧
      slotAt r2 k i = some e ∧ r2.backRef e = some (k, i) ∧
      (L.size = 1 → ∀ m ∈ r2.buckets, m.key ≠ L.key) ∧
      (1 < L.size → ∃ L2, getB r2 L.key = some L2 ∧ L2.size + 1 = L.size) := by
  have hpw := (chainKeys_iff_pairwise r.buckets).mp hWF.2.1
  have huniq := keys_unique r.buckets hpw
  obtain ⟨hkbmem, hkbk⟩ := getB_some r k kb hget
  obtain ⟨hLmem, hLp⟩ := lastOfFamily_parts r kb.parts L hlast
  obtain ⟨l1, l2, l3, l4, l5, l6, l7, l8⟩ := hWF.2.2 L hLmem
  obtain ⟨c1, c2, c3, c4, c5, c6, c7, c8⟩ := hWF.2.2 kb hkbmem
  have hcapr := hWF.1
  have hn1lt : L.size - 1 < L.size := by omega
  obtain ⟨e, he⟩ : ∃ e0, L.slots.getD (L.size - 1) none = some e0 := by
    cases hcase : L.slots.getD (L.size - 1) none with
    | none =>
      have h5 := l5 (L.size - 1) hn1lt
      rw [hcase] at h5
      exact absurd h5 (by simp)
    | some e0 => exact ⟨e0, rfl⟩
  have hgetL : getB r L.key = some L := getB_of_mem r L hpw hLmem
  have hbe : r.backRef e = some (L.key, L.size - 1) := by
    have h8 := l8 (L.size - 1) hn1lt
    rw [he] at h8
    exact h8
  set G : Bucket → Bucket := fun b =>
    applyAt L.key (shrinkB (L.size - 1))
      (applyAt k (recvB i e (L.data.getD (L.size - 1) 0)) b) with hG
  have hGkey : ∀ b, (G b).key = b.key := by
    intro b
    simp only [hG]
    rw [applyAt_key L.key _ (fun b2 => shrinkB_key _ b2),
      applyAt_key k _ (fun b2 => recvB_key _ _ _ b2)]
  have hGparts : ∀ b, (G b).parts = b.parts := by
    intro b
    simp only [hG]
    rw [applyAt_parts L.key _ (fun b2 => shrinkB_parts _ b2),
      applyAt_parts k _ (fun b2 => recvB_parts _ _ _ b2)]
  set r5 : Repo := replaceEntity (decSize (setRef (replaceEntity
      (copyFields r k i L.key (L.size - 1)) k i (some e)) e k i) L.key)
      L.key (L.size - 1) none with hr5
  have hstage1 : replaceEntity (copyFields r k i L.key (L.size - 1)) k i (some e)
      = updB r k (recvB i e (L.data.getD (L.size - 1) 0)) := by
    rw [copyFields_eq r k i L.key (L.size - 1) L hgetL, replaceEntity]
    exact updB_updB r k _ _ (fun b => rfl)
  have hr5u : r5 = updB (setRef (updB r k
      (recvB i e (L.data.getD (L.size - 1) 0))) e k i) L.key
      (shrinkB (L.size - 1)) := by
    rw [hr5, hstage1, replaceEntity, decSize]
    exact updB_updB _ L.key _ _ (fun b => rfl)
  have hbl5 : r5.buckets = r.buckets.map G := by
    rw [hr5u, updB_buckets]
    have hyb : (setRef (updB r k (recvB i e (L.data.getD (L.size - 1) 0)))
        e k i).buckets
        = r.buckets.map (applyAt k (recvB i e (L.data.getD (L.size - 1) 0))) :=
      updB_buckets r k _
    rw [hyb, List.map_map]
    rfl
  have hcap5 : r5.cap = r.cap := by rw [hr5u]; rfl
  have hbr5 : r5.backRef = fun x => if x = e then some (k, i) else r.backRef x := by
    rw [hr5u]
    rfl
  have hGid : ∀ b, b.key ≠ k → b.key ≠ L.key → G b = b := by
    intro b h1 h2
    simp only [hG]
    rw [applyAt_of_ne k _ b h1, applyAt_of_ne L.key _ b h2]
  have hGkb_diff : L.key ≠ k →
      G kb = recvB i e (L.data.getD (L.size - 1) 0) kb := by
    intro hd
    simp only [hG]
    rw [applyAt_of_eq k _ kb hkbk]
    refine applyAt_of_ne L.key _ _ ?_
    rw [recvB_key, hkbk]
    exact fun hcon => hd hcon.symm
  have hGL_diff : L.key ≠ k → G L = shrinkB (L.size - 1) L := by
    intro hd
    simp only [hG]
    rw [applyAt_of_ne k _ L hd]
    exact applyAt_of_eq L.key _ L rfl
  have hGsame : L.key = k → G L = shrinkB (L.size - 1)
      (recvB i e (L.data.getD (L.size - 1) 0) L) := by
    intro hs
    simp only [hG]
    rw [applyAt_of_eq k _ L hs]
    exact applyAt_of_eq L.key _ _ (recvB_key _ _ _ L)
  have hkb_full_of_ne : kb ≠ L → kb.size = kb.cap := by
    intro hne
    apply c7
    rw [hlast]
    intro hcon
    have : L = kb := by simpa using hcon
    exact hne this.symm
  have hget5kb : getB r5 k = some (G kb) := by
    rw [getB_of_map r r5 G hGkey hbl5, hget]
    rfl
  have hget5L : getB r5 L.key = some (G L) := by
    rw [getB_of_map r r5 G hGkey hbl5, hgetL]
    rfl
  have hlast5 : lastOfFamily r5 kb.parts = some (G L) := by
    rw [lastOfFamily_of_map r r5 G hGparts hbl5, hlast]
    rfl
  have hszGL : (G L).size = L.size - 1 := by
    by_cases hd : L.key = k
    · rw [hGsame hd, shrinkB_size, recvB_size]
    · rw [hGL_diff hd, shrinkB_size]
  have hWF5 : WF r5 := by
    refine WF_of_map r r5 G hGkey hcap5 hbl5 hWF ?_
    intro b hb
    by_cases hbL : b.key = L.key
    · have hbeq : b = L := huniq b hb L hLmem hbL
      rw [hbeq]
      by_cases hd : L.key = k
      · -- destination and last coincide
        have hLkb : kb = L := huniq kb hkbmem L hLmem (hkbk.trans hd.symm)
        have hiL : i < L.size := by
          rw [← hLkb]
          exact hi
        have hne2 : ¬ L.size = i + 1 := by
          intro hcon
          apply hc
          refine ⟨hd, ?_⟩
          rw [hLkb]
          exact hcon
        have hilt : i < L.size - 1 := by omega
        rw [hGsame hd]
        refine ⟨?_, ?_, ?_, ?_, ?_, ?_, ?_, ?_⟩
        · rw [shrinkB_cap, recvB_cap, hcap5]
          exact l1
        · rw [shrinkB_size, recvB_size, shrinkB_cap, recvB_cap]
          omega
        · rw [shrinkB_slots, recvB_slots, List.length_set, List.length_set,
            shrinkB_cap, recvB_cap]
          exact l3
        · rw [shrinkB_data, recvB_data, List.length_set, shrinkB_cap, recvB_cap]
          exact l4
        · intro j hj
          have hj2 : j < L.size - 1 := hj
          show (((L.slots.set i (some e)).set (L.size - 1) none).getD j
            none).isSome = true
          rw [getD_set_other _ _ _ _ _ (by omega : L.size - 1 ≠ j)]
          by_cases hji : j = i
          · subst hji
            rw [getD_set_self _ _ _ _ (by rw [l3]; omega)]
            rfl
          · rw [getD_set_other _ _ _ _ _ (fun hcon => hji hcon.symm)]
            exact l5 j (by omega)
        · intro j hj1 hj2
          have hj1b : j < L.cap := hj1
          have hj2b : L.size - 1 ≤ j := hj2
          show ((L.slots.set i (some e)).set (L.size - 1) none).getD j none = none
          by_cases hjn : j = L.size - 1
          · subst hjn
            exact getD_set_self _ _ _ _ (by rw [List.length_set, l3]; omega)
          · rw [getD_set_other _ _ _ _ _ (fun hcon => hjn hcon.symm),
              getD_set_other _ _ _ _ _ (by omega : i ≠ j)]
            exact l6 j hj1b (by omega)
        · intro hcon
          have hl5b : lastOfFamily r5 (shrinkB (L.size - 1)
              (recvB i e (L.data.getD (L.size - 1) 0) L)).parts
              = some (shrinkB (L.size - 1)
                (recvB i e (L.data.getD (L.size - 1) 0) L)) := by
            rw [← hGsame hd, hGparts L, hLp]
            exact hlast5
          exact absurd hl5b hcon
        · intro j hj
          have hj2 : j < L.size - 1 := hj
          show r5.backRef ((((L.slots.set i (some e)).set (L.size - 1)
            none).getD j none).getD 0)
            = some ((shrinkB (L.size - 1)
              (recvB i e (L.data.getD (L.size - 1) 0) L)).key, j)
          rw [getD_set_other _ _ _ _ _ (by omega : L.size - 1 ≠ j),
            shrinkB_key, recvB_key]
          by_cases hji : j = i
          · rw [hji, getD_set_self _ _ _ _ (by rw [l3]; omega)]
            rw [hbr5]
            show (if e = e then some (k, i) else r.backRef e) = some (L.key, i)
            rw [if_pos rfl, hd]
          · rw [getD_set_other _ _ _ _ _ (fun hcon => hji hcon.symm)]
            have h8j := l8 j (by omega)
            have hxe : (L.slots.getD j none).getD 0 ≠ e := by
              intro hcon
              rw [hcon, hbe] at h8j
              have h9 : (L.key, L.size - 1) = (L.key, j) := by simpa using h8j
              have h10 : L.size - 1 = j := congrArg Prod.snd h9
              omega
            rw [hbr5]
            show (if (L.slots.getD j none).getD 0 = e then some (k, i)
              else r.backRef ((L.slots.getD j none).getD 0)) = some (L.key, j)
            rw [if_neg hxe]
            exact h8j
      · -- only the shrink hits this bucket
        rw [hGL_diff hd]
        refine ⟨?_, ?_, ?_, ?_, ?_, ?_, ?_, ?_⟩
        · rw [shrinkB_cap, hcap5]
          exact l1
        · rw [shrinkB_size, shrinkB_cap]
          omega
        · rw [shrinkB_slots, List.length_set, shrinkB_cap]
          exact l3
        · rw [shrinkB_data, shrinkB_cap]
          exact l4
        · intro j hj
          have hj2 : j < L.size - 1 := hj
          show ((L.slots.set (L.size - 1) none).getD j none).isSome = true
          rw [getD_set_other _ _ _ _ _ (by omega : L.size - 1 ≠ j)]
          exact l5 j (by omega)
        · intro j hj1 hj2
          have hj1b : j < L.cap := hj1
          have hj2b : L.size - 1 ≤ j := hj2
          show (L.slots.set (L.size - 1) none).getD j none = none
          by_cases hjn : j = L.size - 1
          · subst hjn
            exact getD_set_self _ _ _ _ (by rw [l3]; omega)
          · rw [getD_set_other _ _ _ _ _ (fun hcon => hjn hcon.symm)]
            exact l6 j hj1b (by omega)
        · intro hcon
          have hl5b : lastOfFamily r5 (shrinkB (L.size - 1) L).parts
              = some (shrinkB (L.size - 1) L) := by
            rw [← hGL_diff hd, hGparts L, hLp]
            exact hlast5
          exact absurd hl5b hcon
        · intro j hj
          have hj2 : j < L.size - 1 := hj
          show r5.backRef (((L.slots.set (L.size - 1) none).getD j none).getD 0)
            = some ((shrinkB (L.size - 1) L).key, j)
          rw [getD_set_other _ _ _ _ _ (by omega : L.size - 1 ≠ j), shrinkB_key]
          have h8j := l8 j (by omega)
          have hxe : (L.slots.getD j none).getD 0 ≠ e := by
            intro hcon
            rw [hcon, hbe] at h8j
            have h9 : (L.key, L.size - 1) = (L.key, j) := by simpa using h8j
            have h10 : L.size - 1 = j := congrArg Prod.snd h9
            omega
          rw [hbr5]
          show (if (L.slots.getD j none).getD 0 = e then some (k, i)
            else r.backRef ((L.slots.getD j none).getD 0)) = some (L.key, j)
          rw [if_neg hxe]
          exact h8j
    · by_cases hbk : b.key = k
      · -- the destination bucket, distinct from the last
        have hbeq : b = kb := huniq b hb kb hkbmem (hbk.trans hkbk.symm)
        rw [hbeq]
        rw [hbeq] at hbL
        have hLd : L.key ≠ k := by
          intro hcon
          exact hbL (hkbk.trans hcon.symm)
        rw [hGkb_diff hLd]
        have hfull : kb.size = kb.cap := hkb_full_of_ne (fun hcon => hbL (by rw [hcon]))
        refine ⟨?_, ?_, ?_, ?_, ?_, ?_, ?_, ?_⟩
        · rw [recvB_cap, hcap5]
          exact c1
        · rw [recvB_size, recvB_cap]
          omega
        · rw [recvB_slots, List.length_set, recvB_cap]
          exact c3
        · rw [recvB_data, List.length_set, recvB_cap]
          exact c4
        · intro j hj
          have hj2 : j < kb.size := hj
          show ((kb.slots.set i (some e)).getD j none).isSome = true
          by_cases hji : j = i
          · subst hji
            rw [getD_set_self _ _ _ _ (by rw [c3]; omega)]
            rfl
          · rw [getD_set_other _ _ _ _ _ (fun hcon => hji hcon.symm)]
            exact c5 j hj2
        · intro j hj1 hj2
          have hj1b : j < kb.cap := hj1
          have hj2b : kb.size ≤ j := hj2
          exact absurd hj1b (by omega)
        · intro _
          rw [recvB_size, recvB_cap]
          exact hfull
        · intro j hj
          have hj2 : j < kb.size := hj
          show r5.backRef (((kb.slots.set i (some e)).getD j none).getD 0)
            = some ((recvB i e (L.data.getD (L.size - 1) 0) kb).key, j)
          rw [recvB_key]
          by_cases hji : j = i
          · rw [hji, getD_set_self _ _ _ _ (by rw [c3]; omega)]
            rw [hbr5]
            show (if e = e then some (k, i) else r.backRef e) = some (kb.key, i)
            rw [if_pos rfl, hkbk]
          · rw [getD_set_other _ _ _ _ _ (fun hcon => hji hcon.symm)]
            have h8j := c8 j hj2
            have hxe : (kb.slots.getD j none).getD 0 ≠ e := by
              intro hcon
              rw [hcon, hbe] at h8j
              have h9 : (L.key, L.size - 1) = (kb.key, j) := by simpa using h8j
              have h10 : L.key = kb.key := congrArg Prod.fst h9
              exact hbL h10.symm
            rw [hbr5]
            show (if (kb.slots.getD j none).getD 0 = e then some (k, i)
              else r.backRef ((kb.slots.getD j none).getD 0)) = some (kb.key, j)
            rw [if_neg hxe]
            exact h8j
      · -- untouched bucket
        rw [hGid b hbk hbL]
        obtain ⟨d1, d2, d3, d4, d5, d6, d7, d8⟩ := hWF.2.2 b hb
        refine ⟨by rw [hcap5]; exact d1, d2, d3, d4, d5, d6, ?_, ?_⟩
        · intro hcon
          apply d7
          intro hcon2
          apply hcon
          rw [lastOfFamily_of_map r r5 G hGparts hbl5, hcon2]
          show some (G b) = some b
          rw [hGid b hbk hbL]
        · intro j hj
          have h8j := d8 j hj
          have hxe : (b.slots.getD j none).getD 0 ≠ e := by
            intro hcon
            rw [hcon, hbe] at h8j
            have h9 : (L.key, L.size - 1) = (b.key, j) := by simpa using h8j
            have h10 : L.key = b.key := congrArg Prod.fst h9
            exact hbL h10.symm
          rw [hbr5]
          show (if (b.slots.getD j none).getD 0 = e then some (k, i)
            else r.backRef ((b.slots.getD j none).getD 0)) = some (b.key, j)
          rw [if_neg hxe]
          exact h8j
  have hfs5 : famSize r5 kb.parts + 1 = famSize r kb.parts := by
    refine famSize_map_lastDec r r5 G hGparts hbl5 kb.parts L hpw hlast ?_ hszGL hn
    intro b hb hne
    have hbkeyne : b.key ≠ L.key := by
      intro hcon
      exact hne (huniq b (List.mem_of_mem_filter hb) L hLmem hcon)
    by_cases hbk : b.key = k
    · have hbeq : b = kb :=
        huniq b (List.mem_of_mem_filter hb) kb hkbmem (hbk.trans hkbk.symm)
      have hLd : L.key ≠ k := by
        intro hcon
        rw [hbeq] at hbkeyne
        exact hbkeyne (hkbk.trans hcon.symm)
      rw [hbeq, hGkb_diff hLd, recvB_size]
    · rw [hGid b hbk hbkeyne]
  have hframe5 : ∀ q, q ≠ kb.parts → famBuckets r5 q = famBuckets r q := by
    intro q hq
    rw [famBuckets_of_map r r5 G hGparts hbl5]
    have hid : ∀ b ∈ famBuckets r q, G b = b := by
      intro b hb
      have hbq : b.parts = q := by simpa using List.of_mem_filter hb
      refine hGid b ?_ ?_
      · intro hcon
        have hp2 := (key_eq_parts_eq b kb (hcon.trans hkbk.symm)).1
        apply hq
        rw [← hbq, hp2]
      · intro hcon
        have hp2 := (key_eq_parts_eq b L hcon).1
        apply hq
        rw [← hbq, hp2, hLp]
    conv_rhs => rw [← List.map_id (famBuckets r q)]
    exact List.map_congr_left (fun b hb => by rw [hid b hb]; rfl)
  have hbre5 : r5.backRef e = some (k, i) := by
    rw [hbr5]
    show (if e = e then some (k, i) else r.backRef e) = some (k, i)
    rw [if_pos rfl]
  have hslotG : (G kb).slots.getD i none = some e := by
    by_cases hd : L.key = k
    · have hLkb : kb = L := huniq kb hkbmem L hLmem (hkbk.trans hd.symm)
      have hiL : i < L.size := by
        rw [← hLkb]
        exact hi
      have hne2 : ¬ L.size = i + 1 := by
        intro hcon
        apply hc
        refine ⟨hd, ?_⟩
        rw [hLkb]
        exact hcon
      rw [hLkb, hGsame hd, shrinkB_slots, recvB_slots]
      rw [getD_set_other _ _ _ _ _ (by omega : L.size - 1 ≠ i)]
      exact getD_set_self _ _ _ _ (by rw [l3]; omega)
    · rw [hGkb_diff hd, recvB_slots]
      exact getD_set_self _ _ _ _ (by rw [c3]; omega)
  have hslot5 : slotAt r5 k i = some e := by
    rw [slotAt, hget5kb]
    exact hslotG
  by_cases hn10 : L.size - 1 = 0
  · -- the last bucket empties and is destroyed
    have hone : L.size = 1 := by omega
    have hpw5 : List.Pairwise (fun a b => keyLess a.key b.key = true)
        r5.buckets := by
      rw [hbl5]
      exact pairwise_keys_map _ G hGkey hpw
    have hmem5 : G L ∈ r5.buckets := by
      rw [hbl5]
      exact List.mem_map_of_mem G hLmem
    obtain ⟨j5, hj5, hlb5⟩ := sorted_locate r5 (G L) hpw5 hmem5
    have hpack5 : ∀ m ∈ r5.buckets, lastOfFamily r5 m.parts ≠ some m →
        m.size = m.cap := fun m hm hcon => (hWF5.2.2 m hm).2.2.2.2.2.2.1 hcon
    have hcapm5 : ∀ m ∈ r5.buckets, 0 < m.cap := by
      intro m hm
      have h1 := (hWF5.2.2 m hm).1
      rw [hcap5] at h1
      omega
    have hlast5b : lastOfFamily r5 (G L).parts = some (G L) := by
      rw [hGparts L, hLp]
      exact hlast5
    have hsz5 : (G L).size = 0 := by
      rw [hszGL]
      exact hn10
    have hdestroy : destroyBucketK r5 L.key = .ok (delRepo r5 j5) :=
      destroy_spec r5 L.key (G L) j5 hpw5 hpack5 hcapm5 hget5L hsz5 hlast5b
        hj5 hlb5
    obtain ⟨hf1, hf2, hf3⟩ := famBuckets_erase r5 (G L) j5 hpw5 hj5 hlast5b
    have hGLparts : (G L).parts = kb.parts := by rw [hGparts L, hLp]
    rw [hGLparts] at hf1 hf2 hf3
    have hkbGne : G kb ≠ G L := by
      intro hcon
      have h1 := hGkey kb
      rw [hcon, hGkey L] at h1
      have hLkb : kb = L := huniq kb hkbmem L hLmem h1.symm
      have hik : i = 0 := by
        have hh : i < kb.size := hi
        rw [hLkb] at hh
        omega
      apply hc
      refine ⟨h1.symm.symm.trans hkbk, ?_⟩
      rw [hLkb, hone, hik]
    refine ⟨delRepo r5 j5, e, he, ?_, ?_, ?_, ?_, ?_, ?_, ?_, ?_⟩
    · simp only [removeEntity, hget, hlast, if_neg hc, he, if_pos hn10]
      rw [← hr5, hdestroy]
      rfl
    · exact erase_last_WF r5 (G L) j5 hWF5 hj5 hlast5b
    · have heq : famSize (delRepo r5 j5) kb.parts = famSize r5 kb.parts := by
        rw [famSize, famSize, hf1, hf2, List.map_append, List.sum_append]
        simp only [List.map_cons, List.map_nil, List.sum_cons, List.sum_nil]
        have hszz : (G L).size = 0 := hsz5
        omega
      rw [heq]
      exact hfs5
    · intro q hq
      rw [hf3 q hq]
      exact hframe5 q hq
    · have hmem6 : G kb ∈ (delRepo r5 j5).buckets := by
        show G kb ∈ r5.buckets.eraseIdx j5
        refine mem_eraseIdx_of_ne r5.buckets j5 (G L) hj5 (G kb) ?_ hkbGne
        rw [hbl5]
        exact List.mem_map_of_mem G hkbmem
      have hpw6 : List.Pairwise (fun a b => keyLess a.key b.key = true)
          (delRepo r5 j5).buckets := by
        show List.Pairwise _ (r5.buckets.eraseIdx j5)
        exact hpw5.sublist (List.eraseIdx_sublist _ _)
      have hget6 : getB (delRepo r5 j5) k = some (G kb) := by
        have hh := getB_of_mem (delRepo r5 j5) (G kb) hpw6 hmem6
        rw [hGkey kb, hkbk] at hh
        exact hh
      rw [slotAt, hget6]
      exact hslotG
    · show r5.backRef e = some (k, i)
      exact hbre5
    · intro _ m hm hkey2
      have hlen5 : j5 < r5.buckets.length := (List.getElem?_eq_some.mp hj5).1
      have hdec5 : r5.buckets =
          r5.buckets.take j5 ++ (G L) :: r5.buckets.drop (j5 + 1) := by
        conv_lhs => rw [← List.take_append_drop j5 r5.buckets]
        rw [List.drop_eq_getElem_cons hlen5, (List.getElem?_eq_some.mp hj5).2]
      have hpw52 : List.Pairwise (fun a b => keyLess a.key b.key = true)
          (r5.buckets.take j5 ++ (G L) :: r5.buckets.drop (j5 + 1)) := by
        rw [← hdec5]
        exact hpw5
      have hcross := List.pairwise_append.mp hpw52
      have hm2 : m ∈ r5.buckets.take j5 ++ r5.buckets.drop (j5 + 1) := by
        have hmm : m ∈ (delRepo r5 j5).buckets := hm
        show m ∈ _
        rw [← List.eraseIdx_eq_take_drop_succ]
        exact hmm
      have hkeyL : m.key = (G L).key := by
        rw [hkey2]
        exact (hGkey L).symm
      rcases List.mem_append.mp hm2 with h | h
      · have hx := hcross.2.2 m h (G L) (List.mem_cons_self _ _)
        rw [hkeyL, keyLess_irrefl] at hx
        exact Bool.false_ne_true hx
      · have hx := (List.pairwise_cons.mp hcross.2.1).1 m h
        rw [hkeyL, keyLess_irrefl] at hx
        exact Bool.false_ne_true hx
    · intro hcon
      exact absurd hcon (by omega)
  · -- the last bucket keeps at least one object
    refine ⟨r5, e, he, ?_, hWF5, hfs5, hframe5, hslot5, hbre5, ?_, ?_⟩
    · simp only [removeEntity, hget, hlast, if_neg hc, he, if_neg hn10]
      rw [← hr5]
      rfl
    · intro h1
      exact absurd (by omega : L.size - 1 = 0) hn10
    · intro _
      exact ⟨G L, hget5L, by rw [hszGL]; omega⟩

/-! ## Claim C2 -/

/-- A two-bucket family (full first bucket, half-filled last bucket) is a
    well-formed repository. -/
theorem twoRepo_WF : WF twoRepo := by
  refine ⟨by decide, ?_, ?_⟩
  · exact (chainKeys_iff_pairwise _).mpr (by decide)
  · intro b hb
    fin_cases hb <;> (simp only [bucketWF]; decide)

/-- C2: remove_entity(k, i) on a live slot of a well-formed repository leaves
    the family with exactly one fewer live object and no gaps (live slots
    before every bucket's size, nulls after it).  Unless (k, i) is the very
    last live slot of the family's last bucket, the last bucket's final live
    entity is moved into (k, i), its back-reference is updated to (k, i), and
    the relocation hook is invoked for it exactly once; otherwise nothing
    moves and no hook runs.  The last bucket's size is decremented and the
    bucket is destroyed exactly when it becomes empty. -/
theorem claimC2_swap_remove (r : Repo) (k : List Nat) (i : Nat) (kb L : Bucket)
    (hWF : WF r) (hget : getB r k = some kb) (hi : i < kb.size)
    (hlast : lastOfFamily r kb.parts = some L) (hn : 0 < L.size) :
    ∃ r2 ev, removeEntity r k i = .ok (r2, ev) ∧ WF r2 ∧
      famSize r2 kb.parts + 1 = famSize r kb.parts ∧
      (∀ b ∈ famBuckets r2 kb.parts, ∀ j, j < b.size →
        (b.slots.getD j none).isSome = true) ∧
      (∀ b ∈ famBuckets r2 kb.parts, ∀ j, j < b.cap → b.size ≤ j →
        b.slots.getD j none = none) ∧
      (¬ (L.key = k ∧ kb.size = i + 1) →
        ∃ e, L.slots.getD (L.size - 1) none = some e ∧
          slotAt r2 k i = some e ∧ r2.backRef e = some (k, i) ∧
          ev.count (.hook e) = 1 ∧
          ev = [.moved e k i, .hook e, .vacate L.key (L.size - 1)]) ∧
      ((L.key = k ∧ kb.size = i + 1) →
        ev = [.vacate k i] ∧ ∀ x, Ev.hook x ∉ ev) ∧
      (1 < L.size → ∃ L2, getB r2 L.key = some L2 ∧ L2.size + 1 = L.size) ∧
      (L.size = 1 → ∀ m ∈ r2.buckets, m.key ≠ L.key) := by
  have hpw := (chainKeys_iff_pairwise r.buckets).mp hWF.2.1
  by_cases hcond : L.key = k ∧ kb.size = i + 1
  · obtain ⟨hkbmem, hkbk⟩ := getB_some r k kb hget
    obtain ⟨hLmem, hLp⟩ := lastOfFamily_parts r kb.parts L hlast
    have hkbL : kb = L :=
      keys_unique r.buckets hpw kb hkbmem L hLmem (hkbk.trans hcond.1.symm)
    have hlast2 : lastOfFamily r kb.parts = some kb := by
      rw [hkbL, hLp]
      exact hlast
    obtain ⟨r2, hev, hWF2, hfs, hframe, hdestroyed, hsurvive⟩ :=
      remove_ok_nomove r k i kb hWF hget hi hlast2 hcond.2
    refine ⟨r2, [.vacate k i], hev, hWF2, hfs, ?_, ?_, ?_, ?_, ?_, ?_⟩
    · intro b hb j hj
      exact ((hWF2.2.2 b (List.mem_of_mem_filter hb)).2.2.2.2.1) j hj
    · intro b hb j hj1 hj2
      exact ((hWF2.2.2 b (List.mem_of_mem_filter hb)).2.2.2.2.2.1) j hj1 hj2
    · intro hcon
      exact absurd hcond hcon
    · intro _
      refine ⟨rfl, ?_⟩
      intro x hx
      rw [List.mem_singleton] at hx
      exact Ev.noConfusion hx
    · intro h1
      have h1b : 1 < kb.size := by
        rw [hkbL]
        exact h1
      obtain ⟨L2, hgl, hsz⟩ := hsurvive h1b
      refine ⟨L2, ?_, ?_⟩
      · rw [hcond.1]
        exact hgl
      · rw [← hkbL]
        exact hsz
    · intro h1 m hm
      have h1b : kb.size = 1 := by
        rw [hkbL]
        exact h1
      have hne := hdestroyed h1b m hm
      rw [hcond.1]
      exact hne
  · obtain ⟨r2, e, he, hev, hWF2, hfs, hframe, hslot, hbr, hdestroyed, hsurvive⟩ :=
      remove_ok_move r k i kb L hWF hget hi hlast hn hcond
    refine ⟨r2, _, hev, hWF2, hfs, ?_, ?_, ?_, ?_, hsurvive, hdestroyed⟩
    · intro b hb j hj
      exact ((hWF2.2.2 b (List.mem_of_mem_filter hb)).2.2.2.2.1) j hj
    · intro b hb j hj1 hj2
      exact ((hWF2.2.2 b (List.mem_of_mem_filter hb)).2.2.2.2.2.1) j hj1 hj2
    · intro _
      refine ⟨e, he, hslot, hbr, ?_, rfl⟩
      simp [List.count_cons]
    · intro hcon
      exact absurd hcon hcond

/-- C2 witness: removing slot 0 of the full first bucket in the two-bucket
    family moves entity 7 into it and leaves one fewer live object. -/
theorem claimC2_swap_remove_witness :
    (0 : Nat) < 1 ∧
    ∃ r2 ev, removeEntity twoRepo (rawKey [1] 0) 0 = .ok (r2, ev) ∧ WF r2 ∧
      famSize r2 [1] + 1 = famSize twoRepo [1] := by
  obtain ⟨r2, ev, h1, h2, h3, _⟩ :=
    claimC2_swap_remove twoRepo (rawKey [1] 0) 0
      { parts := [1], fam := 0, cap := 2, size := 2,
        slots := [some 5, some 6], data := [0, 0] }
      { parts := [1], fam := 1, cap := 2, size := 1,
        slots := [some 7, none], data := [0, 0] }
      twoRepo_WF (by decide) (by decide) (by decide) (by decide)
  exact ⟨by decide, r2, ev, h1, h2, h3⟩

/-! ## Sort-scan state surgery -/

theorem pos_ne_cases (p w : Pos) (h : p ≠ w) : p.1 ≠ w.1 ∨ p.2 ≠ w.2 := by
  by_cases h1 : p.1 = w.1
  · right
    intro h2
    exact h (Prod.ext h1 h2)
  · left
    exact h1

theorem backRef_replaceEntity (r : Repo) (k : List Nat) (i : Nat)
    (e : Option EntityId) : (replaceEntity r k i e).backRef = r.backRef := rfl

theorem backRef_setRef (r : Repo) (e : EntityId) (k : List Nat) (i : Nat)
    (x : EntityId) :
    (setRef r e k i).backRef x = if x = e then some (k, i) else r.backRef x :=
  rfl

theorem valid_replaceEntity (r : Repo) (k : List Nat) (i : Nat)
    (e : Option EntityId) (q : Pos)
    (hv : ∃ b, getB r q.1 = some b ∧ q.2 < b.slots.length) :
    ∃ b, getB (replaceEntity r k i e) q.1 = some b ∧ q.2 < b.slots.length := by
  obtain ⟨b, hb, hlen⟩ := hv
  rw [replaceEntity,
    getB_updB r k q.1 (fun b => { b with slots := b.slots.set i e })
      (fun b2 => rfl), hb]
  refine ⟨if b.key = k then { b with slots := b.slots.set i e } else b, rfl, ?_⟩
  by_cases h : b.key = k
  · rw [if_pos h]
    show q.2 < (b.slots.set i e).length
    rw [List.length_set]
    exact hlen
  · rw [if_neg h]
    exact hlen

theorem valid_copyFields (r : Repo) (dk : List Nat) (di : Nat) (sk : List Nat)
    (si : Nat) (q : Pos)
    (hv : ∃ b, getB r q.1 = some b ∧ q.2 < b.slots.length) :
    ∃ b, getB (copyFields r dk di sk si) q.1 = some b ∧
      q.2 < b.slots.length := by
  cases hs : getB r sk with
  | none =>
    simp only [copyFields, hs]
    exact hv
  | some sb =>
    obtain ⟨b, hb, hlen⟩ := hv
    rw [copyFields_eq r dk di sk si sb hs,
      getB_updB r dk q.1
        (fun b => { b with data := b.data.set di (sb.data.getD si 0) })
        (fun b2 => rfl), hb]
    refine ⟨_, rfl, ?_⟩
    by_cases h : b.key = dk
    · simp only [if_pos h]
      exact hlen
    · simp only [if_neg h]
      exact hlen

theorem sameSkel_refl (r : Repo) : sameSkel r r := ⟨rfl, rfl⟩

theorem sameSkel_trans (a b c : Repo) (h1 : sameSkel a b) (h2 : sameSkel b c) :
    sameSkel a c := ⟨h2.1.trans h1.1, h2.2.trans h1.2⟩

theorem sameSkel_replaceEntity (r : Repo) (k : List Nat) (i : Nat)
    (e : Option EntityId) : sameSkel r (replaceEntity r k i e) := by
  refine ⟨rfl, ?_⟩
  show (r.buckets.map _).map skel = r.buckets.map skel
  rw [List.map_map]
  apply List.map_congr_left
  intro b _
  show skel (if b.key = k then { b with slots := b.slots.set i e } else b)
    = skel b
  by_cases h : b.key = k
  · rw [if_pos h]
    show (b.key, b.parts, b.fam, b.cap, b.size, (b.slots.set i e).length,
      b.data.length) = skel b
    rw [List.length_set]
    rfl
  · rw [if_neg h]

theorem sameSkel_copyFields (r : Repo) (dk : List Nat) (di : Nat)
    (sk : List Nat) (si : Nat) : sameSkel r (copyFields r dk di sk si) := by
  cases hs : getB r sk with
  | none =>
    simp only [copyFields, hs]
    exact sameSkel_refl r
  | some sb =>
    rw [copyFields_eq r dk di sk si sb hs]
    refine ⟨rfl, ?_⟩
    show (r.buckets.map _).map skel = r.buckets.map skel
    rw [List.map_map]
    apply List.map_congr_left
    intro b _
    show skel (if b.key = dk then
      { b with data := b.data.set di (sb.data.getD si 0) } else b) = skel b
    by_cases h : b.key = dk
    · rw [if_pos h]
      show (b.key, b.parts, b.fam, b.cap, b.size, b.slots.length,
        (b.data.set di (sb.data.getD si 0)).length) = skel b
      rw [List.length_set]
      rfl
    · rw [if_neg h]

theorem sameSkel_setRef (r : Repo) (e : EntityId) (k : List Nat) (i : Nat) :
    sameSkel r (setRef r e k i) := ⟨rfl, rfl⟩

/-- Effect of parking an occupant `c` into the vacant cursor `W` (data copy
    from `Q`, back-reference update, slot store). -/
theorem slot_park (X Y : Repo) (W Q : Pos) (c : EntityId)
    (hY : Y = replaceEntity (setRef (copyFields X W.1 W.2 Q.1 Q.2) c W.1 W.2)
      W.1 W.2 (some c))
    (hvW : ∃ b, getB X W.1 = some b ∧ W.2 < b.slots.length) :
    slotAt Y W.1 W.2 = some c ∧
    (∀ p : Pos, p ≠ W → slotAt Y p.1 p.2 = slotAt X p.1 p.2) ∧
    (∀ x, Y.backRef x = if x = c then some W else X.backRef x) ∧
    sameSkel X Y ∧
    (∀ p : Pos, (∃ b, getB X p.1 = some b ∧ p.2 < b.slots.length) →
      ∃ b, getB Y p.1 = some b ∧ p.2 < b.slots.length) := by
  have hv1 : ∃ b, getB (setRef (copyFields X W.1 W.2 Q.1 Q.2) c W.1 W.2) W.1
      = some b ∧ W.2 < b.slots.length :=
    valid_copyFields X W.1 W.2 Q.1 Q.2 W hvW
  refine ⟨?_, ?_, ?_, ?_, ?_⟩
  · obtain ⟨b, hb, hlen⟩ := hv1
    rw [hY]
    exact slotAt_replace_self _ W.1 W.2 (some c) b hb hlen
  · intro p hp
    rw [hY, slotAt_replace_ne _ _ _ _ _ _ (pos_ne_cases p W hp),
      slotAt_setRef, slotAt_copyFields]
  · intro x
    rw [hY]
    show (setRef (copyFields X W.1 W.2 Q.1 Q.2) c W.1 W.2).backRef x = _
    rw [backRef_setRef]
    by_cases h : x = c
    · rw [if_pos h, if_pos h]
    · rw [if_neg h, if_neg h, backRef_copyFields]
  · rw [hY]
    exact sameSkel_trans _ _ _
      (sameSkel_trans _ _ _ (sameSkel_copyFields X W.1 W.2 Q.1 Q.2)
        (sameSkel_setRef _ c W.1 W.2))
      (sameSkel_replaceEntity _ W.1 W.2 (some c))
  · intro p hp
    rw [hY]
    exact valid_replaceEntity _ _ _ _ p (valid_copyFields X W.1 W.2 Q.1 Q.2 p hp)

/-- Effect of placing target `t` into position `Q` after vacating its old
    location `LQ` (slot null, data copy, back-reference update, store). -/
theorem slot_place (X Y : Repo) (Q LQ : Pos) (t : EntityId)
    (hY : Y = replaceEntity (setRef (copyFields (replaceEntity X LQ.1 LQ.2 none)
      Q.1 Q.2 LQ.1 LQ.2) t Q.1 Q.2) Q.1 Q.2 (some t))
    (hvQ : ∃ b, getB X Q.1 = some b ∧ Q.2 < b.slots.length)
    (hvLQ : ∃ b, getB X LQ.1 = some b ∧ LQ.2 < b.slots.length)
    (hne : Q ≠ LQ) :
    slotAt Y Q.1 Q.2 = some t ∧
    slotAt Y LQ.1 LQ.2 = none ∧
    (∀ p : Pos, p ≠ Q → p ≠ LQ → slotAt Y p.1 p.2 = slotAt X p.1 p.2) ∧
    (∀ x, Y.backRef x = if x = t then some Q else X.backRef x) ∧
    sameSkel X Y ∧
    (∀ p : Pos, (∃ b, getB X p.1 = some b ∧ p.2 < b.slots.length) →
      ∃ b, getB Y p.1 = some b ∧ p.2 < b.slots.length) := by
  have hvac : slotAt (replaceEntity X LQ.1 LQ.2 none) LQ.1 LQ.2 = none := by
    obtain ⟨b, hb, hlen⟩ := hvLQ
    exact slotAt_replace_self X LQ.1 LQ.2 none b hb hlen
  have hv1 : ∃ b, getB (setRef (copyFields (replaceEntity X LQ.1 LQ.2 none)
      Q.1 Q.2 LQ.1 LQ.2) t Q.1 Q.2) Q.1 = some b ∧ Q.2 < b.slots.length :=
    valid_copyFields _ Q.1 Q.2 LQ.1 LQ.2 Q (valid_replaceEntity X _ _ _ Q hvQ)
  refine ⟨?_, ?_, ?_, ?_, ?_, ?_⟩
  · obtain ⟨b, hb, hlen⟩ := hv1
    rw [hY]
    exact slotAt_replace_self _ Q.1 Q.2 (some t) b hb hlen
  · rw [hY, slotAt_replace_ne _ _ _ _ _ _
      (pos_ne_cases LQ Q (fun hcon => hne hcon.symm)),
      slotAt_setRef, slotAt_copyFields]
    exact hvac
  · intro p hp1 hp2
    rw [hY, slotAt_replace_ne _ _ _ _ _ _ (pos_ne_cases p Q hp1),
      slotAt_setRef, slotAt_copyFields,
      slotAt_replace_ne _ _ _ _ _ _ (pos_ne_cases p LQ hp2)]
  · intro x
    rw [hY]
    show (setRef (copyFields (replaceEntity X LQ.1 LQ.2 none) Q.1 Q.2 LQ.1 LQ.2)
      t Q.1 Q.2).backRef x = _
    rw [backRef_setRef]
    by_cases h : x = t
    · rw [if_pos h, if_pos h]
    · rw [if_neg h, if_neg h, backRef_copyFields, backRef_replaceEntity]
  · rw [hY]
    refine sameSkel_trans _ _ _ ?_ (sameSkel_replaceEntity _ Q.1 Q.2 (some t))
    refine sameSkel_trans _ _ _ ?_ (sameSkel_setRef _ t Q.1 Q.2)
    refine sameSkel_trans _ _ _ ?_ (sameSkel_copyFields _ Q.1 Q.2 LQ.1 LQ.2)
    exact sameSkel_replaceEntity X LQ.1 LQ.2 none
  · intro p hp
    rw [hY]
    exact valid_replaceEntity _ _ _ _ p
      (valid_copyFields _ _ _ _ _ p (valid_replaceEntity X _ _ _ p hp))

/-! ## The compaction-scan correctness invariant -/

/-- Running the compaction scan from a state satisfying the scan invariant
    places every remaining target at its position with an accurate
    back-reference, leaves the original spare slot empty, touches no slot
    outside the region and no back-reference outside the targets, and
    preserves the bucket skeletons. -/
theorem sortScan_total (v : Pos) (Z : List (Pos × EntityId)) :
    ∀ (r : Repo) (w : Pos) (ch : Bool), ScanInv v r w Z →
      (∀ x ∈ Z, slotAt (sortScan r w ch Z).1 x.1.1 x.1.2 = some x.2 ∧
        (sortScan r w ch Z).1.backRef x.2 = some x.1) ∧
      slotAt (sortScan r w ch Z).1 v.1 v.2 = none ∧
      (∀ q : Pos, q ∉ Z.map Prod.fst ++ [v] →
        slotAt (sortScan r w ch Z).1 q.1 q.2 = slotAt r q.1 q.2) ∧
      (∀ x, x ∉ Z.map Prod.snd →
        (sortScan r w ch Z).1.backRef x = r.backRef x) ∧
      sameSkel r (sortScan r w ch Z).1 := by
  induction Z with
  | nil =>
    intro r w ch hInv
    obtain ⟨hI0, hI1a, hI1b, hI2, hI3, hI4, hI5, hI6a, hI6b⟩ := hInv
    refine ⟨?_, ?_, ?_, ?_, ?_⟩
    · intro x hx
      simp at hx
    · have hwv : w = v := by simpa using hI1b
      show slotAt r v.1 v.2 = none
      rw [← hwv]
      exact hI1a
    · intro p _
      rfl
    · intro x _
      rfl
    · exact sameSkel_refl r
  | cons hd rest ih =>
    obtain ⟨q, t⟩ := hd
    intro r w ch hInv
    obtain ⟨hI0, hI1a, hI1b, hI2, hI3, hI4, hI5, hI6a, hI6b⟩ := hInv
    have hqreg : q ∈ ((q, t) :: rest).map Prod.fst ++ [v] := by
      simp
    have hreg_sub : ∀ p : Pos, p ∈ rest.map Prod.fst ++ [v] →
        p ∈ ((q, t) :: rest).map Prod.fst ++ [v] := by
      intro p hp
      simp only [List.map_cons, List.cons_append, List.mem_cons]
      exact Or.inr hp
    have hreg_split : ∀ p : Pos, p ∈ ((q, t) :: rest).map Prod.fst ++ [v] →
        p = q ∨ p ∈ rest.map Prod.fst ++ [v] := by
      intro p hp
      simp only [List.map_cons, List.cons_append, List.mem_cons] at hp
      exact hp
    rw [List.map_cons, List.nodup_cons] at hI5 hI6a
    obtain ⟨htnotin, hI5r⟩ := hI5
    obtain ⟨hqnotin, hI6ar⟩ := hI6a
    have htnotin2 : t ∉ rest.map Prod.snd := htnotin
    have hqnotin2 : q ∉ rest.map Prod.fst := hqnotin
    have hI6br : v ∉ rest.map Prod.fst := by
      intro hcon
      apply hI6b
      rw [List.map_cons]
      exact List.mem_cons_of_mem _ hcon
    have hvq : v ≠ q := by
      intro hcon
      apply hI6b
      rw [List.map_cons, hcon]
      exact List.mem_cons_self _ _
    have hq_notr : (q : Pos) ∉ rest.map Prod.fst ++ [v] := by
      intro hcon
      rcases List.mem_append.mp hcon with h2 | h2
      · exact hqnotin2 h2
      · exact hvq (List.mem_singleton.mp h2).symm
    by_cases hmatch : slotAt r q.1 q.2 = some t
    · -- the slot already holds its target
      have hout : sortScan r w ch ((q, t) :: rest) =
          ((sortScan r w ch rest).1,
            (if ch then [Ev.hook t] else []) ++ (sortScan r w ch rest).2.1,
            (sortScan r w ch rest).2.2) := by
        simp only [sortScan, if_pos hmatch]
      have hwq : w ≠ q := by
        intro hcon
        rw [hcon] at hI1a
        rw [hI1a] at hmatch
        exact Option.noConfusion hmatch
      have hInv' : ScanInv v r w rest := by
        refine ⟨?_, hI1a, ?_, ?_, ?_, ?_, hI5r, hI6ar, hI6br⟩
        · intro p hp
          exact hI0 p (hreg_sub p hp)
        · rcases hreg_split w hI1b with hcon | h
          · exact absurd hcon hwq
          · exact h
        · intro x hx
          obtain ⟨lq, hm, hnw, hs, hb⟩ := hI2 x (List.mem_cons_of_mem _ hx)
          refine ⟨lq, ?_, hnw, hs, hb⟩
          rcases hreg_split lq hm with hcon | h
          · exfalso
            rw [hcon] at hs
            rw [hmatch] at hs
            have hxt : t = x.2 := by simpa using hs
            apply htnotin2
            rw [hxt]
            exact List.mem_map_of_mem Prod.snd hx
          · exact h
        · intro p hp hpw
          obtain ⟨c, hc, hcm⟩ := hI3 p (hreg_sub p hp) hpw
          refine ⟨c, hc, ?_⟩
          rw [List.map_cons] at hcm
          rcases List.mem_cons.mp hcm with hcon | h
          · exfalso
            have hpq : p = q := hI4 p (hreg_sub p hp) q hqreg c hc
              (by rw [hcon]; exact hmatch)
            rw [hpq] at hp
            exact hq_notr hp
          · exact h
        · intro q1 h1 q2 h2 c hc1 hc2
          exact hI4 q1 (hreg_sub q1 h1) q2 (hreg_sub q2 h2) c hc1 hc2
      obtain ⟨hC1, hC2, hC3, hC4, hC5⟩ := ih r w ch hInv'
      rw [hout]
      refine ⟨?_, hC2, ?_, ?_, hC5⟩
      · intro x hx
        rcases List.mem_cons.mp hx with hxq | hxr
        · subst hxq
          constructor
          · show slotAt (sortScan r w ch rest).1 q.1 q.2 = some t
            rw [hC3 q hq_notr]
            exact hmatch
          · show (sortScan r w ch rest).1.backRef t = some q
            rw [hC4 t htnotin2]
            obtain ⟨lq, hm, hnw, hs, hb⟩ := hI2 (q, t) (List.mem_cons_self _ _)
            have hs2 : slotAt r lq.1 lq.2 = some t := hs
            have hb2 : r.backRef t = some lq := hb
            have hlqq : lq = q := hI4 lq hm q hqreg t hs2 hmatch
            rw [hlqq] at hb2
            exact hb2
        · exact hC1 x hxr
      · intro p hp
        have hp' : p ∉ rest.map Prod.fst ++ [v] := by
          intro hcon
          exact hp (hreg_sub p hcon)
        exact hC3 p hp'
      · intro x hx
        have hx' : x ∉ rest.map Prod.snd := by
          intro hcon
          apply hx
          rw [List.map_cons]
          exact List.mem_cons_of_mem _ hcon
        exact hC4 x hx'
    · -- mismatch: the target is pulled in from its current location
      obtain ⟨lq, hlqm, hlqw, hlqs, hlqb⟩ := hI2 (q, t) (List.mem_cons_self _ _)
      have hlqs2 : slotAt r lq.1 lq.2 = some t := hlqs
      have hlqb2 : r.backRef t = some lq := hlqb
      have hlqq : lq ≠ q := by
        intro hcon
        rw [hcon] at hlqs2
        exact hmatch hlqs2
      have hlq_rest : lq ∈ rest.map Prod.fst ++ [v] := by
        rcases hreg_split lq hlqm with hcon | h
        · exact absurd hcon hlqq
        · exact h
      have hvq0 := hI0 q hqreg
      have hvlq0 := hI0 lq hlqm
      cases hocc : slotAt r q.1 q.2 with
      | none =>
        have hqw : q = w := by
          by_contra hqw
          obtain ⟨c, hc, _⟩ := hI3 q hqreg hqw
          rw [hocc] at hc
          exact Option.noConfusion hc
        obtain ⟨hP1, hP2, hP3, hP4, hP5, hP6⟩ :=
          slot_place r (replaceEntity (setRef (copyFields
              (replaceEntity r lq.1 lq.2 none) q.1 q.2 lq.1 lq.2) t q.1 q.2)
              q.1 q.2 (some t)) q lq t rfl hvq0 hvlq0
            (fun hcon => hlqq hcon.symm)
        have htq : (r.backRef t).getD ([], 0) = lq := by
          rw [hlqb2]
          rfl
        have hout : sortScan r w ch ((q, t) :: rest) =
            ((sortScan (replaceEntity (setRef (copyFields
                (replaceEntity r lq.1 lq.2 none) q.1 q.2 lq.1 lq.2) t q.1 q.2)
                q.1 q.2 (some t)) lq true rest).1,
              [Ev.vacate lq.1 lq.2, Ev.moved t q.1 q.2, Ev.hook t]
                ++ (sortScan (replaceEntity (setRef (copyFields
                  (replaceEntity r lq.1 lq.2 none) q.1 q.2 lq.1 lq.2) t q.1 q.2)
                  q.1 q.2 (some t)) lq true rest).2.1,
              (sortScan (replaceEntity (setRef (copyFields
                (replaceEntity r lq.1 lq.2 none) q.1 q.2 lq.1 lq.2) t q.1 q.2)
                q.1 q.2 (some t)) lq true rest).2.2) := by
          simp only [sortScan]
          rw [if_neg hmatch]
          simp only [hocc, htq, List.nil_append]
        have hInv' : ScanInv v (replaceEntity (setRef (copyFields
            (replaceEntity r lq.1 lq.2 none) q.1 q.2 lq.1 lq.2) t q.1 q.2)
            q.1 q.2 (some t)) lq rest := by
          refine ⟨?_, hP2, hlq_rest, ?_, ?_, ?_, hI5r, hI6ar, hI6br⟩
          · intro p hp
            exact hP6 p (hI0 p (hreg_sub p hp))
          · intro x hx
            obtain ⟨lx, hm, hnw, hs, hb⟩ := hI2 x (List.mem_cons_of_mem _ hx)
            have hs2 : slotAt r lx.1 lx.2 = some x.2 := hs
            have hb2 : r.backRef x.2 = some lx := hb
            have hxt : x.2 ≠ t := by
              intro hcon
              apply htnotin2
              rw [← hcon]
              exact List.mem_map_of_mem Prod.snd hx
            have hlx_q : lx ≠ q := by
              intro hcon
              rw [hcon, hocc] at hs2
              exact Option.noConfusion hs2
            have hlx_lq : lx ≠ lq := by
              intro hcon
              rw [hcon, hlqs2] at hs2
              exact hxt (Option.some.inj hs2).symm
            refine ⟨lx, ?_, hlx_lq, ?_, ?_⟩
            · rcases hreg_split lx hm with hcon | h
              · exact absurd hcon hlx_q
              · exact h
            · rw [hP3 lx hlx_q hlx_lq]
              exact hs2
            · rw [hP4 x.2, if_neg hxt]
              exact hb2
          · intro p hp hpl
            have hpq : p ≠ q := by
              intro hcon
              rw [hcon] at hp
              exact hq_notr hp
            have hpw : p ≠ w := by
              rw [← hqw]
              exact hpq
            obtain ⟨c, hc, hcm⟩ := hI3 p (hreg_sub p hp) hpw
            refine ⟨c, ?_, ?_⟩
            · rw [hP3 p hpq hpl]
              exact hc
            · rw [List.map_cons] at hcm
              rcases List.mem_cons.mp hcm with hcon | h
              · exfalso
                have hplq : p = lq := hI4 p (hreg_sub p hp) lq hlqm c hc
                  (by rw [hcon]; exact hlqs2)
                exact hpl hplq
              · exact h
          · intro q1 h1 q2 h2 c hc1 hc2
            have h1q : q1 ≠ q := by
              intro hcon
              rw [hcon] at h1
              exact hq_notr h1
            have h2q : q2 ≠ q := by
              intro hcon
              rw [hcon] at h2
              exact hq_notr h2
            by_cases h1lq : q1 = lq
            · exfalso
              rw [h1lq, hP2] at hc1
              exact Option.noConfusion hc1
            · by_cases h2lq : q2 = lq
              · exfalso
                rw [h2lq, hP2] at hc2
                exact Option.noConfusion hc2
              · rw [hP3 q1 h1q h1lq] at hc1
                rw [hP3 q2 h2q h2lq] at hc2
                exact hI4 q1 (hreg_sub q1 h1) q2 (hreg_sub q2 h2) c hc1 hc2
        obtain ⟨hC1, hC2, hC3, hC4, hC5⟩ := ih _ lq true hInv'
        rw [hout]
        refine ⟨?_, hC2, ?_, ?_, ?_⟩
        · intro x hx
          rcases List.mem_cons.mp hx with hxq | hxr
          · subst hxq
            constructor
            · show slotAt _ q.1 q.2 = some t
              rw [hC3 q hq_notr]
              exact hP1
            · show Repo.backRef _ t = some q
              rw [hC4 t htnotin2, hP4 t, if_pos rfl]
          · exact hC1 x hxr
        · intro p hp
          have hpr : p ∉ rest.map Prod.fst ++ [v] := by
            intro hcon
            exact hp (hreg_sub p hcon)
          have hpq : p ≠ q := by
            intro hcon
            rw [hcon] at hp
            exact hp hqreg
          have hplq : p ≠ lq := by
            intro hcon
            apply hp
            rw [hcon]
            exact hlqm
          rw [hC3 p hpr, hP3 p hpq hplq]
        · intro x hx
          have hxr : x ∉ rest.map Prod.snd := by
            intro hcon
            apply hx
            rw [List.map_cons]
            exact List.mem_cons_of_mem _ hcon
          have hxt : x ≠ t := by
            intro hcon
            apply hx
            rw [hcon, List.map_cons]
            exact List.mem_cons_self _ _
          rw [hC4 x hxr, hP4 x, if_neg hxt]
        · exact sameSkel_trans _ _ _ hP5 hC5
      | some c =>
        have hct : c ≠ t := by
          intro hcon
          rw [hcon] at hocc
          exact hmatch hocc
        have hqw : q ≠ w := by
          intro hcon
          rw [hcon] at hocc
          rw [hI1a] at hocc
          exact Option.noConfusion hocc
        have hwq : w ≠ q := fun hcon => hqw hcon.symm
        obtain ⟨c', hc', hcm⟩ := hI3 q hqreg hqw
        have hcc : c' = c := by
          rw [hocc] at hc'
          exact (Option.some.inj hc').symm
        rw [hcc] at hcm
        have hcrest : c ∈ rest.map Prod.snd := by
          rw [List.map_cons] at hcm
          rcases List.mem_cons.mp hcm with hcon | h
          · exact absurd hcon hct
          · exact h
        have hvw0 := hI0 w hI1b
        obtain ⟨hK1, hK2, hK3, hK4, hK5⟩ :=
          slot_park r (replaceEntity (setRef (copyFields r w.1 w.2 q.1 q.2)
            c w.1 w.2) w.1 w.2 (some c)) w q c rfl hvw0
        have htc : t ≠ c := fun hcon => hct hcon.symm
        have htq3 : ((replaceEntity (setRef (copyFields r w.1 w.2 q.1 q.2)
            c w.1 w.2) w.1 w.2 (some c)).backRef t).getD ([], 0) = lq := by
          rw [hK3 t, if_neg htc, hlqb2]
          rfl
        have hwlq : w ≠ lq := fun hcon => hlqw hcon.symm
        obtain ⟨hP1, hP2, hP3, hP4, hP5, hP6⟩ :=
          slot_place (replaceEntity (setRef (copyFields r w.1 w.2 q.1 q.2)
              c w.1 w.2) w.1 w.2 (some c))
            (replaceEntity (setRef (copyFields (replaceEntity
              (replaceEntity (setRef (copyFields r w.1 w.2 q.1 q.2)
                c w.1 w.2) w.1 w.2 (some c)) lq.1 lq.2 none)
              q.1 q.2 lq.1 lq.2) t q.1 q.2) q.1 q.2 (some t))
            q lq t rfl (hK5 q hvq0) (hK5 lq hvlq0)
            (fun hcon => hlqq hcon.symm)
        have hout : sortScan r w ch ((q, t) :: rest) =
            ((sortScan (replaceEntity (setRef (copyFields (replaceEntity
                (replaceEntity (setRef (copyFields r w.1 w.2 q.1 q.2)
                  c w.1 w.2) w.1 w.2 (some c)) lq.1 lq.2 none)
                q.1 q.2 lq.1 lq.2) t q.1 q.2) q.1 q.2 (some t)) lq true rest).1,
              [Ev.moved c w.1 w.2] ++ [Ev.vacate lq.1 lq.2,
                Ev.moved t q.1 q.2, Ev.hook t]
                ++ (sortScan (replaceEntity (setRef (copyFields (replaceEntity
                  (replaceEntity (setRef (copyFields r w.1 w.2 q.1 q.2)
                    c w.1 w.2) w.1 w.2 (some c)) lq.1 lq.2 none)
                  q.1 q.2 lq.1 lq.2) t q.1 q.2) q.1 q.2 (some t))
                  lq true rest).2.1,
              (sortScan (replaceEntity (setRef (copyFields (replaceEntity
                (replaceEntity (setRef (copyFields r w.1 w.2 q.1 q.2)
                  c w.1 w.2) w.1 w.2 (some c)) lq.1 lq.2 none)
                q.1 q.2 lq.1 lq.2) t q.1 q.2) q.1 q.2 (some t))
                lq true rest).2.2) := by
          simp only [sortScan]
          rw [if_neg hmatch]
          simp only [hocc, htq3]
        have hslot7 : ∀ p : Pos, p ≠ q →
            slotAt (replaceEntity (setRef (copyFields (replaceEntity
              (replaceEntity (setRef (copyFields r w.1 w.2 q.1 q.2)
                c w.1 w.2) w.1 w.2 (some c)) lq.1 lq.2 none)
              q.1 q.2 lq.1 lq.2) t q.1 q.2) q.1 q.2 (some t)) p.1 p.2 =
            (if p = lq then none else if p = w then some c
              else slotAt r p.1 p.2) := by
          intro p hpq
          by_cases h1 : p = lq
          · rw [if_pos h1, h1]
            exact hP2
          · rw [if_neg h1]
            by_cases h2 : p = w
            · rw [if_pos h2, h2]
              rw [hP3 w hwq hwlq]
              exact hK1
            · rw [if_neg h2, hP3 p hpq h1, hK2 p h2]
        have hInv' : ScanInv v (replaceEntity (setRef (copyFields (replaceEntity
            (replaceEntity (setRef (copyFields r w.1 w.2 q.1 q.2)
              c w.1 w.2) w.1 w.2 (some c)) lq.1 lq.2 none)
            q.1 q.2 lq.1 lq.2) t q.1 q.2) q.1 q.2 (some t)) lq rest := by
          refine ⟨?_, hP2, hlq_rest, ?_, ?_, ?_, hI5r, hI6ar, hI6br⟩
          · intro p hp
            exact hP6 p (hK5 p (hI0 p (hreg_sub p hp)))
          · intro x hx
            have hxt : x.2 ≠ t := by
              intro hcon
              apply htnotin2
              rw [← hcon]
              exact List.mem_map_of_mem Prod.snd hx
            by_cases hxc : x.2 = c
            · -- the parked occupant now sits at the old cursor
              have hw_rest : w ∈ rest.map Prod.fst ++ [v] := by
                rcases hreg_split w hI1b with hcon | h
                · exact absurd hcon hwq
                · exact h
              refine ⟨w, hw_rest, hwlq, ?_, ?_⟩
              · rw [hslot7 w hwq, if_neg hwlq, if_pos (rfl : (w : Pos) = w)]
                rw [hxc]
              · rw [hP4 x.2, if_neg hxt, hK3 x.2, if_pos hxc]
            · obtain ⟨lx, hm, hnw, hs, hb⟩ := hI2 x (List.mem_cons_of_mem _ hx)
              have hs2 : slotAt r lx.1 lx.2 = some x.2 := hs
              have hb2 : r.backRef x.2 = some lx := hb
              have hlx_q : lx ≠ q := by
                intro hcon
                rw [hcon, hocc] at hs2
                exact hxc (Option.some.inj hs2).symm
              have hlx_lq : lx ≠ lq := by
                intro hcon
                rw [hcon, hlqs2] at hs2
                exact hxt (Option.some.inj hs2).symm
              refine ⟨lx, ?_, hlx_lq, ?_, ?_⟩
              · rcases hreg_split lx hm with hcon | h
                · exact absurd hcon hlx_q
                · exact h
              · rw [hslot7 lx hlx_q, if_neg hlx_lq, if_neg hnw]
                exact hs2
              · rw [hP4 x.2, if_neg hxt, hK3 x.2, if_neg hxc]
                exact hb2
          · intro p hp hpl
            have hpq : p ≠ q := by
              intro hcon
              rw [hcon] at hp
              exact hq_notr hp
            by_cases hpw : p = w
            · refine ⟨c, ?_, hcrest⟩
              rw [hslot7 p hpq, if_neg hpl, if_pos hpw]
            · obtain ⟨c2, hc2, hc2m⟩ := hI3 p (hreg_sub p hp) hpw
              refine ⟨c2, ?_, ?_⟩
              · rw [hslot7 p hpq, if_neg hpl, if_neg hpw]
                exact hc2
              · rw [List.map_cons] at hc2m
                rcases List.mem_cons.mp hc2m with hcon | h
                · exfalso
                  have hplq : p = lq := hI4 p (hreg_sub p hp) lq hlqm c2 hc2
                    (by rw [hcon]; exact hlqs2)
                  exact hpl hplq
                · exact h
          · intro q1 h1 q2 h2 c0 hc1 hc2
            have h1q : q1 ≠ q := by
              intro hcon
              rw [hcon] at h1
              exact hq_notr h1
            have h2q : q2 ≠ q := by
              intro hcon
              rw [hcon] at h2
              exact hq_notr h2
            rw [hslot7 q1 h1q] at hc1
            rw [hslot7 q2 h2q] at hc2
            by_cases h1lq : q1 = lq
            · rw [if_pos h1lq] at hc1
              exact absurd hc1 (by simp)
            · rw [if_neg h1lq] at hc1
              by_cases h2lq : q2 = lq
              · rw [if_pos h2lq] at hc2
                exact absurd hc2 (by simp)
              · rw [if_neg h2lq] at hc2
                by_cases h1w : q1 = w
                · rw [if_pos h1w] at hc1
                  by_cases h2w : q2 = w
                  · rw [h1w, h2w]
                  · rw [if_neg h2w] at hc2
                    exfalso
                    have hc0 : c0 = c := (Option.some.inj hc1).symm
                    rw [hc0] at hc2
                    have hq2q : q2 = q := hI4 q2 (hreg_sub q2 h2) q hqreg c
                      hc2 hocc
                    exact h2q hq2q
                · rw [if_neg h1w] at hc1
                  by_cases h2w : q2 = w
                  · rw [if_pos h2w] at hc2
                    exfalso
                    have hc0 : c0 = c := (Option.some.inj hc2).symm
                    rw [hc0] at hc1
                    have hq1q : q1 = q := hI4 q1 (hreg_sub q1 h1) q hqreg c
                      hc1 hocc
                    exact h1q hq1q
                  · rw [if_neg h2w] at hc2
                    exact hI4 q1 (hreg_sub q1 h1) q2 (hreg_sub q2 h2) c0
                      hc1 hc2
        obtain ⟨hC1, hC2, hC3, hC4, hC5⟩ := ih _ lq true hInv'
        rw [hout]
        refine ⟨?_, hC2, ?_, ?_, ?_⟩
        · intro x hx
          rcases List.mem_cons.mp hx with hxq | hxr
          · subst hxq
            constructor
            · show slotAt _ q.1 q.2 = some t
              rw [hC3 q hq_notr]
              exact hP1
            · show Repo.backRef _ t = some q
              rw [hC4 t htnotin2, hP4 t, if_pos rfl]
          · exact hC1 x hxr
        · intro p hp
          have hpr : p ∉ rest.map Prod.fst ++ [v] := by
            intro hcon
            exact hp (hreg_sub p hcon)
          have hpq : p ≠ q := by
            intro hcon
            rw [hcon] at hp
            exact hp hqreg
          have hplq : p ≠ lq := by
            intro hcon
            apply hp
            rw [hcon]
            exact hlqm
          have hpw : p ≠ w := by
            intro hcon
            apply hp
            rw [hcon]
            exact hI1b
          rw [hC3 p hpr, hslot7 p hpq, if_neg hplq, if_neg hpw]
        · intro x hx
          have hxr : x ∉ rest.map Prod.snd := by
            intro hcon
            apply hx
            rw [List.map_cons]
            exact List.mem_cons_of_mem _ hcon
          have hxt : x ≠ t := by
            intro hcon
            apply hx
            rw [hcon, List.map_cons]
            exact List.mem_cons_self _ _
          have hxc : x ≠ c := by
            intro hcon
            rw [hcon] at hx
            exact hx (by rw [List.map_cons]; exact List.mem_cons_of_mem _ hcrest)
          rw [hC4 x hxr, hP4 x, if_neg hxt, hK3 x, if_neg hxc]
        · refine sameSkel_trans _ _ _ ?_ hC5
          exact sameSkel_trans _ _ _ hK4 hP5

/-! ## Skeleton and family-position transfer -/

theorem slotAt_eq (r : Repo) (k : List Nat) (b : Bucket) (i : Nat)
    (h : getB r k = some b) : slotAt r k i = b.slots.getD i none := by
  simp only [slotAt, h]

theorem flatMap_map_eq {α β γ : Type} (s : α → β) (g : β → List γ) :
    ∀ l : List α, (l.map s).flatMap g = l.flatMap (fun a => g (s a)) := by
  intro l
  induction l with
  | nil => rfl
  | cons a l ih =>
    rw [List.map_cons, List.flatMap_cons, List.flatMap_cons, ih]

theorem mem_zip_of_mem_left {α β : Type} :
    ∀ (l1 : List α) (l2 : List β), l1.length = l2.length →
      ∀ a ∈ l1, ∃ b, (a, b) ∈ l1.zip l2 := by
  intro l1
  induction l1 with
  | nil => intro l2 _ a ha; simp at ha
  | cons x xs ih =>
    intro l2 hlen a ha
    cases l2 with
    | nil => simp at hlen
    | cons y ys =>
      rcases List.mem_cons.mp ha with rfl | ha'
      · exact ⟨y, List.mem_cons_self _ _⟩
      · obtain ⟨b, hb⟩ := ih ys (by simpa using hlen) a ha'
        exact ⟨b, List.mem_cons_of_mem _ hb⟩

theorem map_eq_of_zip {α β : Type} (f : α → β) :
    ∀ (l1 : List α) (l2 : List β), l1.length = l2.length →
      (∀ x ∈ l1.zip l2, f x.1 = x.2) → l1.map f = l2 := by
  intro l1
  induction l1 with
  | nil =>
    intro l2 hlen _
    cases l2 with
    | nil => rfl
    | cons y ys => simp at hlen
  | cons a l ih =>
    intro l2 hlen hall
    cases l2 with
    | nil => simp at hlen
    | cons b l2' =>
      rw [List.map_cons]
      have h1 : f a = b := hall (a, b) (List.mem_cons_self _ _)
      rw [h1, ih l2' (by simpa using hlen)
        (fun x hx => hall x (List.mem_cons_of_mem _ hx))]

theorem set_getElem_self {α : Type} :
    ∀ (l : List α) (i : Nat) (a : α), l[i]? = some a → l.set i a = l
  | [], i, a, h => by simp at h
  | x :: xs, 0, a, h => by
    have hxa : x = a := by simpa using h
    show a :: xs = x :: xs
    rw [hxa]
  | x :: xs, i + 1, a, h => by
    show x :: xs.set i a = x :: xs
    rw [set_getElem_self xs i a (by simpa using h)]

theorem updB_eq_self (r : Repo) (k : List Nat) (f : Bucket → Bucket)
    (h : ∀ b ∈ r.buckets, b.key = k → f b = b) : updB r k f = r := by
  have hmap : r.buckets.map (fun b => if b.key = k then f b else b)
      = r.buckets := by
    conv_rhs => rw [← List.map_id r.buckets]
    apply List.map_congr_left
    intro b hb
    by_cases hbk : b.key = k
    · rw [if_pos hbk, h b hb hbk]
      rfl
    · rw [if_neg hbk]
      rfl
  show { r with buckets := _ } = r
  rw [hmap]

theorem skel_key (m b : Bucket) (h : skel m = skel b) : m.key = b.key :=
  congrArg (fun s => s.1) h

theorem skel_parts (m b : Bucket) (h : skel m = skel b) : m.parts = b.parts :=
  congrArg (fun s => s.2.1) h

theorem skel_fam (m b : Bucket) (h : skel m = skel b) : m.fam = b.fam :=
  congrArg (fun s => s.2.2.1) h

theorem skel_cap (m b : Bucket) (h : skel m = skel b) : m.cap = b.cap :=
  congrArg (fun s => s.2.2.2.1) h

theorem skel_size (m b : Bucket) (h : skel m = skel b) : m.size = b.size :=
  congrArg (fun s => s.2.2.2.2.1) h

theorem skel_slen (m b : Bucket) (h : skel m = skel b) :
    m.slots.length = b.slots.length :=
  congrArg (fun s => s.2.2.2.2.2.1) h

theorem skel_dlen (m b : Bucket) (h : skel m = skel b) :
    m.data.length = b.data.length :=
  congrArg (fun s => s.2.2.2.2.2.2) h

theorem keys_of_skel (l1 l2 : List Bucket)
    (h : l1.map skel = l2.map skel) :
    l1.map Bucket.key = l2.map Bucket.key := by
  have h2 := congrArg (List.map (fun s :
    List Nat × List Nat × Nat × Nat × Nat × Nat × Nat => s.1)) h
  rw [List.map_map, List.map_map] at h2
  exact h2

theorem chainKeys_transfer (l1 l2 : List Bucket)
    (hk : l1.map Bucket.key = l2.map Bucket.key)
    (hc : List.Chain' (fun a b => keyLess a.key b.key = true) l1) :
    List.Chain' (fun a b => keyLess a.key b.key = true) l2 := by
  have h1 : List.Chain' (fun a b => keyLess a b = true) (l1.map Bucket.key) :=
    (List.chain'_map _).mpr hc
  rw [hk] at h1
  exact (List.chain'_map _).mp h1

theorem famBuckets_map_skel (ra rb : Repo) (p : List Nat)
    (h : ra.buckets.map skel = rb.buckets.map skel) :
    (famBuckets ra p).map skel = (famBuckets rb p).map skel := by
  have hpred : ∀ (l : List Bucket),
      (l.filter (fun b => b.parts == p)).map skel
        = (l.map skel).filter (fun s => s.2.1 == p) := by
    intro l
    induction l with
    | nil => rfl
    | cons b bs ih =>
      by_cases hbp : (b.parts == p) = true
      · rw [@List.filter_cons_of_pos _ (fun b2 : Bucket => b2.parts == p) b bs hbp,
          List.map_cons, List.map_cons,
          @List.filter_cons_of_pos _
            (fun s : List Nat × List Nat × Nat × Nat × Nat × Nat × Nat =>
              s.2.1 == p) (skel b) (bs.map skel) hbp, ih]
      · rw [@List.filter_cons_of_neg _ (fun b2 : Bucket => b2.parts == p) b bs hbp,
          List.map_cons,
          @List.filter_cons_of_neg _
            (fun s : List Nat × List Nat × Nat × Nat × Nat × Nat × Nat =>
              s.2.1 == p) (skel b) (bs.map skel) hbp, ih]
  show (ra.buckets.filter _).map skel = (rb.buckets.filter _).map skel
  rw [hpred ra.buckets, hpred rb.buckets, h]

theorem famPositions_of_skel (ra rb : Repo) (p : List Nat)
    (h : ra.buckets.map skel = rb.buckets.map skel) :
    famPositions ra p = famPositions rb p := by
  have hb := famBuckets_map_skel ra rb p h
  have hfac : ∀ (l : List Bucket), l.flatMap bucketPositions
      = (l.map skel).flatMap (fun s => (List.range s.2.2.2.2.1).map
        (fun i => (s.1, i))) := by
    intro l
    rw [flatMap_map_eq]
    rfl
  show (famBuckets ra p).flatMap bucketPositions
    = (famBuckets rb p).flatMap bucketPositions
  rw [hfac, hfac, hb]

theorem lastOfFamily_map_skel (ra rb : Repo) (p : List Nat)
    (h : ra.buckets.map skel = rb.buckets.map skel) :
    (lastOfFamily ra p).map skel = (lastOfFamily rb p).map skel := by
  show (famBuckets ra p).getLast?.map skel = (famBuckets rb p).getLast?.map skel
  rw [← List.getLast?_map, ← List.getLast?_map, famBuckets_map_skel ra rb p h]

theorem mem_skel_corr (l1 l2 : List Bucket)
    (h : l1.map skel = l2.map skel) (m : Bucket) (hm : m ∈ l1) :
    ∃ b ∈ l2, skel m = skel b := by
  have h1 : skel m ∈ l1.map skel := List.mem_map_of_mem _ hm
  rw [h] at h1
  obtain ⟨b, hb, he⟩ := List.mem_map.mp h1
  exact ⟨b, hb, he.symm⟩

theorem nodup_flatMap_positions :
    ∀ (l : List Bucket),
      List.Pairwise (fun a b => keyLess a.key b.key = true) l →
      (l.flatMap bucketPositions).Nodup := by
  intro l
  induction l with
  | nil => intro _; exact List.nodup_nil
  | cons b bs ih =>
    intro hpw
    rw [List.flatMap_cons]
    refine List.Nodup.append ?_ (ih (List.pairwise_cons.mp hpw).2) ?_
    · refine List.Nodup.map ?_ (List.nodup_range _)
      intro i j hij
      simpa using congrArg Prod.snd hij
    · intro q0 h1 h2
      obtain ⟨i, _, hq1⟩ := List.mem_map.mp h1
      obtain ⟨b2, hb2, hq2⟩ := List.mem_flatMap.mp h2
      obtain ⟨j, _, hq3⟩ := List.mem_map.mp hq2
      have hk1 : q0.1 = b.key := by rw [← hq1]
      have hk2 : q0.1 = b2.key := by rw [← hq3]
      have hlt := (List.pairwise_cons.mp hpw).1 b2 hb2
      rw [← hk1, hk2, keyLess_irrefl] at hlt
      exact Bool.false_ne_true hlt

theorem mem_famPositions (r : Repo) (p : List Nat) (q0 : Pos)
    (h : q0 ∈ famPositions r p) :
    ∃ b ∈ famBuckets r p, q0.1 = b.key ∧ q0.2 < b.size := by
  obtain ⟨b, hb, hq⟩ := List.mem_flatMap.mp h
  obtain ⟨i, hi, hqi⟩ := List.mem_map.mp hq
  refine ⟨b, hb, ?_, ?_⟩
  · rw [← hqi]
  · have : q0.2 = i := by rw [← hqi]
    rw [this]
    exact List.mem_range.mp hi

theorem mem_famPositions_of (r : Repo) (p : List Nat) (b : Bucket)
    (hb : b ∈ famBuckets r p) (i : Nat) (hi : i < b.size) :
    ((b.key, i) : Pos) ∈ famPositions r p := by
  refine List.mem_flatMap.mpr ⟨b, hb, ?_⟩
  exact List.mem_map.mpr ⟨i, List.mem_range.mpr hi, rfl⟩

theorem famBuckets_nonempty_last (r : Repo) (p : List Nat) (b : Bucket)
    (hb : b ∈ famBuckets r p) : ∃ L, lastOfFamily r p = some L := by
  cases hl : lastOfFamily r p with
  | none =>
    have : famBuckets r p = [] := List.getLast?_eq_none_iff.mp hl
    rw [this] at hb
    exact absurd hb (by simp)
  | some L => exact ⟨L, rfl⟩

/-- In a well-formed state every family storage position holds a live entity
    whose back-reference points exactly there. -/
theorem famPositions_live (r : Repo) (p : List Nat) (hWF : WF r) :
    ∀ q0 ∈ famPositions r p, ∃ x,
      slotAt r q0.1 q0.2 = some x ∧ r.backRef x = some q0 := by
  have hpw := (chainKeys_iff_pairwise r.buckets).mp hWF.2.1
  intro q0 h
  obtain ⟨b, hb, h1, h2⟩ := mem_famPositions r p q0 h
  obtain ⟨hbmem, _⟩ := (mem_famBuckets r p b).mp hb
  obtain ⟨_, _, _, _, c5, _, _, c8⟩ := hWF.2.2 b hbmem
  have hgb : getB r q0.1 = some b := by
    rw [h1]
    exact getB_of_mem r b hpw hbmem
  have hseq : slotAt r q0.1 q0.2 = b.slots.getD q0.2 none :=
    slotAt_eq r q0.1 b q0.2 hgb
  obtain ⟨x, hx⟩ := Option.isSome_iff_exists.mp (c5 q0.2 h2)
  refine ⟨x, by rw [hseq, hx], ?_⟩
  have hb8 := c8 q0.2 h2
  rw [hx] at hb8
  have hq0eq : (b.key, q0.2) = q0 := by
    rw [← h1]
  simpa [hq0eq] using hb8

/-- The zip of a family's storage positions against its stored entity
    sequence pairs each position with the entity it currently holds. -/
theorem zip_famEntities (r : Repo) (p : List Nat) (hWF : WF r) :
    ∀ x ∈ (famPositions r p).zip (famEntities r p),
      slotAt r x.1.1 x.1.2 = some x.2 := by
  have hzip : (famPositions r p).zip (famEntities r p)
      = (famPositions r p).map
        (fun a => (a, (slotAt r a.1 a.2).getD 0)) := by
    conv_lhs => rw [← List.map_id (famPositions r p)]
    exact List.zip_map' id (fun a => (slotAt r a.1 a.2).getD 0)
      (famPositions r p)
  intro x hx
  rw [hzip] at hx
  obtain ⟨q0, hq0, hxe⟩ := List.mem_map.mp hx
  rw [← hxe]
  obtain ⟨y, hy, _⟩ := famPositions_live r p hWF q0 hq0
  show slotAt r q0.1 q0.2 = some ((slotAt r q0.1 q0.2).getD 0)
  rw [hy]
  rfl

/-- When every scan position already holds its target, the compaction scan
    with an unset change flag moves nothing: same state, empty trace. -/
theorem sortScan_noop :
    ∀ (Z : List (Pos × EntityId)) (r : Repo) (w : Pos),
      (∀ x ∈ Z, slotAt r x.1.1 x.1.2 = some x.2) →
      sortScan r w false Z = (r, [], false) := by
  intro Z
  induction Z with
  | nil => intro r w _; rfl
  | cons hd rest ih =>
    obtain ⟨q, t⟩ := hd
    intro r w hall
    have hh : slotAt r q.1 q.2 = some t := hall (q, t) (List.mem_cons_self _ _)
    have ihr := ih r w (fun x hx => hall x (List.mem_cons_of_mem _ hx))
    simp only [sortScan]
    rw [if_pos hh, ihr]
    rfl

/-- Core correctness of one compaction pass: from a well-formed state with a
    dead in-range spare slot `v` inside the family, scanning the family's
    storage positions against any permutation `TS` of its live entities
    leaves a well-formed state with unchanged skeletons whose family reads
    exactly `TS`, other families unchanged, and the spare slot empty. -/
theorem scan_core (r1 : Repo) (p : List Nat) (v : Pos) (Bv : Bucket)
    (TS : List EntityId)
    (hWF1 : WF r1)
    (hBv : getB r1 v.1 = some Bv) (hBvp : Bv.parts = p)
    (hdead : Bv.size ≤ v.2) (hvcap : v.2 < Bv.cap)
    (hTSperm : TS.Perm (famEntities r1 p)) :
    WF (sortScan r1 v false ((famPositions r1 p).zip TS)).1 ∧
    sameSkel r1 (sortScan r1 v false ((famPositions r1 p).zip TS)).1 ∧
    famEntities (sortScan r1 v false ((famPositions r1 p).zip TS)).1 p = TS ∧
    (∀ p2, p2 ≠ p →
      famEntities (sortScan r1 v false ((famPositions r1 p).zip TS)).1 p2
        = famEntities r1 p2) ∧
    slotAt (sortScan r1 v false ((famPositions r1 p).zip TS)).1 v.1 v.2
      = none := by
  have hpw := (chainKeys_iff_pairwise r1.buckets).mp hWF1.2.1
  have hBvmem : Bv ∈ r1.buckets := (getB_some r1 v.1 Bv hBv).1
  have hBvkey : Bv.key = v.1 := (getB_some r1 v.1 Bv hBv).2
  obtain ⟨bc1, bc2, bc3, bc4, bc5, bc6, bc7, bc8⟩ := hWF1.2.2 Bv hBvmem
  have hlen : (famPositions r1 p).length = TS.length := by
    rw [hTSperm.length_eq]
    exact (List.length_map _ _).symm
  have hfst : ((famPositions r1 p).zip TS).map Prod.fst = famPositions r1 p :=
    List.map_fst_zip _ _ (le_of_eq hlen)
  have hsnd : ((famPositions r1 p).zip TS).map Prod.snd = TS :=
    List.map_snd_zip _ _ (le_of_eq hlen.symm)
  have hq0 : ∀ q0 ∈ famPositions r1 p, ∃ b, b ∈ famBuckets r1 p ∧
      q0.1 = b.key ∧ q0.2 < b.size := by
    intro q0 h
    obtain ⟨b, hb, h1, h2⟩ := mem_famPositions r1 p q0 h
    exact ⟨b, hb, h1, h2⟩
  have hvalid : ∀ q0 ∈ famPositions r1 p, ∃ b, getB r1 q0.1 = some b ∧
      q0.2 < b.slots.length := by
    intro q0 h
    obtain ⟨b, hb, h1, h2⟩ := hq0 q0 h
    obtain ⟨hbmem, _⟩ := (mem_famBuckets r1 p b).mp hb
    obtain ⟨c1, c2, c3, _, _, _, _, _⟩ := hWF1.2.2 b hbmem
    refine ⟨b, ?_, ?_⟩
    · rw [h1]
      exact getB_of_mem r1 b hpw hbmem
    · omega
  have hlive : ∀ q0 ∈ famPositions r1 p, ∃ x,
      slotAt r1 q0.1 q0.2 = some x ∧ r1.backRef x = some q0 := by
    intro q0 h
    obtain ⟨b, hb, h1, h2⟩ := hq0 q0 h
    obtain ⟨hbmem, _⟩ := (mem_famBuckets r1 p b).mp hb
    obtain ⟨_, _, _, _, c5, _, _, c8⟩ := hWF1.2.2 b hbmem
    have hgb : getB r1 q0.1 = some b := by
      rw [h1]
      exact getB_of_mem r1 b hpw hbmem
    have hseq : slotAt r1 q0.1 q0.2 = b.slots.getD q0.2 none :=
      slotAt_eq r1 q0.1 b q0.2 hgb
    obtain ⟨x, hx⟩ := Option.isSome_iff_exists.mp (c5 q0.2 h2)
    refine ⟨x, by rw [hseq, hx], ?_⟩
    have hb8 := c8 q0.2 h2
    rw [hx] at hb8
    have hq0eq : (b.key, q0.2) = q0 := by
      rw [← h1]
    simpa [hq0eq] using hb8
  have hslotv : slotAt r1 v.1 v.2 = none := by
    rw [slotAt_eq r1 v.1 Bv v.2 hBv]
    exact bc6 v.2 (by omega) hdead
  have hvnot : v ∉ famPositions r1 p := by
    intro hc
    obtain ⟨b, hb, h1, h2⟩ := hq0 v hc
    obtain ⟨hbmem, _⟩ := (mem_famBuckets r1 p b).mp hb
    have hgb : getB r1 v.1 = some b := by
      rw [h1]
      exact getB_of_mem r1 b hpw hbmem
    rw [hBv] at hgb
    have hbBv : b = Bv := by simpa using hgb.symm
    rw [hbBv] at h2
    omega
  have hmemE : ∀ x ∈ famEntities r1 p, ∃ q0, q0 ∈ famPositions r1 p ∧
      slotAt r1 q0.1 q0.2 = some x ∧ r1.backRef x = some q0 := by
    intro x hx
    obtain ⟨q0, hq0m, hocc⟩ := List.mem_map.mp hx
    obtain ⟨y, hy, hby⟩ := hlive q0 hq0m
    have hxy : y = x := by
      rw [← hocc, hy]
      rfl
    rw [← hxy]
    exact ⟨q0, hq0m, hy, hby⟩
  have hoccE : ∀ q0 ∈ famPositions r1 p, ∀ x,
      slotAt r1 q0.1 q0.2 = some x → x ∈ famEntities r1 p := by
    intro q0 hq0m x hx
    have : x = (slotAt r1 q0.1 q0.2).getD 0 := by
      rw [hx]
      rfl
    rw [this]
    exact List.mem_map_of_mem _ hq0m
  have hnodupP : (famPositions r1 p).Nodup :=
    nodup_flatMap_positions (famBuckets r1 p) (hpw.filter _)
  have hnodupE : (famEntities r1 p).Nodup := by
    refine (List.nodup_map_iff_inj_on hnodupP).mpr ?_
    intro q1 h1 q2 h2 heq
    obtain ⟨x1, hx1, hb1⟩ := hlive q1 h1
    obtain ⟨x2, hx2, hb2⟩ := hlive q2 h2
    rw [hx1, hx2] at heq
    have hx12 : x1 = x2 := by simpa using heq
    rw [hx12, hb2] at hb1
    have h21 : q2 = q1 := by simpa using hb1
    exact h21.symm
  have hnodupTS : TS.Nodup := hTSperm.nodup_iff.mpr hnodupE
  have hInv : ScanInv v r1 v ((famPositions r1 p).zip TS) := by
    refine ⟨?_, hslotv, ?_, ?_, ?_, ?_, ?_, ?_, ?_⟩
    · intro q hq
      rw [hfst] at hq
      rcases List.mem_append.mp hq with h | h
      · exact hvalid q h
      · have hqv : q = v := by simpa using h
        rw [hqv]
        refine ⟨Bv, hBv, ?_⟩
        omega
    · rw [hfst]
      exact List.mem_append.mpr (Or.inr (by simp))
    · intro x hx
      have hx2 : x.2 ∈ TS := by
        have := List.mem_map_of_mem Prod.snd hx
        rwa [hsnd] at this
      obtain ⟨q0, hq0m, hs, hb⟩ := hmemE x.2 (hTSperm.mem_iff.mp hx2)
      refine ⟨q0, ?_, ?_, hs, hb⟩
      · rw [hfst]
        exact List.mem_append.mpr (Or.inl hq0m)
      · intro hc
        rw [hc] at hq0m
        exact hvnot hq0m
    · intro q hq hqv
      rw [hfst] at hq
      have hqm : q ∈ famPositions r1 p := by
        rcases List.mem_append.mp hq with h | h
        · exact h
        · exact absurd (by simpa using h) hqv
      obtain ⟨x, hx, _⟩ := hlive q hqm
      refine ⟨x, hx, ?_⟩
      rw [hsnd]
      exact hTSperm.mem_iff.mpr (hoccE q hqm x hx)
    · intro q1 hq1 q2 hq2 c hc1 hc2
      rw [hfst] at hq1 hq2
      have hm1 : q1 ∈ famPositions r1 p := by
        rcases List.mem_append.mp hq1 with h | h
        · exact h
        · exfalso
          have hq1v : q1 = v := by simpa using h
          rw [hq1v, hslotv] at hc1
          exact Option.noConfusion hc1
      have hm2 : q2 ∈ famPositions r1 p := by
        rcases List.mem_append.mp hq2 with h | h
        · exact h
        · exfalso
          have hq2v : q2 = v := by simpa using h
          rw [hq2v, hslotv] at hc2
          exact Option.noConfusion hc2
      obtain ⟨x1, hx1, hb1⟩ := hlive q1 hm1
      obtain ⟨x2, hx2, hb2⟩ := hlive q2 hm2
      rw [hx1] at hc1
      rw [hx2] at hc2
      have h1c : x1 = c := by simpa using hc1
      have h2c : x2 = c := by simpa using hc2
      rw [h1c] at hb1
      rw [h2c] at hb2
      rw [hb2] at hb1
      have h21 : q2 = q1 := by simpa using hb1
      exact h21.symm
    · rw [hsnd]
      exact hnodupTS
    · rw [hfst]
      exact hnodupP
    · rw [hfst]
      exact hvnot
  obtain ⟨hC1, hC2, hC3, hC4, hC5⟩ :=
    sortScan_total v ((famPositions r1 p).zip TS) r1 v false hInv
  rw [hfst] at hC3
  rw [hsnd] at hC4
  have hchOut : List.Chain' (fun a b => keyLess a.key b.key = true)
      (sortScan r1 v false ((famPositions r1 p).zip TS)).1.buckets :=
    chainKeys_transfer r1.buckets _ (keys_of_skel _ _ hC5.2.symm) hWF1.2.1
  have hpwOut := (chainKeys_iff_pairwise _).mp hchOut
  have hposP : famPositions (sortScan r1 v false
      ((famPositions r1 p).zip TS)).1 p = famPositions r1 p :=
    famPositions_of_skel _ r1 p hC5.2
  refine ⟨?_, ⟨hC5.1, hC5.2⟩, ?_, ?_, hC2⟩
  · -- well-formedness of the post-scan state
    refine ⟨by rw [hC5.1]; exact hWF1.1, hchOut, ?_⟩
    intro m hm
    obtain ⟨b, hbmem, hskel⟩ := mem_skel_corr _ r1.buckets hC5.2 m hm
    have hkey := skel_key m b hskel
    have hparts := skel_parts m b hskel
    have hcap := skel_cap m b hskel
    have hsize := skel_size m b hskel
    have hslen := skel_slen m b hskel
    have hdlen := skel_dlen m b hskel
    obtain ⟨c1, c2, c3, c4, c5, c6, c7, c8⟩ := hWF1.2.2 b hbmem
    have hgm : getB (sortScan r1 v false ((famPositions r1 p).zip TS)).1 m.key
        = some m := getB_of_mem _ m hpwOut hm
    have hslotm : ∀ j, slotAt (sortScan r1 v false
        ((famPositions r1 p).zip TS)).1 m.key j = m.slots.getD j none :=
      fun j => slotAt_eq _ m.key m j hgm
    have hgb : getB r1 b.key = some b := getB_of_mem r1 b hpw hbmem
    have hslotb : ∀ j, slotAt r1 b.key j = b.slots.getD j none :=
      fun j => slotAt_eq r1 b.key b j hgb
    have hpack : lastOfFamily (sortScan r1 v false
        ((famPositions r1 p).zip TS)).1 m.parts ≠ some m → m.size = m.cap := by
      intro hne
      by_cases hb7 : lastOfFamily r1 b.parts = some b
      · exfalso
        have hmapl := lastOfFamily_map_skel _ r1 m.parts hC5.2
        rw [hparts, hb7] at hmapl
        cases hlo : lastOfFamily (sortScan r1 v false
            ((famPositions r1 p).zip TS)).1 m.parts with
        | none =>
          rw [hparts] at hlo
          rw [hlo] at hmapl
          exact Option.noConfusion hmapl
        | some m2 =>
          rw [hparts] at hlo
          rw [hlo] at hmapl
          have hsk2 : skel m2 = skel b := by simpa using hmapl
          have hm2mem : m2 ∈ (sortScan r1 v false
              ((famPositions r1 p).zip TS)).1.buckets :=
            (lastOfFamily_parts _ m.parts m2 (by rw [hparts]; exact hlo)).1
          have hm2key : m2.key = m.key := by
            rw [skel_key m2 b hsk2, hkey]
          have hm2m : m2 = m := keys_unique _ hpwOut m2 hm2mem m hm hm2key
          rw [← hparts] at hlo
          rw [hm2m] at hlo
          exact hne hlo
      · have := c7 hb7
        omega
    by_cases hbp : b.parts = p
    · -- the scanned family
      have hbfam : b ∈ famBuckets r1 p := (mem_famBuckets r1 p b).mpr ⟨hbmem, hbp⟩
      refine ⟨by rw [hcap, c1, ← hC5.1], by omega, by omega, by omega,
        ?_, ?_, hpack, ?_⟩
      · intro j hj
        have hjb : j < b.size := by omega
        have hpmem : ((b.key, j) : Pos) ∈ famPositions r1 p :=
          mem_famPositions_of r1 p b hbfam j hjb
        obtain ⟨t0, ht0⟩ := mem_zip_of_mem_left _ TS hlen (b.key, j) hpmem
        have hres := hC1 ((b.key, j), t0) ht0
        have hsl : slotAt (sortScan r1 v false
            ((famPositions r1 p).zip TS)).1 m.key j = some t0 := by
          rw [hkey]
          exact hres.1
        rw [hslotm j] at hsl
        rw [hsl]
        rfl
      · intro j hjc hjs
        by_cases hjv : ((m.key, j) : Pos) = v
        · have hv1 : v.1 = m.key := by rw [← hjv]
          have hv2 : v.2 = j := by rw [← hjv]
          have hc2' := hC2
          rw [hv1, hv2] at hc2'
          rw [hslotm j] at hc2'
          exact hc2'
        · have hnotP : ((m.key, j) : Pos) ∉ famPositions r1 p := by
            intro hc
            obtain ⟨b2, hb2, h1, h2⟩ := hq0 (m.key, j) hc
            have hb2mem := ((mem_famBuckets r1 p b2).mp hb2).1
            have hb2b : b2 = b := keys_unique r1.buckets hpw b2 hb2mem b hbmem
              (by rw [← h1, hkey])
            rw [hb2b] at h2
            have : j < b.size := h2
            omega
          have hfr := hC3 (m.key, j) (by
            intro hc
            rcases List.mem_append.mp hc with h | h
            · exact hnotP h
            · exact hjv (by simpa using h))
          rw [hslotm j] at hfr
          rw [hfr, hkey, hslotb j]
          exact c6 j (by omega) (by omega)
      · intro j hj
        have hjb : j < b.size := by omega
        have hpmem : ((b.key, j) : Pos) ∈ famPositions r1 p :=
          mem_famPositions_of r1 p b hbfam j hjb
        obtain ⟨t0, ht0⟩ := mem_zip_of_mem_left _ TS hlen (b.key, j) hpmem
        have hres := hC1 ((b.key, j), t0) ht0
        have hsl : slotAt (sortScan r1 v false
            ((famPositions r1 p).zip TS)).1 m.key j = some t0 := by
          rw [hkey]
          exact hres.1
        rw [hslotm j] at hsl
        rw [hsl]
        show (sortScan r1 v false ((famPositions r1 p).zip TS)).1.backRef t0
          = some (m.key, j)
        rw [hkey]
        exact hres.2
    · -- a family untouched by the scan
      have hnotReg : ∀ j, ((m.key, j) : Pos) ∉ famPositions r1 p ++ [v] := by
        intro j hc
        rcases List.mem_append.mp hc with h | h
        · obtain ⟨b2, hb2, h1, h2⟩ := hq0 (m.key, j) h
          have hb2mem := ((mem_famBuckets r1 p b2).mp hb2).1
          have hb2b : b2 = b := keys_unique r1.buckets hpw b2 hb2mem b hbmem
            (by rw [← h1, hkey])
          exact hbp (by rw [← hb2b]; exact ((mem_famBuckets r1 p b2).mp hb2).2)
        · have hjv : ((m.key, j) : Pos) = v := by simpa using h
          have hv1 : v.1 = b.key := by rw [← hjv, hkey]
          have hgb2 : getB r1 v.1 = some b := by rw [hv1]; exact hgb
          rw [hBv] at hgb2
          have hbBv : Bv = b := by simpa using hgb2
          rw [← hbBv] at hbp
          exact hbp hBvp
      have hfr : ∀ j, slotAt (sortScan r1 v false
          ((famPositions r1 p).zip TS)).1 m.key j = b.slots.getD j none := by
        intro j
        have := hC3 (m.key, j) (hnotReg j)
        rw [this, hkey, hslotb j]
      refine ⟨by rw [hcap, c1, ← hC5.1], by omega, by omega, by omega,
        ?_, ?_, hpack, ?_⟩
      · intro j hj
        rw [← hslotm j, hfr j]
        exact c5 j (by omega)
      · intro j hjc hjs
        rw [← hslotm j, hfr j]
        exact c6 j (by omega) (by omega)
      · intro j hj
        have hjb : j < b.size := by omega
        obtain ⟨x, hx⟩ := Option.isSome_iff_exists.mp (c5 j hjb)
        have hmx : m.slots.getD j none = some x := by
          rw [← hslotm j, hfr j, hx]
        rw [hmx]
        have hbrx := c8 j hjb
        rw [hx] at hbrx
        simp only [Option.getD_some] at hbrx
        have hxTS : x ∉ TS := by
          intro hc
          obtain ⟨q0, hq0m, _, hb0⟩ := hmemE x (hTSperm.mem_iff.mp hc)
          rw [hbrx] at hb0
          have hq0e : q0 = (b.key, j) := by simpa using hb0.symm
          rw [hq0e] at hq0m
          have : ((m.key, j) : Pos) ∈ famPositions r1 p := by
            rw [hkey]
            exact hq0m
          exact hnotReg j (List.mem_append.mpr (Or.inl this))
        show (sortScan r1 v false ((famPositions r1 p).zip TS)).1.backRef x
          = some (m.key, j)
        rw [hC4 x hxTS, hkey]
        exact hbrx
  · -- the scanned family reads exactly the target sequence
    show (famPositions (sortScan r1 v false
        ((famPositions r1 p).zip TS)).1 p).map _ = TS
    rw [hposP]
    refine map_eq_of_zip _ _ TS hlen ?_
    intro x hx
    have := (hC1 x hx).1
    rw [this]
    rfl
  · -- untouched families read unchanged
    intro p2 hp2
    have hpos2 : famPositions (sortScan r1 v false
        ((famPositions r1 p).zip TS)).1 p2 = famPositions r1 p2 :=
      famPositions_of_skel _ r1 p2 hC5.2
    show (famPositions (sortScan r1 v false
        ((famPositions r1 p).zip TS)).1 p2).map _ = (famPositions r1 p2).map _
    rw [hpos2]
    apply List.map_congr_left
    intro q0 hq0m
    obtain ⟨b2, hb2, h1, h2⟩ := mem_famPositions r1 p2 q0 hq0m
    obtain ⟨hb2mem, hb2p⟩ := (mem_famBuckets r1 p2 b2).mp hb2
    have hnot : q0 ∉ famPositions r1 p ++ [v] := by
      intro hc
      rcases List.mem_append.mp hc with h | h
      · obtain ⟨b3, hb3, h31, h32⟩ := hq0 q0 h
        have hb3mem := ((mem_famBuckets r1 p b3).mp hb3).1
        have hb23 : b2 = b3 := keys_unique r1.buckets hpw b2 hb2mem b3 hb3mem
          (by rw [← h1, ← h31])
        have := ((mem_famBuckets r1 p b3).mp hb3).2
        rw [← hb23] at this
        rw [hb2p] at this
        exact hp2 this
      · have hqv : q0 = v := by simpa using h
        have hgb2 : getB r1 v.1 = some b2 := by
          rw [← hqv, h1]
          exact getB_of_mem r1 b2 hpw hb2mem
        rw [hBv] at hgb2
        have : Bv = b2 := by simpa using hgb2
        rw [← this] at hb2p
        rw [hBvp] at hb2p
        exact hp2 hb2p.symm
    rw [hC3 q0 hnot]

/-! ## The scratch bucket of a full family -/

theorem mem_insertIdx_of_mem {α : Type} (l : List α) (n : Nat) (a b : α)
    (hn : n ≤ l.length) (hb : b ∈ l) : b ∈ l.insertIdx n a := by
  rw [insertIdx_eq_take_drop a n l hn]
  conv at hb => rw [← List.take_append_drop n l]
  rcases List.mem_append.mp hb with h | h
  · exact List.mem_append.mpr (Or.inl h)
  · exact List.mem_append.mpr (Or.inr (List.mem_cons_of_mem _ h))

theorem not_mem_eraseIdx_self (l : List Bucket)
    (hpw : List.Pairwise (fun a b => keyLess a.key b.key = true) l)
    (jb : Nat) (b : Bucket) (hjb : l[jb]? = some b) :
    b ∉ l.eraseIdx jb := by
  have hlen : jb < l.length := (List.getElem?_eq_some.mp hjb).1
  have hdecomp : l = l.take jb ++ b :: l.drop (jb + 1) := by
    conv_lhs => rw [← List.take_append_drop jb l]
    rw [List.drop_eq_getElem_cons hlen, (List.getElem?_eq_some.mp hjb).2]
  have hpw2 : List.Pairwise (fun a b => keyLess a.key b.key = true)
      (l.take jb ++ b :: l.drop (jb + 1)) := by
    rw [← hdecomp]
    exact hpw
  have hcross := List.pairwise_append.mp hpw2
  intro hmem
  have hm2 : b ∈ l.take jb ++ l.drop (jb + 1) := by
    have h3 : b ∈ l.eraseIdx jb := hmem
    rwa [List.eraseIdx_eq_take_drop_succ] at h3
  rcases List.mem_append.mp hm2 with h | h
  · have := hcross.2.2 b h b (List.mem_cons_self _ _)
    rw [keyLess_irrefl] at this
    exact Bool.false_ne_true this
  · have := (List.pairwise_cons.mp hcross.2.1).1 b h
    rw [keyLess_irrefl] at this
    exact Bool.false_ne_true this

/-- Erasing an empty last-of-family bucket changes no family's stored live
    entities. -/
theorem famEntities_delRepo (r : Repo) (b : Bucket) (jb : Nat)
    (hWF : WF r) (hjb : r.buckets[jb]? = some b)
    (hlast : lastOfFamily r b.parts = some b) (hsz : b.size = 0) :
    ∀ q, famEntities (delRepo r jb) q = famEntities r q := by
  intro q
  have hpw := (chainKeys_iff_pairwise r.buckets).mp hWF.2.1
  obtain ⟨hf1, hf2, hf3⟩ := famBuckets_erase r b jb hpw hjb hlast
  have hpwD : List.Pairwise (fun a b => keyLess a.key b.key = true)
      (delRepo r jb).buckets :=
    hpw.sublist (List.eraseIdx_sublist r.buckets jb)
  have hlen : jb < r.buckets.length := (List.getElem?_eq_some.mp hjb).1
  have hdecomp : r.buckets = r.buckets.take jb ++ b :: r.buckets.drop (jb + 1) := by
    conv_lhs => rw [← List.take_append_drop jb r.buckets]
    rw [List.drop_eq_getElem_cons hlen, (List.getElem?_eq_some.mp hjb).2]
  have hbpos : bucketPositions b = [] := by
    show (List.range b.size).map _ = []
    rw [hsz]
    rfl
  have hposeq : famPositions (delRepo r jb) q = famPositions r q := by
    by_cases hq : q = b.parts
    · subst hq
      show (famBuckets (delRepo r jb) b.parts).flatMap bucketPositions
        = (famBuckets r b.parts).flatMap bucketPositions
      rw [hf1, hf2, List.flatMap_append _ _ _]
      simp only [List.flatMap_cons, List.flatMap_nil, List.append_nil, hbpos]
    · show (famBuckets (delRepo r jb) q).flatMap bucketPositions
        = (famBuckets r q).flatMap bucketPositions
      rw [hf3 q hq]
  show (famPositions (delRepo r jb) q).map _ = (famPositions r q).map _
  rw [hposeq]
  apply List.map_congr_left
  intro q0 hq0
  obtain ⟨m, hmF, h1m, h2m⟩ := mem_famPositions r q q0 hq0
  have hmmem : m ∈ r.buckets := ((mem_famBuckets r q m).mp hmF).1
  have hmne : m ≠ b := by
    intro hc
    rw [hc, hsz] at h2m
    omega
  have hmdel : m ∈ (delRepo r jb).buckets := by
    show m ∈ r.buckets.eraseIdx jb
    rw [List.eraseIdx_eq_take_drop_succ]
    have hmm : m ∈ r.buckets.take jb ++ b :: r.buckets.drop (jb + 1) := by
      rw [← hdecomp]
      exact hmmem
    rcases List.mem_append.mp hmm with h | h
    · exact List.mem_append.mpr (Or.inl h)
    · rcases List.mem_cons.mp h with h | h
      · exact absurd h hmne
      · exact List.mem_append.mpr (Or.inr h)
  rw [slotAt_eq _ q0.1 m q0.2 (by rw [h1m]; exact getB_of_mem _ m hpwD hmdel),
    slotAt_eq r q0.1 m q0.2 (by rw [h1m]; exact getB_of_mem r m hpw hmmem)]

/-- Declaring the vacant-cursor scratch bucket for a full family: the call
    succeeds, the new empty bucket becomes the family's last bucket at the
    lower-bound position, clearing its slot 0 is a no-op, no family's stored
    entities change, and erasing it at its position restores the exact
    original repository. -/
theorem scratch_setup (r : Repo) (p : List Nat) (L : Bucket)
    (hWF : WF r) (hfs : famSafe r)
    (hlof : lastOfFamily r p = some L) (hfull : L.cap ≤ L.size) :
    declareBucket r p = .ok (insRepo r p (freshBucket r p (L.fam + 1)),
      freshBucket r p (L.fam + 1)) ∧
    WF (insRepo r p (freshBucket r p (L.fam + 1))) ∧
    getB (insRepo r p (freshBucket r p (L.fam + 1)))
      (freshBucket r p (L.fam + 1)).key = some (freshBucket r p (L.fam + 1)) ∧
    lastOfFamily (insRepo r p (freshBucket r p (L.fam + 1))) p
      = some (freshBucket r p (L.fam + 1)) ∧
    replaceEntity (insRepo r p (freshBucket r p (L.fam + 1)))
      (freshBucket r p (L.fam + 1)).key 0 none
      = insRepo r p (freshBucket r p (L.fam + 1)) ∧
    (∀ q, famEntities (insRepo r p (freshBucket r p (L.fam + 1))) q
      = famEntities r q) ∧
    (insRepo r p (freshBucket r p (L.fam + 1))).buckets[lowerBound r.buckets (searchKey p)]? = some (freshBucket r p (L.fam + 1)) ∧
    lowerBound (insRepo r p (freshBucket r p (L.fam + 1))).buckets
      (freshBucket r p (L.fam + 1)).key = lowerBound r.buckets (searchKey p) ∧
    delRepo (insRepo r p (freshBucket r p (L.fam + 1)))
      (lowerBound r.buckets (searchKey p)) = r := by
  have hpw := (chainKeys_iff_pairwise r.buckets).mp hWF.2.1
  have hfs2 : ∀ bb ∈ r.buckets, bb.parts = p → bb.fam < maxU :=
    fun bb hm _ => hfs bb hm
  obtain ⟨hLmem, hLp⟩ := lastOfFamily_parts r p L hlof
  have hLcap : 0 < L.cap := by
    have h1 := (hWF.2.2 L hLmem).1
    have h2 := hWF.1
    omega
  have hd := (declareBucket_spec r p hpw hfs2).2 L hlof
  have h1 : declareBucket r p = .ok (insRepo r p (freshBucket r p (L.fam + 1)),
      freshBucket r p (L.fam + 1)) := by
    rw [hd, if_neg (by omega), if_neg (by omega), if_pos (hfs L hLmem)]
  have hWF1 : WF (insRepo r p (freshBucket r p (L.fam + 1))) :=
    declare_ok_WF r p _ _ hWF hfs h1
  have hpw1 := (chainKeys_iff_pairwise _).mp hWF1.2.1
  obtain ⟨hfb1, hfb2⟩ := famBuckets_insert r p (freshBucket r p (L.fam + 1))
    (insRepo r p (freshBucket r p (L.fam + 1))) hpw hfs2 rfl rfl
  have hnbfam : freshBucket r p (L.fam + 1)
      ∈ famBuckets (insRepo r p (freshBucket r p (L.fam + 1))) p := by
    rw [hfb1]
    exact List.mem_append.mpr (Or.inr (by simp))
  have hnbmem : freshBucket r p (L.fam + 1)
      ∈ (insRepo r p (freshBucket r p (L.fam + 1))).buckets :=
    ((mem_famBuckets _ p _).mp hnbfam).1
  have h3 : getB (insRepo r p (freshBucket r p (L.fam + 1)))
      (freshBucket r p (L.fam + 1)).key = some (freshBucket r p (L.fam + 1)) :=
    getB_of_mem _ _ hpw1 hnbmem
  have h4 : lastOfFamily (insRepo r p (freshBucket r p (L.fam + 1))) p
      = some (freshBucket r p (L.fam + 1)) := by
    show (famBuckets (insRepo r p (freshBucket r p (L.fam + 1))) p).getLast?
      = some (freshBucket r p (L.fam + 1))
    rw [hfb1]
    exact List.getLast?_concat _
  have h5 : replaceEntity (insRepo r p (freshBucket r p (L.fam + 1)))
      (freshBucket r p (L.fam + 1)).key 0 none
      = insRepo r p (freshBucket r p (L.fam + 1)) := by
    apply updB_eq_self
    intro bb hbb hbk
    have hbbnb : bb = freshBucket r p (L.fam + 1) :=
      keys_unique _ hpw1 bb hbb _ hnbmem hbk
    subst hbbnb
    have hset : (freshBucket r p (L.fam + 1)).slots.set 0 none
        = (freshBucket r p (L.fam + 1)).slots := by
      apply set_getElem_self
      show (List.replicate r.cap (none : Option EntityId))[0]? = some none
      rw [List.getElem?_replicate, if_pos hWF.1]
    show { freshBucket r p (L.fam + 1) with
      slots := (freshBucket r p (L.fam + 1)).slots.set 0 none }
        = freshBucket r p (L.fam + 1)
    rw [hset]
  have hbpos : bucketPositions (freshBucket r p (L.fam + 1)) = [] := rfl
  have hpos : ∀ q, famPositions (insRepo r p (freshBucket r p (L.fam + 1))) q
      = famPositions r q := by
    intro q
    by_cases hq : q = p
    · subst hq
      show (famBuckets (insRepo r q (freshBucket r q (L.fam + 1))) q).flatMap
        bucketPositions = (famBuckets r q).flatMap bucketPositions
      rw [hfb1, List.flatMap_append _ _ _]
      simp only [List.flatMap_cons, List.flatMap_nil, List.append_nil, hbpos]
    · show (famBuckets (insRepo r p (freshBucket r p (L.fam + 1))) q).flatMap
        bucketPositions = (famBuckets r q).flatMap bucketPositions
      rw [hfb2 q hq]
  have hent : ∀ q, famEntities (insRepo r p (freshBucket r p (L.fam + 1))) q
      = famEntities r q := by
    intro q
    show (famPositions (insRepo r p (freshBucket r p (L.fam + 1))) q).map _
      = (famPositions r q).map _
    rw [hpos q]
    apply List.map_congr_left
    intro q0 hq0
    obtain ⟨m, hmF, h1m, h2m⟩ := mem_famPositions r q q0 hq0
    have hmmem : m ∈ r.buckets := ((mem_famBuckets r q m).mp hmF).1
    have hm1 : m ∈ (insRepo r p (freshBucket r p (L.fam + 1))).buckets :=
      mem_insertIdx_of_mem r.buckets _ (freshBucket r p (L.fam + 1)) m
        (lowerBound_le_length _ _) hmmem
    rw [slotAt_eq _ q0.1 m q0.2 (by rw [h1m]; exact getB_of_mem _ m hpw1 hm1),
      slotAt_eq r q0.1 m q0.2 (by rw [h1m]; exact getB_of_mem r m hpw hmmem)]
  have htklen : (r.buckets.take (lowerBound r.buckets (searchKey p))).length
      = lowerBound r.buckets (searchKey p) := by
    rw [List.length_take]
    have := lowerBound_le_length (searchKey p) r.buckets
    omega
  have h8 : (insRepo r p (freshBucket r p (L.fam + 1))).buckets[lowerBound r.buckets (searchKey p)]? = some (freshBucket r p (L.fam + 1)) := by
    show (r.buckets.insertIdx (lowerBound r.buckets (searchKey p))
      (freshBucket r p (L.fam + 1)))[lowerBound r.buckets (searchKey p)]?
        = some (freshBucket r p (L.fam + 1))
    rw [insertIdx_eq_take_drop (freshBucket r p (L.fam + 1)) _ r.buckets
      (lowerBound_le_length _ _)]
    rw [List.getElem?_append_right (le_of_eq htklen), htklen, Nat.sub_self]
    simp
  have h9 : lowerBound (insRepo r p (freshBucket r p (L.fam + 1))).buckets
      (freshBucket r p (L.fam + 1)).key = lowerBound r.buckets (searchKey p) := by
    apply lowerBound_of_index _ _ _ _ h8 (keyLess_irrefl _)
    intro j c hji hjc
    have hc := List.pairwise_iff_getElem.mp hpw1 j
      (lowerBound r.buckets (searchKey p)) (List.getElem?_eq_some.mp hjc).1
      (List.getElem?_eq_some.mp h8).1 hji
    rw [(List.getElem?_eq_some.mp hjc).2, (List.getElem?_eq_some.mp h8).2] at hc
    exact hc
  have h10 : delRepo (insRepo r p (freshBucket r p (L.fam + 1)))
      (lowerBound r.buckets (searchKey p)) = r := by
    have hbe : (r.buckets.insertIdx (lowerBound r.buckets (searchKey p)) (freshBucket r p (L.fam + 1))).eraseIdx (lowerBound r.buckets (searchKey p)) = r.buckets :=
      List.eraseIdx_insertIdx _ _
    show { r with buckets := (r.buckets.insertIdx (lowerBound r.buckets (searchKey p)) (freshBucket r p (L.fam + 1))).eraseIdx (lowerBound r.buckets (searchKey p)) } = r
    rw [hbe]
  exact ⟨h1, hWF1, h3, h4, h5, hent, h8, h9, h10⟩

/-- One family pass of internal_sort_bucket_entities succeeds from any
    well-formed wrap-safe state; afterwards the family's live entities read
    in storage order are exactly its previous entities sorted by the entity
    order, every other family reads unchanged, and well-formedness and
    wrap-safety still hold. -/
theorem sortFamily_spec (r : Repo) (p : List Nat)
    (hWF : WF r) (hfs : famSafe r) :
    ∃ r2 tr, sortFamily r p = .ok (r2, tr) ∧ WF r2 ∧ famSafe r2 ∧
      famEntities r2 p = List.insertionSort (· ≤ ·) (famEntities r p) ∧
      (∀ p2, p2 ≠ p → famEntities r2 p2 = famEntities r p2) := by
  have hpw := (chainKeys_iff_pairwise r.buckets).mp hWF.2.1
  cases hlof : lastOfFamily r p with
  | none =>
    have hfb : famBuckets r p = [] := List.getLast?_eq_none_iff.mp hlof
    have hE : famEntities r p = [] := by
      show ((famBuckets r p).flatMap bucketPositions).map _ = []
      rw [hfb]
      rfl
    refine ⟨r, [], ?_, hWF, hfs, ?_, fun p2 _ => rfl⟩
    · simp only [sortFamily, hlof]
    · rw [hE]
      rfl
  | some L =>
    obtain ⟨hLmem, hLp⟩ := lastOfFamily_parts r p L hlof
    obtain ⟨c1, c2, c3, c4, c5, c6, c7, c8⟩ := hWF.2.2 L hLmem
    by_cases hlt : L.size < L.cap
    · -- the family's last bucket has a spare slot for the vacant cursor
      have hgetL : getB r L.key = some L := getB_of_mem r L hpw hLmem
      have hrep : replaceEntity r L.key L.size none = r := by
        apply updB_eq_self
        intro bb hbb hbk
        have hbbL : bb = L := keys_unique _ hpw bb hbb L hLmem hbk
        subst hbbL
        have hgd : bb.slots.getD bb.size none = none :=
          c6 bb.size (by omega) (le_refl _)
        have hsome : bb.slots[bb.size]? = some none := by
          cases hq : bb.slots[bb.size]? with
          | none =>
            rw [List.getElem?_eq_none_iff] at hq
            omega
          | some x =>
            have hgd2 : bb.slots.getD bb.size none = x := by
              rw [List.getD_eq_getElem?_getD, hq]
              rfl
            rw [hgd] at hgd2
            rw [← hgd2]
        have hset : bb.slots.set bb.size none = bb.slots :=
          set_getElem_self _ _ _ hsome
        show { bb with slots := bb.slots.set bb.size none } = bb
        rw [hset]
      obtain ⟨hWFo, hskel, hfam, hoth, _⟩ := scan_core r p (L.key, L.size) L
        (List.insertionSort (· ≤ ·) (famEntities r p)) hWF hgetL hLp
        (le_refl _) hlt (List.perm_insertionSort _ _)
      have hsafe : famSafe (sortScan r (L.key, L.size) false
          ((famPositions r p).zip
            (List.insertionSort (· ≤ ·) (famEntities r p)))).1 := by
        intro m hm
        obtain ⟨b, hb, hsk⟩ := mem_skel_corr _ r.buckets hskel.2 m hm
        rw [skel_fam m b hsk]
        exact hfs b hb
      refine ⟨_, (sortScan r (L.key, L.size) false ((famPositions r p).zip
        (List.insertionSort (· ≤ ·) (famEntities r p)))).2.1, ?_,
        hWFo, hsafe, hfam, hoth⟩
      simp only [sortFamily, hlof]
      rw [if_neg (by omega : ¬ L.cap ≤ L.size)]
      simp only [hrep]
    · -- the family is full: a scratch bucket hosts the vacant cursor
      have hfull : L.cap ≤ L.size := by omega
      obtain ⟨hdecl, hWF1, hget1, hlast1, hrep1, hent1, hidx1, hlb1, hdel1⟩ :=
        scratch_setup r p L hWF hfs hlof hfull
      have hpw1 := (chainKeys_iff_pairwise _).mp hWF1.2.1
      obtain ⟨hWFo, hskel, hfam, hoth, _⟩ :=
        scan_core (insRepo r p (freshBucket r p (L.fam + 1))) p
          ((freshBucket r p (L.fam + 1)).key, 0) (freshBucket r p (L.fam + 1))
          (List.insertionSort (· ≤ ·) (famEntities r p)) hWF1 hget1 rfl
          (Nat.le_refl 0) hWF.1
          (by rw [hent1 p]; exact List.perm_insertionSort _ _)
      have hpwOut := (chainKeys_iff_pairwise _).mp hWFo.2.1
      -- locate the scratch bucket in the post-scan state
      have hmapl := lastOfFamily_map_skel _
        (insRepo r p (freshBucket r p (L.fam + 1))) p hskel.2
      rw [hlast1] at hmapl
      cases hlo : lastOfFamily (sortScan (insRepo r p (freshBucket r p (L.fam + 1)))
          ((freshBucket r p (L.fam + 1)).key, 0) false
          ((famPositions (insRepo r p (freshBucket r p (L.fam + 1))) p).zip
            (List.insertionSort (· ≤ ·) (famEntities r p)))).1 p with
      | none =>
        rw [hlo] at hmapl
        exact absurd hmapl (by simp)
      | some scr =>
        rw [hlo] at hmapl
        have hsk : skel scr = skel (freshBucket r p (L.fam + 1)) := by
          simpa using hmapl
        obtain ⟨hscrmem, hscrp⟩ := lastOfFamily_parts _ p scr hlo
        have hscrkey : scr.key = (freshBucket r p (L.fam + 1)).key :=
          skel_key _ _ hsk
        have hscrsz : scr.size = 0 := skel_size _ _ hsk
        have hgetscr : getB (sortScan (insRepo r p (freshBucket r p (L.fam + 1)))
            ((freshBucket r p (L.fam + 1)).key, 0) false
            ((famPositions (insRepo r p (freshBucket r p (L.fam + 1))) p).zip
              (List.insertionSort (· ≤ ·) (famEntities r p)))).1
            (freshBucket r p (L.fam + 1)).key = some scr := by
          nth_rewrite 2 [← hscrkey]
          exact getB_of_mem _ scr hpwOut hscrmem
        obtain ⟨jb, hjb, hlb⟩ := sorted_locate _ scr hpwOut hscrmem
        have hlastscr : lastOfFamily (sortScan (insRepo r p
            (freshBucket r p (L.fam + 1)))
            ((freshBucket r p (L.fam + 1)).key, 0) false
            ((famPositions (insRepo r p (freshBucket r p (L.fam + 1))) p).zip
              (List.insertionSort (· ≤ ·) (famEntities r p)))).1 scr.parts
            = some scr := by
          rw [hscrp]
          exact hlo
        have hdestroy := destroy_spec _ (freshBucket r p (L.fam + 1)).key scr jb
          hpwOut
          (fun m hm => (hWFo.2.2 m hm).2.2.2.2.2.2.1)
          (fun m hm => by
            have h1 := (hWFo.2.2 m hm).1
            have h2 := hWFo.1
            omega)
          hgetscr hscrsz hlastscr hjb hlb
        have hent4 := famEntities_delRepo _ scr jb hWFo hjb hlastscr hscrsz
        have hWF4 : WF (delRepo (sortScan (insRepo r p
            (freshBucket r p (L.fam + 1)))
            ((freshBucket r p (L.fam + 1)).key, 0) false
            ((famPositions (insRepo r p (freshBucket r p (L.fam + 1))) p).zip
              (List.insertionSort (· ≤ ·) (famEntities r p)))).1 jb) :=
          erase_last_WF _ scr jb hWFo hjb hlastscr
        have hsafe4 : famSafe (delRepo (sortScan (insRepo r p
            (freshBucket r p (L.fam + 1)))
            ((freshBucket r p (L.fam + 1)).key, 0) false
            ((famPositions (insRepo r p (freshBucket r p (L.fam + 1))) p).zip
              (List.insertionSort (· ≤ ·) (famEntities r p)))).1 jb) := by
          intro m hm
          have hm1 : m ∈ (sortScan (insRepo r p (freshBucket r p (L.fam + 1)))
              ((freshBucket r p (L.fam + 1)).key, 0) false
              ((famPositions (insRepo r p (freshBucket r p (L.fam + 1))) p).zip
                (List.insertionSort (· ≤ ·) (famEntities r p)))).1.buckets :=
            (List.eraseIdx_sublist _ jb).subset hm
          obtain ⟨b1, hb1, hsk1⟩ := mem_skel_corr _
            (insRepo r p (freshBucket r p (L.fam + 1))).buckets hskel.2 m hm1
          have hb1' : b1 ∈ r.buckets.take (lowerBound r.buckets (searchKey p))
              ++ freshBucket r p (L.fam + 1)
                :: r.buckets.drop (lowerBound r.buckets (searchKey p)) := by
            have : b1 ∈ (insRepo r p (freshBucket r p (L.fam + 1))).buckets := hb1
            rwa [show (insRepo r p (freshBucket r p (L.fam + 1))).buckets
              = r.buckets.insertIdx (lowerBound r.buckets (searchKey p))
                (freshBucket r p (L.fam + 1)) from rfl,
              insertIdx_eq_take_drop _ _ _ (lowerBound_le_length _ _)] at this
          rcases List.mem_append.mp hb1' with h | h
          · rw [skel_fam m b1 hsk1]
            exact hfs b1 (List.mem_of_mem_take h)
          · rcases List.mem_cons.mp h with h | h
            · exfalso
              have hmkey : m.key = scr.key := by
                rw [skel_key m b1 hsk1, h, ← hscrkey]
              have hmscr : m = scr := keys_unique _ hpwOut m hm1 scr hscrmem hmkey
              rw [hmscr] at hm
              exact not_mem_eraseIdx_self _ hpwOut jb scr hjb hm
            · rw [skel_fam m b1 hsk1]
              exact hfs b1 (List.mem_of_mem_drop h)
        refine ⟨_, (sortScan (insRepo r p (freshBucket r p (L.fam + 1)))
          ((freshBucket r p (L.fam + 1)).key, 0) false
          ((famPositions (insRepo r p (freshBucket r p (L.fam + 1))) p).zip
            (List.insertionSort (· ≤ ·) (famEntities r p)))).2.1, ?_,
          hWF4, hsafe4, ?_, ?_⟩
        · simp only [sortFamily, hlof]
          rw [if_pos hfull, hdecl]
          simp only [hrep1, hent1 p, hdestroy]
        · rw [hent4 p]
          exact hfam
        · intro p2 hp2
          rw [hent4 p2, hoth p2 hp2, hent1 p2]

/-- When a family's stored entities are already sorted, one family pass is
    exactly a no-op: it returns the unchanged repository with an empty
    trace (any scratch bucket is created and destroyed back to identity). -/
theorem sortFamily_noop (r : Repo) (p : List Nat)
    (hWF : WF r) (hfs : famSafe r)
    (hsorted : List.Sorted (· ≤ ·) (famEntities r p)) :
    sortFamily r p = .ok (r, []) := by
  have hpw := (chainKeys_iff_pairwise r.buckets).mp hWF.2.1
  cases hlof : lastOfFamily r p with
  | none =>
    simp only [sortFamily, hlof]
  | some L =>
    obtain ⟨hLmem, hLp⟩ := lastOfFamily_parts r p L hlof
    obtain ⟨c1, c2, c3, c4, c5, c6, c7, c8⟩ := hWF.2.2 L hLmem
    by_cases hlt : L.size < L.cap
    · have hrep : replaceEntity r L.key L.size none = r := by
        apply updB_eq_self
        intro bb hbb hbk
        have hbbL : bb = L := keys_unique _ hpw bb hbb L hLmem hbk
        subst hbbL
        have hgd : bb.slots.getD bb.size none = none :=
          c6 bb.size (by omega) (le_refl _)
        have hsome : bb.slots[bb.size]? = some none := by
          cases hq : bb.slots[bb.size]? with
          | none =>
            rw [List.getElem?_eq_none_iff] at hq
            omega
          | some x =>
            have hgd2 : bb.slots.getD bb.size none = x := by
              rw [List.getD_eq_getElem?_getD, hq]
              rfl
            rw [hgd] at hgd2
            rw [← hgd2]
        have hset : bb.slots.set bb.size none = bb.slots :=
          set_getElem_self _ _ _ hsome
        show { bb with slots := bb.slots.set bb.size none } = bb
        rw [hset]
      have hnoop := sortScan_noop ((famPositions r p).zip (famEntities r p))
        r (L.key, L.size) (zip_famEntities r p hWF)
      simp only [sortFamily, hlof]
      rw [if_neg (by omega : ¬ L.cap ≤ L.size)]
      simp only [hrep, List.Sorted.insertionSort_eq hsorted, hnoop]
    · have hfull : L.cap ≤ L.size := by omega
      obtain ⟨hdecl, hWF1, hget1, hlast1, hrep1, hent1, hidx1, hlb1, hdel1⟩ :=
        scratch_setup r p L hWF hfs hlof hfull
      have hpw1 := (chainKeys_iff_pairwise _).mp hWF1.2.1
      have hsorted1 : List.Sorted (· ≤ ·)
          (famEntities (insRepo r p (freshBucket r p (L.fam + 1))) p) := by
        rw [hent1 p]
        exact hsorted
      have hnoop := sortScan_noop
        ((famPositions (insRepo r p (freshBucket r p (L.fam + 1))) p).zip
          (famEntities (insRepo r p (freshBucket r p (L.fam + 1))) p))
        (insRepo r p (freshBucket r p (L.fam + 1)))
        ((freshBucket r p (L.fam + 1)).key, 0)
        (zip_famEntities (insRepo r p (freshBucket r p (L.fam + 1))) p hWF1)
      have hdestroy := destroy_spec (insRepo r p (freshBucket r p (L.fam + 1)))
        (freshBucket r p (L.fam + 1)).key (freshBucket r p (L.fam + 1))
        (lowerBound r.buckets (searchKey p)) hpw1
        (fun m hm => (hWF1.2.2 m hm).2.2.2.2.2.2.1)
        (fun m hm => by
          have h1 := (hWF1.2.2 m hm).1
          have h2 := hWF1.1
          omega)
        hget1 rfl hlast1 hidx1 hlb1
      simp only [sortFamily, hlof]
      rw [if_pos hfull, hdecl]
      simp only [hrep1, List.Sorted.insertionSort_eq hsorted1, hnoop,
        hdestroy, hdel1]

theorem mem_foldl_dedup :
    ∀ (l : List (List Nat)) (acc : List (List Nat)) (x : List Nat),
      (x ∈ acc ∨ x ∈ l) →
      x ∈ l.foldl (fun acc p => if p ∈ acc then acc else acc ++ [p]) acc := by
  intro l
  induction l with
  | nil =>
    intro acc x h
    rcases h with h | h
    · exact h
    · simp at h
  | cons y ys ih =>
    intro acc x h
    show x ∈ ys.foldl _ (if y ∈ acc then acc else acc ++ [y])
    apply ih
    rcases h with h | h
    · left
      by_cases hy : y ∈ acc
      · rw [if_pos hy]
        exact h
      · rw [if_neg hy]
        exact List.mem_append.mpr (Or.inl h)
    · rcases List.mem_cons.mp h with h | h
      · left
        by_cases hy : y ∈ acc
        · rw [if_pos hy, h]
          exact hy
        · rw [if_neg hy, h]
          exact List.mem_append.mpr (Or.inr (by simp))
      · right
        exact h

theorem mem_famParts (bs : List Bucket) (b : Bucket) (hb : b ∈ bs) :
    b.parts ∈ famParts bs :=
  mem_foldl_dedup _ [] _ (Or.inr (List.mem_map_of_mem _ hb))

theorem famEntities_nil_of_not_parts (r : Repo) (p : List Nat)
    (h : p ∉ famParts r.buckets) : famEntities r p = [] := by
  have hfb : famBuckets r p = [] := by
    rw [show famBuckets r p = r.buckets.filter (fun b => b.parts == p) from rfl,
      List.filter_eq_nil_iff]
    intro b hb hbp
    have hbp2 : b.parts = p := by simpa using hbp
    rw [← hbp2] at h
    exact h (mem_famParts r.buckets b hb)
  show ((famBuckets r p).flatMap bucketPositions).map _ = []
  rw [hfb]
  rfl

/-- Sorting the listed families in turn succeeds from a well-formed
    wrap-safe state; every listed family ends sorted (as a permutation of
    its former entities) and every other family reads unchanged. -/
theorem sortAll_spec :
    ∀ (ps : List (List Nat)) (r : Repo), WF r → famSafe r →
      ∃ r2 tr, sortAll r ps = .ok (r2, tr) ∧ WF r2 ∧ famSafe r2 ∧
        (∀ q ∈ ps, List.Sorted (· ≤ ·) (famEntities r2 q) ∧
          (famEntities r2 q).Perm (famEntities r q)) ∧
        (∀ q, q ∉ ps → famEntities r2 q = famEntities r q) := by
  intro ps
  induction ps with
  | nil =>
    intro r hWF hfs
    exact ⟨r, [], rfl, hWF, hfs, by simp, fun q _ => rfl⟩
  | cons p ps ih =>
    intro r hWF hfs
    obtain ⟨r1, tr1, h1, hWF1, hfs1, hfam1, hoth1⟩ := sortFamily_spec r p hWF hfs
    obtain ⟨r2, tr2, h2, hWF2, hfs2, hfam2, hoth2⟩ := ih r1 hWF1 hfs1
    refine ⟨r2, tr1 ++ tr2, ?_, hWF2, hfs2, ?_, ?_⟩
    · simp only [sortAll, h1, h2]
    · intro q hq
      by_cases hqps : q ∈ ps
      · obtain ⟨hs, hp⟩ := hfam2 q hqps
        refine ⟨hs, hp.trans ?_⟩
        by_cases hqp : q = p
        · subst hqp
          rw [hfam1]
          exact List.perm_insertionSort _ _
        · rw [hoth1 q hqp]
      · have hqp : q = p := by
          rcases List.mem_cons.mp hq with h | h
          · exact h
          · exact absurd h hqps
        subst hqp
        have he : famEntities r2 q
            = List.insertionSort (· ≤ ·) (famEntities r q) := by
          rw [hoth2 q hqps, hfam1]
        rw [he]
        exact ⟨List.sorted_insertionSort _ _, List.perm_insertionSort _ _⟩
    · intro q hq
      have h1' : q ∉ ps := fun hc => hq (List.mem_cons_of_mem _ hc)
      have h2' : q ≠ p := fun hc => hq (by rw [hc]; exact List.mem_cons_self _ _)
      rw [hoth2 q h1', hoth1 q h2']

/-- When every listed family is already sorted, the whole pass is a no-op:
    unchanged state, empty trace. -/
theorem sortAll_noop :
    ∀ (ps : List (List Nat)) (r : Repo), WF r → famSafe r →
      (∀ q ∈ ps, List.Sorted (· ≤ ·) (famEntities r q)) →
      sortAll r ps = .ok (r, []) := by
  intro ps
  induction ps with
  | nil => intro r _ _ _; rfl
  | cons p ps ih =>
    intro r hWF hfs hall
    have h1 := sortFamily_noop r p hWF hfs (hall p (List.mem_cons_self _ _))
    have h2 := ih r hWF hfs (fun q hq => hall q (List.mem_cons_of_mem _ hq))
    simp only [sortAll, h1, h2]
    rfl

/-! ## Claim C3 -/

/-- C3: one internal_sort_bucket_entities call succeeds and leaves every
    family's live objects, read in storage order, exactly equal to the
    family's previous objects sorted by the entity order (a sorted
    permutation); an immediately following second call returns the identical
    repository with an empty event trace — no moves and no hooks. -/
theorem claimC3_resort_idempotent (r : Repo) (hWF : WF r) (hfs : famSafe r) :
    ∃ r2 tr, internalSort r = .ok (r2, tr) ∧
      (∀ p, famEntities r2 p = List.insertionSort (· ≤ ·) (famEntities r p)) ∧
      (∀ p, List.Sorted (· ≤ ·) (famEntities r2 p) ∧
        (famEntities r2 p).Perm (famEntities r p)) ∧
      internalSort r2 = .ok (r2, []) := by
  obtain ⟨r2, tr, h1, hWF2, hfs2, hfam, hoth⟩ :=
    sortAll_spec (famParts r.buckets) r hWF hfs
  have hall : ∀ p, famEntities r2 p
      = List.insertionSort (· ≤ ·) (famEntities r p) := by
    intro p
    by_cases hp : p ∈ famParts r.buckets
    · obtain ⟨hs, hpm⟩ := hfam p hp
      exact List.eq_of_perm_of_sorted
        (hpm.trans (List.perm_insertionSort _ _).symm) hs
        (List.sorted_insertionSort _ _)
    · rw [hoth p hp, famEntities_nil_of_not_parts r p hp]
      rfl
  have hsorted2 : ∀ p, List.Sorted (· ≤ ·) (famEntities r2 p) := by
    intro p
    rw [hall p]
    exact List.sorted_insertionSort _ _
  refine ⟨r2, tr, h1, hall, ?_, ?_⟩
  · intro p
    refine ⟨hsorted2 p, ?_⟩
    rw [hall p]
    exact List.perm_insertionSort _ _
  · exact sortAll_noop (famParts r2.buckets) r2 hWF2 hfs2
      (fun q _ => hsorted2 q)

/-- C3 witness: the two-bucket repository is well formed and wrap-safe, so
    the resort-idempotence theorem applies to it. -/
theorem claimC3_resort_idempotent_witness :
    WF twoRepo ∧ famSafe twoRepo ∧
      ∃ r2 tr, internalSort twoRepo = .ok (r2, tr) ∧
        (∀ p, famEntities r2 p
          = List.insertionSort (· ≤ ·) (famEntities twoRepo p)) ∧
        (∀ p, List.Sorted (· ≤ ·) (famEntities r2 p) ∧
          (famEntities r2 p).Perm (famEntities twoRepo p)) ∧
        internalSort r2 = .ok (r2, []) :=
  ⟨twoRepo_WF, by intro b hb; fin_cases hb <;> decide,
    claimC3_resort_idempotent twoRepo twoRepo_WF
      (by intro b hb; fin_cases hb <;> decide)⟩

/-! ## Packing and failure-atomicity support -/

theorem applyAt_size (kk : List Nat) (f : Bucket → Bucket)
    (hf : ∀ b, (f b).size = b.size) (b : Bucket) :
    (applyAt kk f b).size = b.size := by
  rw [applyAt]
  by_cases h : b.key = kk
  · rw [if_pos h]
    exact hf b
  · rw [if_neg h]

theorem applyAt_cap (kk : List Nat) (f : Bucket → Bucket)
    (hf : ∀ b, (f b).cap = b.cap) (b : Bucket) :
    (applyAt kk f b).cap = b.cap := by
  rw [applyAt]
  by_cases h : b.key = kk
  · rw [if_pos h]
    exact hf b
  · rw [if_neg h]

/-- After any key-, parts-, size- and capacity-preserving rewrite of the
    buckets, decrementing the size of a family's (at most singleton) last
    bucket to zero and nulling its trailing slot leaves a state on which
    destroy_bucket passes all its validations. -/
theorem destroy_after_shrink (r rm : Repo) (L : Bucket) (gm : Bucket → Bucket)
    (hWF : WF r)
    (hgk : ∀ b, (gm b).key = b.key) (hgp : ∀ b, (gm b).parts = b.parts)
    (hgs : ∀ b, (gm b).size = b.size) (hgc : ∀ b, (gm b).cap = b.cap)
    (hbl : rm.buckets = r.buckets.map gm)
    (hLmem : L ∈ r.buckets) (hlastL : lastOfFamily r L.parts = some L)
    (hL1 : L.size ≤ 1) :
    ∃ r6, destroyBucketK (replaceEntity (decSize rm L.key) L.key (L.size - 1)
      none) L.key = .ok r6 := by
  have hpw := (chainKeys_iff_pairwise r.buckets).mp hWF.2.1
  have hr5 : replaceEntity (decSize rm L.key) L.key (L.size - 1) none
      = updB rm L.key (shrinkB (L.size - 1)) := by
    show updB (updB rm L.key (fun b => { b with size := b.size - 1 })) L.key
      (fun b => { b with slots := b.slots.set (L.size - 1) none })
      = updB rm L.key (shrinkB (L.size - 1))
    exact (updB_updB rm L.key (fun b => { b with size := b.size - 1 })
      (fun b => { b with slots := b.slots.set (L.size - 1) none })
      (fun b => rfl)).trans rfl
  have hbl5 : (updB rm L.key (shrinkB (L.size - 1))).buckets
      = r.buckets.map
        (fun b => applyAt L.key (shrinkB (L.size - 1)) (gm b)) := by
    rw [updB_buckets, hbl, List.map_map]
    rfl
  have hg5k : ∀ b, (applyAt L.key (shrinkB (L.size - 1)) (gm b)).key = b.key :=
    fun b => by
      rw [applyAt_key L.key (shrinkB (L.size - 1)) (shrinkB_key (L.size - 1))
        (gm b), hgk b]
  have hg5p : ∀ b, (applyAt L.key (shrinkB (L.size - 1)) (gm b)).parts
      = b.parts :=
    fun b => by
      rw [applyAt_parts L.key (shrinkB (L.size - 1))
        (shrinkB_parts (L.size - 1)) (gm b), hgp b]
  have hpwr5 : List.Pairwise (fun a b => keyLess a.key b.key = true)
      (updB rm L.key (shrinkB (L.size - 1))).buckets := by
    rw [hbl5]
    exact pairwise_keys_map r.buckets _ hg5k hpw
  have hgL : applyAt L.key (shrinkB (L.size - 1)) (gm L)
      = shrinkB (L.size - 1) (gm L) :=
    applyAt_of_eq _ _ _ (hgk L)
  have hszL : (applyAt L.key (shrinkB (L.size - 1)) (gm L)).size = 0 := by
    rw [hgL, shrinkB_size, hgs L]
    omega
  have hpL : (applyAt L.key (shrinkB (L.size - 1)) (gm L)).parts = L.parts :=
    hg5p L
  have hget5 : getB (updB rm L.key (shrinkB (L.size - 1))) L.key
      = some (applyAt L.key (shrinkB (L.size - 1)) (gm L)) := by
    rw [getB_of_map r _ _ hg5k hbl5 L.key, getB_of_mem r L hpw hLmem]
    rfl
  have hlast5 : lastOfFamily (updB rm L.key (shrinkB (L.size - 1)))
      (applyAt L.key (shrinkB (L.size - 1)) (gm L)).parts
      = some (applyAt L.key (shrinkB (L.size - 1)) (gm L)) := by
    rw [hpL, lastOfFamily_of_map r _ _ hg5p hbl5 L.parts, hlastL]
    rfl
  have hpack5 : ∀ m ∈ (updB rm L.key (shrinkB (L.size - 1))).buckets,
      lastOfFamily (updB rm L.key (shrinkB (L.size - 1))) m.parts ≠ some m →
      m.size = m.cap := by
    intro m hm hne
    rw [hbl5] at hm
    obtain ⟨b0, hb0, hgb0⟩ := List.mem_map.mp hm
    by_cases hbk : b0.key = L.key
    · exfalso
      have hb0L : b0 = L := keys_unique r.buckets hpw b0 hb0 L hLmem hbk
      rw [← hgb0, hb0L] at hne
      exact hne hlast5
    · have hskip : applyAt L.key (shrinkB (L.size - 1)) (gm b0) = gm b0 := by
        apply applyAt_of_ne
        rw [hgk b0]
        exact hbk
      have hb0fam : b0 ∈ famBuckets r b0.parts :=
        (mem_famBuckets _ _ _).mpr ⟨hb0, rfl⟩
      have hnelast : lastOfFamily r b0.parts ≠ some b0 := by
        intro hc
        apply hne
        rw [← hgb0]
        have hp0 : (applyAt L.key (shrinkB (L.size - 1)) (gm b0)).parts
            = b0.parts := hg5p b0
        rw [hp0, lastOfFamily_of_map r _ _ hg5p hbl5 b0.parts, hc]
        rfl
      have hfull := (hWF.2.2 b0 hb0).2.2.2.2.2.2.1 hnelast
      rw [← hgb0, hskip, hgs b0, hgc b0]
      exact hfull
  have hcap5 : ∀ m ∈ (updB rm L.key (shrinkB (L.size - 1))).buckets,
      0 < m.cap := by
    intro m hm
    rw [hbl5] at hm
    obtain ⟨b0, hb0, hgb0⟩ := List.mem_map.mp hm
    have hc0 : m.cap = b0.cap := by
      rw [← hgb0, applyAt_cap L.key (shrinkB (L.size - 1))
        (shrinkB_cap (L.size - 1)) (gm b0), hgc b0]
    rw [hc0, (hWF.2.2 b0 hb0).1]
    exact hWF.1
  have hmem5 : applyAt L.key (shrinkB (L.size - 1)) (gm L)
      ∈ (updB rm L.key (shrinkB (L.size - 1))).buckets := by
    rw [hbl5]
    exact List.mem_map_of_mem _ hLmem
  obtain ⟨jb, hjb, hlb⟩ := sorted_locate _ _ hpwr5 hmem5
  refine ⟨delRepo (updB rm L.key (shrinkB (L.size - 1))) jb, ?_⟩
  rw [hr5]
  exact destroy_spec _ L.key _ jb hpwr5 hpack5 hcap5 hget5 hszL hlast5 hjb hlb

/-- On a well-formed repository every remove_entity failure leaves the state
    unchanged: the only error path is an unknown bucket key, reported before
    any mutation; the internal destroy of an emptied last bucket passes all
    its validations. -/
theorem remove_error_state (r : Repo) (k : List Nat) (i : Nat)
    (e : DestErr) (rE : Repo) (hWF : WF r)
    (h : removeEntity r k i = .error (e, rE)) : rE = r := by
  have hpw := (chainKeys_iff_pairwise r.buckets).mp hWF.2.1
  cases hget : getB r k with
  | none =>
    simp only [removeEntity, hget] at h
    simp only [Except.error.injEq, Prod.mk.injEq] at h
    exact h.2.symm
  | some kb =>
    obtain ⟨hkbmem, hkbk⟩ := getB_some r k kb hget
    have hkbfam : kb ∈ famBuckets r kb.parts :=
      (mem_famBuckets r kb.parts kb).mpr ⟨hkbmem, rfl⟩
    obtain ⟨L, hlast⟩ := famBuckets_nonempty_last r kb.parts kb hkbfam
    obtain ⟨hLmem, hLp⟩ := lastOfFamily_parts r kb.parts L hlast
    have hgetL : getB r L.key = some L := getB_of_mem r L hpw hLmem
    have hlastL : lastOfFamily r L.parts = some L := by
      rw [hLp]
      exact hlast
    exfalso
    by_cases hc : L.key = k ∧ kb.size = i + 1
    · simp only [removeEntity, hget, hlast, if_pos hc] at h
      by_cases hn : L.size - 1 = 0
      · obtain ⟨r6, hd⟩ := destroy_after_shrink r r L id hWF (fun b => rfl)
          (fun b => rfl) (fun b => rfl) (fun b => rfl) (List.map_id _).symm
          hLmem hlastL (by omega)
        rw [if_pos hn, hd] at h
        exact absurd h (by simp)
      · rw [if_neg hn] at h
        exact absurd h (by simp)
    · cases hsl : L.slots.getD (L.size - 1) none with
      | none =>
        simp only [removeEntity, hget, hlast, if_neg hc, hsl] at h
        by_cases hn : L.size - 1 = 0
        · obtain ⟨r6, hd⟩ := destroy_after_shrink r r L id hWF (fun b => rfl)
            (fun b => rfl) (fun b => rfl) (fun b => rfl) (List.map_id _).symm
            hLmem hlastL (by omega)
          rw [if_pos hn, hd] at h
          exact absurd h (by simp)
        · rw [if_neg hn] at h
          exact absurd h (by simp)
      | some e0 =>
        simp only [removeEntity, hget, hlast, if_neg hc, hsl] at h
        have hms : setRef (replaceEntity (copyFields r k i L.key (L.size - 1))
            k i (some e0)) e0 k i
            = setRef (updB r k
                (recvB i e0 (L.data.getD (L.size - 1) 0))) e0 k i := by
          rw [copyFields_eq r k i L.key (L.size - 1) L hgetL]
          show setRef (updB (updB r k (fun b => { b with
              data := b.data.set i (L.data.getD (L.size - 1) 0) })) k
              (fun b => { b with slots := b.slots.set i (some e0) })) e0 k i
            = setRef (updB r k (recvB i e0 (L.data.getD (L.size - 1) 0)))
                e0 k i
          rw [updB_updB r k
            (fun b => { b with
              data := b.data.set i (L.data.getD (L.size - 1) 0) })
            (fun b => { b with slots := b.slots.set i (some e0) })
            (fun b => rfl)]
          rfl
        rw [hms] at h
        have hbl : (setRef (updB r k (recvB i e0 (L.data.getD (L.size - 1) 0)))
            e0 k i).buckets
            = r.buckets.map
              (applyAt k (recvB i e0 (L.data.getD (L.size - 1) 0))) := rfl
        by_cases hn : L.size - 1 = 0
        · obtain ⟨r6, hd⟩ := destroy_after_shrink r
            (setRef (updB r k (recvB i e0 (L.data.getD (L.size - 1) 0))) e0 k i)
            L (applyAt k (recvB i e0 (L.data.getD (L.size - 1) 0))) hWF
            (fun b => applyAt_key k (recvB i e0 (L.data.getD (L.size - 1) 0))
              (recvB_key i e0 (L.data.getD (L.size - 1) 0)) b)
            (fun b => applyAt_parts k (recvB i e0 (L.data.getD (L.size - 1) 0))
              (recvB_parts i e0 (L.data.getD (L.size - 1) 0)) b)
            (fun b => applyAt_size k (recvB i e0 (L.data.getD (L.size - 1) 0))
              (recvB_size i e0 (L.data.getD (L.size - 1) 0)) b)
            (fun b => applyAt_cap k (recvB i e0 (L.data.getD (L.size - 1) 0))
              (recvB_cap i e0 (L.data.getD (L.size - 1) 0)) b)
            hbl hLmem hlastL (by omega)
          rw [if_pos hn, hd] at h
          exact absurd h (by simp)
        · rw [if_neg hn] at h
          exact absurd h (by simp)

/-- Every declare_bucket failure carries the unchanged repository. -/
theorem declare_error_state (r : Repo) (p : List Nat) (e : DeclErr)
    (rE : Repo) (h : declareBucket r p = .error (e, rE)) : rE = r := by
  rw [declareBucket_unfold] at h
  split at h
  · rename_i last heq
    by_cases h1 : last.size = 0
    · rw [if_pos h1] at h
      simp only [Except.error.injEq, Prod.mk.injEq] at h
      exact h.2.symm
    · rw [if_neg h1] at h
      by_cases h2 : last.size < last.cap
      · rw [if_pos h2] at h
        exact absurd h (by simp)
      · rw [if_neg h2] at h
        by_cases h3 : last.fam < maxU
        · rw [if_pos h3] at h
          exact absurd h (by simp)
        · rw [if_neg h3] at h
          simp only [Except.error.injEq, Prod.mk.injEq] at h
          exact h.2.symm
  · split at h
    · simp only [Except.error.injEq, Prod.mk.injEq] at h
      exact h.2.symm
    · exact absurd h (by simp)

theorem packing_of_WF (r : Repo) (hWF : WF r) :
    ∀ p, ∀ b ∈ famBuckets r p, lastOfFamily r p ≠ some b → b.size = b.cap := by
  intro p b hb hne
  obtain ⟨hbm, hbp⟩ := (mem_famBuckets r p b).mp hb
  exact (hWF.2.2 b hbm).2.2.2.2.2.2.1 (by rw [hbp]; exact hne)

theorem countP_le_one (pred : Bucket → Bool) :
    ∀ (l : List Bucket), l.Nodup →
      (∀ a ∈ l, ∀ b ∈ l, pred a = true → pred b = true → a = b) →
      l.countP pred ≤ 1 := by
  intro l
  induction l with
  | nil => intro _ _; simp
  | cons x xs ih =>
    intro hnd huniq
    rw [List.countP_cons]
    by_cases hx : pred x = true
    · have hxs : xs.countP pred = 0 := by
        rw [List.countP_eq_zero]
        intro a ha hpa
        have hax : a = x := huniq a (List.mem_cons_of_mem _ ha) x
          (List.mem_cons_self _ _) hpa hx
        rw [hax] at ha
        exact (List.nodup_cons.mp hnd).1 ha
      rw [hxs, hx]
      simp
    · have hle := ih (List.nodup_cons.mp hnd).2
        (fun a ha b hb hpa hpb => huniq a (List.mem_cons_of_mem _ ha) b
          (List.mem_cons_of_mem _ hb) hpa hpb)
      have hx0 : pred x = false := by
        cases hq : pred x with
        | false => rfl
        | true => exact absurd hq hx
      rw [hx0]
      simpa using hle

theorem partial_le1_of_WF (r : Repo) (hWF : WF r) (p : List Nat) :
    partialCount r p ≤ 1 := by
  have hpw := (chainKeys_iff_pairwise r.buckets).mp hWF.2.1
  have hfampw : List.Pairwise (fun a b => keyLess a.key b.key = true)
      (famBuckets r p) := hpw.filter _
  have hnd : (famBuckets r p).Nodup := by
    refine hfampw.imp ?_
    intro a b hab heq
    rw [heq, keyLess_irrefl] at hab
    exact Bool.false_ne_true hab
  show (famBuckets r p).countP _ ≤ 1
  apply countP_le_one _ _ hnd
  intro a ha b hb hpa hpb
  have ha2 : a.size < a.cap := of_decide_eq_true hpa
  have hb2 : b.size < b.cap := of_decide_eq_true hpb
  have hla : lastOfFamily r p = some a := by
    by_contra hc
    have := packing_of_WF r hWF p a ha hc
    omega
  have hlb : lastOfFamily r p = some b := by
    by_contra hc
    have := packing_of_WF r hWF p b hb hc
    omega
  rw [hla] at hlb
  exact Option.some.inj hlb

/-! ## Claim C1 -/

/-- C1: in a well-formed state every bucket except its family's current last
    bucket is full and at most one bucket per family is partially filled;
    this packing invariant is preserved by declare_bucket, by remove_entity
    at a live slot, by destroy_bucket, and by internal_sort_bucket_entities
    (on their success states). -/
theorem claimC1_packing (r : Repo) (hWF : WF r) :
    (∀ p, ∀ b ∈ famBuckets r p, lastOfFamily r p ≠ some b → b.size = b.cap) ∧
    (∀ p, partialCount r p ≤ 1) ∧
    (∀ p r2 b, famSafe r → declareBucket r p = .ok (r2, b) →
      (∀ q, ∀ m ∈ famBuckets r2 q, lastOfFamily r2 q ≠ some m →
        m.size = m.cap) ∧
      (∀ q, partialCount r2 q ≤ 1)) ∧
    (∀ k i kb L r2 ev, getB r k = some kb → i < kb.size →
      lastOfFamily r kb.parts = some L → 0 < L.size →
      removeEntity r k i = .ok (r2, ev) →
      (∀ q, ∀ m ∈ famBuckets r2 q, lastOfFamily r2 q ≠ some m →
        m.size = m.cap) ∧
      (∀ q, partialCount r2 q ≤ 1)) ∧
    (∀ k r2, destroyBucketK r k = .ok r2 →
      (∀ q, ∀ m ∈ famBuckets r2 q, lastOfFamily r2 q ≠ some m →
        m.size = m.cap) ∧
      (∀ q, partialCount r2 q ≤ 1)) ∧
    (∀ r2 tr, famSafe r → internalSort r = .ok (r2, tr) →
      (∀ q, ∀ m ∈ famBuckets r2 q, lastOfFamily r2 q ≠ some m →
        m.size = m.cap) ∧
      (∀ q, partialCount r2 q ≤ 1)) := by
  have hpw := (chainKeys_iff_pairwise r.buckets).mp hWF.2.1
  refine ⟨packing_of_WF r hWF, fun p => partial_le1_of_WF r hWF p,
    ?_, ?_, ?_, ?_⟩
  · intro p r2 b hfs hd
    have hW2 := declare_ok_WF r p r2 b hWF hfs hd
    exact ⟨packing_of_WF _ hW2, fun q => partial_le1_of_WF _ hW2 q⟩
  · intro k i kb L r2 ev hget hi hlast hn hrem
    obtain ⟨hkbmem, hkbk⟩ := getB_some r k kb hget
    obtain ⟨hLmem, hLp⟩ := lastOfFamily_parts r kb.parts L hlast
    by_cases hcond : L.key = k ∧ kb.size = i + 1
    · have hkbL : kb = L :=
        keys_unique r.buckets hpw kb hkbmem L hLmem (hkbk.trans hcond.1.symm)
      have hlast2 : lastOfFamily r kb.parts = some kb := by
        rw [hkbL, hLp]
        exact hlast
      obtain ⟨r2', hev, hW2, _⟩ := remove_ok_nomove r k i kb hWF hget hi
        hlast2 hcond.2
      rw [hev] at hrem
      simp only [Except.ok.injEq, Prod.mk.injEq] at hrem
      rw [← hrem.1]
      exact ⟨packing_of_WF _ hW2, fun q => partial_le1_of_WF _ hW2 q⟩
    · obtain ⟨r2', e', he', hev, hW2, _⟩ :=
        remove_ok_move r k i kb L hWF hget hi hlast hn hcond
      rw [hev] at hrem
      simp only [Except.ok.injEq, Prod.mk.injEq] at hrem
      rw [← hrem.1]
      exact ⟨packing_of_WF _ hW2, fun q => partial_le1_of_WF _ hW2 q⟩
  · intro k r2 hd
    have hW2 := destroy_ok_WF r k r2 hWF hd
    exact ⟨packing_of_WF _ hW2, fun q => partial_le1_of_WF _ hW2 q⟩
  · intro r2 tr hfs hint
    obtain ⟨r2', tr', h1, hW2, _, _, _⟩ :=
      sortAll_spec (famParts r.buckets) r hWF hfs
    have h1' : internalSort r = .ok (r2', tr') := h1
    rw [h1'] at hint
    simp only [Except.ok.injEq, Prod.mk.injEq] at hint
    rw [← hint.1]
    exact ⟨packing_of_WF _ hW2, fun q => partial_le1_of_WF _ hW2 q⟩

/-- C1 witness: the packing facts instantiated at the two-bucket
    repository. -/
theorem claimC1_packing_witness :
    WF twoRepo ∧
      (∀ p, ∀ b ∈ famBuckets twoRepo p,
        lastOfFamily twoRepo p ≠ some b → b.size = b.cap) ∧
      (∀ p, partialCount twoRepo p ≤ 1) :=
  ⟨twoRepo_WF, (claimC1_packing twoRepo twoRepo_WF).1,
    (claimC1_packing twoRepo twoRepo_WF).2.1⟩

/-! ## Claim C9 -/

/-- C9: every mutating operation either fails leaving the repository exactly
    unchanged (declare_bucket and destroy_bucket errors carry the original
    state; remove_entity's only reachable failure is an unknown key, reported
    before any mutation) or completes with well-formedness — hence packing,
    ordering and family pointers — restored; internal_sort_bucket_entities
    never fails from a well-formed wrap-safe state. -/
theorem claimC9_failure_atomicity (r : Repo) (hWF : WF r) :
    (∀ p er, declareBucket r p = .error er → er.2 = r) ∧
    (∀ k er, destroyBucketK r k = .error er → er.2 = r) ∧
    (∀ k i er, removeEntity r k i = .error er → er.2 = r) ∧
    (∀ p r2 b, famSafe r → declareBucket r p = .ok (r2, b) → WF r2) ∧
    (∀ k i kb L r2 ev, getB r k = some kb → i < kb.size →
      lastOfFamily r kb.parts = some L → 0 < L.size →
      removeEntity r k i = .ok (r2, ev) → WF r2) ∧
    (∀ k r2, destroyBucketK r k = .ok r2 → WF r2) ∧
    (famSafe r → ∃ r2 tr, internalSort r = .ok (r2, tr) ∧ WF r2 ∧
      ∀ er, internalSort r ≠ .error er) := by
  have hpw := (chainKeys_iff_pairwise r.buckets).mp hWF.2.1
  refine ⟨?_, ?_, ?_, ?_, ?_, ?_, ?_⟩
  · intro p er her
    obtain ⟨e', rE⟩ := er
    exact declare_error_state r p e' rE her
  · intro k er her
    obtain ⟨e', rE⟩ := er
    exact destroy_error_state r k e' rE hWF her
  · intro k i er her
    obtain ⟨e', rE⟩ := er
    exact remove_error_state r k i e' rE hWF her
  · intro p r2 b hfs hd
    exact declare_ok_WF r p r2 b hWF hfs hd
  · intro k i kb L r2 ev hget hi hlast hn hrem
    obtain ⟨hkbmem, hkbk⟩ := getB_some r k kb hget
    obtain ⟨hLmem, hLp⟩ := lastOfFamily_parts r kb.parts L hlast
    by_cases hcond : L.key = k ∧ kb.size = i + 1
    · have hkbL : kb = L :=
        keys_unique r.buckets hpw kb hkbmem L hLmem (hkbk.trans hcond.1.symm)
      have hlast2 : lastOfFamily r kb.parts = some kb := by
        rw [hkbL, hLp]
        exact hlast
      obtain ⟨r2', hev, hW2, _⟩ := remove_ok_nomove r k i kb hWF hget hi
        hlast2 hcond.2
      rw [hev] at hrem
      simp only [Except.ok.injEq, Prod.mk.injEq] at hrem
      rw [← hrem.1]
      exact hW2
    · obtain ⟨r2', e', he', hev, hW2, _⟩ :=
        remove_ok_move r k i kb L hWF hget hi hlast hn hcond
      rw [hev] at hrem
      simp only [Except.ok.injEq, Prod.mk.injEq] at hrem
      rw [← hrem.1]
      exact hW2
  · intro k r2 hd
    exact destroy_ok_WF r k r2 hWF hd
  · intro hfs
    obtain ⟨r2, tr, h1, hW2, _, _, _⟩ :=
      sortAll_spec (famParts r.buckets) r hWF hfs
    have h1' : internalSort r = .ok (r2, tr) := h1
    refine ⟨r2, tr, h1', hW2, ?_⟩
    intro er hc
    rw [h1'] at hc
    exact absurd hc (by simp)

/-- C9 witness: the failure-atomicity facts instantiated at the two-bucket
    repository. -/
theorem claimC9_failure_atomicity_witness :
    WF twoRepo ∧
      (∀ p er, declareBucket twoRepo p = .error er → er.2 = twoRepo) ∧
      (∀ k i er, removeEntity twoRepo k i = .error er → er.2 = twoRepo) :=
  ⟨twoRepo_WF, (claimC9_failure_atomicity twoRepo twoRepo_WF).1,
    (claimC9_failure_atomicity twoRepo twoRepo_WF).2.2.1⟩

/-! ## Claim C8 -/

/-- C8 counterexample: resorting the reversed full bucket moves entity 11
    out to the scratch bucket's vacant slot and then performs further slot
    operations (a vacate and another move) before 11's relocation hook runs:
    the trace is not hook-immediate.  The hook for 11 still runs exactly
    once, later, in the iteration that places 11 at its target slot. -/
theorem claimC8_counterexample :
    evOf (sortFamily sortRepo [1]) = some
      [.moved 11 (rawKey [1] 1) 0, .vacate (rawKey [1] 0) 1,
        .moved 10 (rawKey [1] 0) 0, .hook 10,
        .vacate (rawKey [1] 1) 0, .moved 11 (rawKey [1] 0) 1, .hook 11] ∧
    hookImmediate
      [.moved 11 (rawKey [1] 1) 0, .vacate (rawKey [1] 0) 1,
        .moved 10 (rawKey [1] 0) 0, .hook 10,
        .vacate (rawKey [1] 1) 0, .moved 11 (rawKey [1] 0) 1, .hook 11]
      = false ∧
    List.count (Ev.hook 11)
      [.moved 11 (rawKey [1] 1) 0, .vacate (rawKey [1] 0) 1,
        .moved 10 (rawKey [1] 0) 0, .hook 10,
        .vacate (rawKey [1] 1) 0, .moved 11 (rawKey [1] 0) 1, .hook 11]
      = 1 := by
  decide

/-- C8 (amended): remove_entity invokes the relocation hook synchronously,
    immediately after the moved object's back-reference update and before
    the next slot operation; the compaction scan of
    internal_sort_bucket_entities instead defers the hook of an object moved
    to the vacant cursor until the iteration that places it at its target
    slot (see the counterexample), though every placed object is hooked in
    its own iteration. -/
theorem claimC8_remove_hook_immediate (r : Repo) (k : List Nat) (i : Nat)
    (kb L : Bucket) (hWF : WF r) (hget : getB r k = some kb)
    (hi : i < kb.size) (hlast : lastOfFamily r kb.parts = some L)
    (hn : 0 < L.size) :
    ∃ r2 ev, removeEntity r k i = .ok (r2, ev) ∧ hookImmediate ev = true := by
  by_cases hcond : L.key = k ∧ kb.size = i + 1
  · have hpw := (chainKeys_iff_pairwise r.buckets).mp hWF.2.1
    obtain ⟨hkbmem, hkbk⟩ := getB_some r k kb hget
    obtain ⟨hLmem, hLp⟩ := lastOfFamily_parts r kb.parts L hlast
    have hkbL : kb = L :=
      keys_unique r.buckets hpw kb hkbmem L hLmem (hkbk.trans hcond.1.symm)
    have hlast2 : lastOfFamily r kb.parts = some kb := by
      rw [hkbL, hLp]
      exact hlast
    obtain ⟨r2, hev, _⟩ := remove_ok_nomove r k i kb hWF hget hi hlast2 hcond.2
    exact ⟨r2, [.vacate k i], hev, rfl⟩
  · obtain ⟨r2, e, he, hev, _⟩ :=
      remove_ok_move r k i kb L hWF hget hi hlast hn hcond
    refine ⟨r2, _, hev, ?_⟩
    show hookImmediate [.moved e k i, .hook e, .vacate L.key (L.size - 1)]
      = true
    simp [hookImmediate]

/-- C8 witness: removing slot 0 of the two-bucket family produces a
    hook-immediate trace. -/
theorem claimC8_remove_hook_immediate_witness :
    ∃ r2 ev, removeEntity twoRepo (rawKey [1] 0) 0 = .ok (r2, ev) ∧
      hookImmediate ev = true :=
  claimC8_remove_hook_immediate twoRepo (rawKey [1] 0) 0
    { parts := [1], fam := 0, cap := 2, size := 2,
      slots := [some 5, some 6], data := [0, 0] }
    { parts := [1], fam := 1, cap := 2, size := 1,
      slots := [some 7, none], data := [0, 0] }
    twoRepo_WF (by decide) (by decide) (by decide) (by decide)

/-! ## Claim C4 -/

/-- C4 counterexample: the stored bucket key is not "category ordinals
    followed by the family-sequence counter" — it carries a leading
    part-count field.  Declaring families {3,4} and {5} from an empty
    repository yields a list sorted by the stored keys (count first), but not
    by the claim's key (ordinals then counter): family {5} sorts before
    family {3,4} because its stored key starts with the smaller count. -/
theorem claimC4_counterexample :
    declareBucket emptyRepo [3, 4] =
      .ok (c4r1, freshBucket emptyRepo [3, 4] 0) ∧
    declareBucket c4r1 [5] = .ok (c4r2, freshBucket c4r1 [5] 0) ∧
    c4r2.buckets.map specKey = [[5, 0], [3, 4, 0]] ∧
    List.Chain' (fun a b => keyLess a.key b.key = true) c4r2.buckets ∧
    ¬ List.Chain' (fun a b => keyLess (specKey a) (specKey b) = true)
      c4r2.buckets := by
  refine ⟨rfl, rfl, by decide, (chainKeys_iff_pairwise _).mpr (by decide), ?_⟩
  intro hch
  have hch2 : List.Chain' (fun x y => keyLess x y = true)
      (c4r2.buckets.map specKey) := by
    rw [List.chain'_map]
    exact hch
  rw [show c4r2.buckets.map specKey = [[5, 0], [3, 4, 0]] from by decide,
    List.chain'_cons] at hch2
  exact absurd hch2.1 (by decide)

/-- C4 (amended): the stored key carries the part-count prefix, the ordinals
    and the family counter; under the raw-key order the bucket list of a
    well-formed repository stays strictly increasing across declare_bucket,
    and any allocation is inserted exactly at the binary-search position for
    the family's wildcard search key. -/
theorem claimC4_order (r : Repo) (p : List Nat) (r2 : Repo) (b : Bucket)
    (hWF : WF r) (hfs : famSafe r)
    (hok : declareBucket r p = .ok (r2, b)) :
    List.Chain' (fun a b => keyLess a.key b.key = true) r2.buckets ∧
    (r2.buckets = r.buckets ∨
      r2.buckets = r.buckets.insertIdx (lowerBound r.buckets (searchKey p)) b) := by
  refine ⟨(declare_ok_WF r p r2 b hWF hfs hok).2.1, ?_⟩
  rcases declare_ok_cases r p r2 b hWF hfs hok with
    ⟨L, _, _, hr2, _, _⟩ | ⟨L, _, _, _, hr2⟩ | ⟨_, _, hr2⟩
  · left
    rw [hr2]
  · right
    rw [hr2]
    rfl
  · right
    rw [hr2]
    rfl

/-- C4 witness: declaring family {3,4} into the empty repository places its
    bucket at the binary-search position and keys stay strictly sorted. -/
theorem claimC4_order_witness :
    List.Chain' (fun a b => keyLess a.key b.key = true) c4r1.buckets ∧
    (c4r1.buckets = emptyRepo.buckets ∨
      c4r1.buckets = emptyRepo.buckets.insertIdx
        (lowerBound emptyRepo.buckets (searchKey [3, 4]))
        (freshBucket emptyRepo [3, 4] 0)) :=
  claimC4_order emptyRepo [3, 4] c4r1 (freshBucket emptyRepo [3, 4] 0)
    ⟨by decide, by simp [emptyRepo], by intro b hb; simp [emptyRepo] at hb⟩
    (by intro b hb; simp [emptyRepo] at hb) rfl

/-! ## Claim C5 -/

/-- C5: during field-layout resolution, for every field, if two restrictions
    that both match the family's (kind, category-ordinal) pairs disagree on
    stride, resolution fails with an error naming the field and two offending
    categories whose matching restrictions disagree; if all matching
    restrictions agree, resolution succeeds for that field; in particular a
    field restricted by two categories to stride 3 and by one to stride 4
    fails naming that field. -/
theorem claimC5_schema_conflict (f : FieldB) (etype : Nat) (parts : List Nat)
    (hrs : List.Pairwise (fun a b => rkeyLess a.rkey b.rkey = true) f.restrictions)
    (hps : List.Chain' (· < ·) parts) :
    ((∀ r1 r2, MatchesR f etype parts r1 → MatchesR f etype parts r2 →
        r1.stride = r2.stride) → ∃ out, dimension f etype parts = .ok out) ∧
    ((∃ r1 r2, MatchesR f etype parts r1 ∧ MatchesR f etype parts r2 ∧
        r1.stride ≠ r2.stride) →
      ∃ e, dimension f etype parts = .error e ∧ e.fieldName = f.fname ∧
        ∃ r1 r2, MatchesR f etype parts r1 ∧ MatchesR f etype parts r2 ∧
          r1.part = e.partOld ∧ r2.part = e.partNew ∧ r1.stride ≠ r2.stride) ∧
    dimension fieldScenario 2 [1, 2, 3] = .error ⟨5, 3, 1⟩ := by
  refine ⟨?_, ?_, by decide⟩
  · intro hagree
    exact dimensionAux_agree_ok f etype parts hagree parts f.restrictions none
      (List.Sublist.refl _) (fun p hp => hp) (by intro d hd; cases hd)
  · intro hdis
    obtain ⟨r1, r2, hM1, hM2, hne⟩ := hdis
    cases hres : dimension f etype parts with
    | ok out =>
      exfalso
      obtain ⟨d1, hd1, hs1⟩ := dimensionAux_ok_covers f.fname etype parts f.restrictions
        none out hrs hps hres r1 hM1.1 hM1.2.1 hM1.2.2
      obtain ⟨d2, hd2, hs2⟩ := dimensionAux_ok_covers f.fname etype parts f.restrictions
        none out hrs hps hres r2 hM2.1 hM2.2.1 hM2.2.2
      rw [hd1] at hd2
      have hdd : d1 = d2 := Option.some.injEq _ _ |>.mp hd2
      apply hne
      rw [hs1, hs2, hdd]
    | error e =>
      exact ⟨e, rfl, dimensionAux_error_names f etype parts parts f.restrictions none e
        (List.Sublist.refl _) (fun p hp => hp) (by intro d hd; cases hd) hres⟩

/-- Witness for C5 at the concrete conflict scenario. -/
theorem claimC5_schema_conflict_witness :
    (List.Pairwise (fun a b => rkeyLess a.rkey b.rkey = true)
        fieldScenario.restrictions ∧
      List.Chain' (· < ·) [1, 2, 3]) ∧
    (((∀ r1 r2, MatchesR fieldScenario 2 [1, 2, 3] r1 →
        MatchesR fieldScenario 2 [1, 2, 3] r2 → r1.stride = r2.stride) →
        ∃ out, dimension fieldScenario 2 [1, 2, 3] = .ok out) ∧
      ((∃ r1 r2, MatchesR fieldScenario 2 [1, 2, 3] r1 ∧
          MatchesR fieldScenario 2 [1, 2, 3] r2 ∧ r1.stride ≠ r2.stride) →
        ∃ e, dimension fieldScenario 2 [1, 2, 3] = .error e ∧
          e.fieldName = fieldScenario.fname ∧
          ∃ r1 r2, MatchesR fieldScenario 2 [1, 2, 3] r1 ∧
            MatchesR fieldScenario 2 [1, 2, 3] r2 ∧
            r1.part = e.partOld ∧ r2.part = e.partNew ∧ r1.stride ≠ r2.stride) ∧
      dimension fieldScenario 2 [1, 2, 3] = .error ⟨5, 3, 1⟩) :=
  ⟨⟨by decide, by simp [List.chain'_cons]⟩,
    claimC5_schema_conflict fieldScenario 2 [1, 2, 3] (by decide)
      (by simp [List.chain'_cons])⟩

/-! ## Claim C6 -/

/-- C6 (amended): offsets are assigned in field-registration order; the first
    field's base offset is the 16-byte-aligned end of the reserved
    handle-pointer array `align(ptrSize * capacity)`; each next offset equals
    the previous offset plus the previous field's whole per-bucket array size
    `slot size * capacity` rounded up to a 16-byte boundary; a field with no
    matching restriction gets slot size zero; consequently all offsets are
    16-byte aligned and non-decreasing (equal across zero-sized arrays, not
    strictly increasing). -/
theorem claimC6_layout (cap etype : Nat) (parts : List Nat)
    (fields : List FieldB) (fm : List (Nat × Nat)) (endOff : Nat)
    (h : computeFieldMap cap etype parts fields = .ok (fm, endOff)) :
    offsetsChained cap (align (ptrSize * cap)) fm endOff ∧
    (∀ pr ∈ fm, 16 ∣ pr.1) ∧ 16 ∣ endOff ∧
    List.Chain' (· ≤ ·) (fm.map Prod.fst) ∧
    List.Forall₂ (fun f pr => (dimension f etype parts).map (fieldSize f) = .ok pr.2)
      fields fm := by
  have hch := computeFieldMapAux_chained cap etype parts fields _ fm endOff h
  refine ⟨hch, ?_, ?_, ?_, computeFieldMapAux_sizes cap etype parts fields _ fm endOff h⟩
  · exact (offsetsChained_dvd cap fm _ _ (dvd_align _) hch).1
  · exact (offsetsChained_dvd cap fm _ _ (dvd_align _) hch).2
  · exact (offsetsChained_mono cap fm _ _ hch).1

/-- Witness for C6 at the sizes-{4,0,12}, capacity-8 family. -/
theorem claimC6_layout_witness :
    computeFieldMap 8 2 [1] fieldsC6 = .ok ([(64, 4), (96, 0), (96, 12)], 192) ∧
    (offsetsChained 8 (align (ptrSize * 8)) [(64, 4), (96, 0), (96, 12)] 192 ∧
      (∀ pr ∈ [(64, 4), (96, 0), (96, 12)], 16 ∣ pr.1) ∧ (16 ∣ 192) ∧
      List.Chain' (· ≤ ·) ([(64, 4), (96, 0), (96, 12)].map Prod.fst) ∧
      List.Forall₂ (fun f pr => (dimension f 2 [1]).map (fieldSize f) = .ok pr.2)
        fieldsC6 [(64, 4), (96, 0), (96, 12)]) :=
  ⟨by decide, claimC6_layout 8 2 [1] fieldsC6 _ _ (by decide)⟩

/-- C6 counterexample: for per-slot sizes {4, 0, 12} and capacity 8 the
    resolved offsets are 64, 96, 96 — 16-byte aligned but not strictly
    increasing — and the second offset is not the first plus the first slot
    size aligned to 16 bytes (the code advances by `align(size * capacity)`,
    not `align(size)`). -/
theorem claimC6_counterexample :
    computeFieldMap 8 2 [1] fieldsC6 = .ok ([(64, 4), (96, 0), (96, 12)], 192) ∧
    ¬ List.Chain' (· < ·) ([(64, 4), (96, 0), (96, 12)].map Prod.fst) ∧
    64 + align 4 ≠ 96 := by
  refine ⟨by decide, ?_, by decide⟩
  intro hc
  rw [List.map_cons, List.map_cons, List.map_cons, List.map_nil,
    List.chain'_cons, List.chain'_cons] at hc
  exact absurd hc.2.1 (by omega)

end BucketRepo
